import Mathlib

/-!
# Amicable-set search of `legendre_pairs`: a shallow embedding

The development embeds `src/src/set.h++` and `src/src/set.c++` (the class `set_t`, the
helpers `cross_corr`, `cross_corrs`, `rotations`, `_amicable` and the member function
`set_t::amicable`) and proves properties of them.

Modelling conventions.

* `std::vector<int>` is `List Int`; `std::vector<std::vector<int>>` is `List (List Int)`;
  `perm` (`std::vector<unsigned>`) is `List Nat`.
* C++ `int` values are mathematical integers.  Signed overflow is undefined behaviour in
  C++, so it has no value to model; sequence entries are `+1`/`-1` in the data model and
  the sums stay far below `2^31`.
* `v[i]` is `v.getD i d` with `d = 0` for an `int` and `d = []` for a vector.  An
  out-of-range access is undefined behaviour in C++; the theorems carry the length
  hypotheses under which every access is in range.
* A moved-from vector is empty.
* A loop that writes each cell of a zero-initialised array once is a `map` over
  `List.range`; a loop that returns from inside its body is `List.findSome?` over
  `List.range` (the first index whose body returns), or a recursion over the list of
  iterations when the state changes between iterations.
* `_amicable` returns `bool` and mutates its argument: the model returns the pair of the
  verdict and the state after the call.  `set_t::amicable` returns `void`: the model
  returns the state after the call together with a ghost flag telling whether some
  `_amicable` call returned `true`.  Text written to `std::cout` is not part of the state.
-/

namespace LegendrePairs

/-- Type `seq` of `set.h++`: `std::vector<int>`. -/
abbrev seq := List Int

/-- Type `seqs` of `set.h++`: `std::vector<seq>`. -/
abbrev seqs := List (List Int)

/-- Type `perm` of `set.h++`: `std::vector<unsigned>`. -/
abbrev perm := List Nat

/-- Table `P` of `set.c++`: the three representative permutations. -/
def P : List perm := [[0, 1, 2, 3], [0, 2, 1, 3], [0, 3, 1, 2]]

/-- Function `cross_corr` of `set.c++`: the loop over `i` accumulates
`s1[i] * s2[J]` with `J = i - j`, wrapped by adding `s1.size()` when negative. -/
def cross_corr (j : Int) (s1 s2 : seq) : Int :=
  (List.range s1.length).foldl
    (fun (sum : Int) (i : Nat) =>
      let J : Int := (i : Int) - j
      let J : Int := if J < 0 then (s1.length : Int) + J else J
      sum + s1.getD i 0 * s2.getD J.toNat 0)
    0

/-- Function `cross_corrs` of `set.c++`: entry `j` is `cross_corr(j, s1, s2)`. -/
def cross_corrs (s1 s2 : seq) : seq :=
  (List.range s1.length).map (fun (j : Nat) => cross_corr (j : Int) s1 s2)

/-- First loop nest of `rotations`: `S[i][j] = s[J]` with `J = j + i`, reduced by
`s.size()` when it is not below it. -/
def rotations_S (s : seq) : seqs :=
  (List.range s.length).map (fun i =>
    (List.range s.length).map (fun j =>
      let J := j + i
      let J := if J < s.length then J else J - s.length
      s.getD J 0))

/-- Function `rotations` of `set.c++`: `T` has `s.size()` rows of `s.size() / 2`
zero-initialised columns, and the second loop nest writes
`T[i][j] = S[i][j] - S[i][s.size() - j]` for `j` from `1`. -/
def rotations (s : seq) : seqs :=
  let S := rotations_S s
  (List.range s.length).map (fun i =>
    (List.range (s.length / 2)).map (fun j =>
      if 1 ≤ j then (S.getD i []).getD j 0 - (S.getD i []).getD (s.length - j) 0
      else 0))

/-- Class `set_t` of `set.h++`: the length `n`, the sequences `s` and the reversals `r`. -/
structure set_t where
  n : Nat
  s : seqs
  r : seqs
deriving DecidableEq, Repr

/-- Member `set_t::apply_perm`: `S[k] = std::move(s[p[k]])` for `k = 0..3` in this order
(each move empties its source), then `s = std::move(S)`.  The reversals are untouched. -/
def set_t.apply_perm (t : set_t) (p : perm) : set_t :=
  let s0 := t.s
  let S0 := s0.getD (p.getD 0 0) []
  let s1 := s0.set (p.getD 0 0) []
  let S1 := s1.getD (p.getD 1 0) []
  let s2 := s1.set (p.getD 1 0) []
  let S2 := s2.getD (p.getD 2 0) []
  let s3 := s2.set (p.getD 2 0) []
  let S3 := s3.getD (p.getD 3 0) []
  { t with s := [S0, S1, S2, S3] }

/-- Member `set_t::negate`: every element of `s[0]` and of `r[0]` changes sign. -/
def set_t.negate (t : set_t) : set_t :=
  { t with
    s := t.s.set 0 ((t.s.getD 0 []).map (fun x => -x))
    r := t.r.set 0 ((t.r.getD 0 []).map (fun x => -x)) }

/-- Library call `std::rotate(first, first + k, last)` over a whole vector: the element
at offset `k` becomes the first one. -/
def std_rotate (v : seq) (k : Nat) : seq := v.drop k ++ v.take k

/-- The call `std::rotate(v.rbegin(), v.rbegin() + k, v.rend())`: the rotation acts on
the vector seen through its reverse iterators. -/
def rotate_rev (v : seq) (k : Nat) : seq := (std_rotate v.reverse k).reverse

/-- The assignment to slot `k` of the forward sequences. -/
def set_t.set_s (t : set_t) (k : Nat) (v : seq) : set_t := { t with s := t.s.set k v }

/-- Lag loop of `_amicable` (`for j ...`): `flag` is cleared when the sum is not zero,
`neg` when the difference is not zero, and the loop is left once both are cleared. -/
def lag_scan (c1 c2 : seq) : List Nat → Bool → Bool → Bool × Bool
  | [], flag, neg => (flag, neg)
  | j :: js, flag, neg =>
    let flag := if c1.getD j 0 + c2.getD j 0 ≠ 0 then false else flag
    let neg := if -(c1.getD j 0) + c2.getD j 0 ≠ 0 then false else neg
    if (!flag && !neg) then (flag, neg) else lag_scan c1 c2 js flag neg

/-- The `flag` branch of `_amicable`: `apply_perm(p)`, then the two rotations of slots
`1` and `3` through their reverse iterators by `i1` and `i2`. -/
def apply_flag (t : set_t) (p : perm) (i1 i2 : Nat) : set_t :=
  let t := t.apply_perm p
  let t := t.set_s 1 (rotate_rev (t.s.getD 1 []) i1)
  let t := t.set_s 3 (rotate_rev (t.s.getD 3 []) i2)
  t

/-- The `neg` branch of `_amicable`: `apply_perm(p)`, `negate()`, then the two rotations
of slots `1` and `3` through their reverse iterators by `i1` and `i2`. -/
def apply_neg (t : set_t) (p : perm) (i1 i2 : Nat) : set_t :=
  let t := t.apply_perm p
  let t := t.negate
  let t := t.set_s 1 (rotate_rev (t.s.getD 1 []) i1)
  let t := t.set_s 3 (rotate_rev (t.s.getD 3 []) i2)
  t

/-- Body of the two row loops of `_amicable` at the rows `i1`, `i2`: the lag loop over
the columns `j < corrs1[0].size()`, then the `flag` branch, then the `neg` branch.  The
value is the state with which the function returns `true` from this iteration, or `none`
when the iteration falls through. -/
def amicable_body (t : set_t) (p : perm) (corrs1 corrs2 : seqs) (i1 i2 : Nat) :
    Option set_t :=
  let fn := lag_scan (corrs1.getD i1 []) (corrs2.getD i2 [])
    (List.range (corrs1.getD 0 []).length) true true
  if fn.1 then some (apply_flag t p i1 i2)
  else if fn.2 then some (apply_neg t p i1 i2)
  else none

/-- First matrix of `_amicable`: `rotations(cross_corrs(s[p[0]], s[p[1]]))`. -/
def corrs1 (t : set_t) (p : perm) : seqs :=
  rotations (cross_corrs (t.s.getD (p.getD 0 0) []) (t.s.getD (p.getD 1 0) []))

/-- Second matrix of `_amicable`: `rotations(cross_corrs(s[p[2]], s[p[3]]))`. -/
def corrs2 (t : set_t) (p : perm) : seqs :=
  rotations (cross_corrs (t.s.getD (p.getD 2 0) []) (t.s.getD (p.getD 3 0) []))

/-- Function `_amicable` of `set.c++`: the rows `i1` (outer) and `i2` (inner) are
scanned in increasing order and the function returns `true` from the first iteration
whose body returns; otherwise it returns `false` and the state is as it was. -/
def _amicable (t : set_t) (p : perm) : Bool × set_t :=
  let c1 := corrs1 t p
  let c2 := corrs2 t p
  match (List.range c1.length).findSome? (fun i1 =>
      (List.range c2.length).findSome? (fun i2 => amicable_body t p c1 c2 i1 i2)) with
  | some t1 => (true, t1)
  | none => (false, t)

/-- The call `std::swap(s[k], r[k])`. -/
def set_t.swap_slot (t : set_t) (k : Nat) : set_t :=
  { t with s := t.s.set k (t.r.getD k []), r := t.r.set k (t.s.getD k []) }

/-- The call `std::reverse(s[k].begin(), s[k].end())`. -/
def set_t.reverse_slot (t : set_t) (k : Nat) : set_t :=
  t.set_s k (t.s.getD k []).reverse

/-- First loop of `set_t::amicable`: no statement before the `_amicable` call. -/
def prepare1 (t : set_t) (_ : perm) : set_t := t

/-- First loop of `set_t::amicable`: no statement after a failed call. -/
def restore1 (t : set_t) (_ : perm) : set_t := t

/-- Second loop of `set_t::amicable`, the statements before the `_amicable` call:
swap slot `p[3]` with its reversal, then reverse `s[p[3]]`. -/
def prepare2 (t : set_t) (p : perm) : set_t :=
  (t.swap_slot (p.getD 3 0)).reverse_slot (p.getD 3 0)

/-- Second loop of `set_t::amicable`, the statement after a failed call. -/
def restore2 (t : set_t) (p : perm) : set_t := t.swap_slot (p.getD 3 0)

/-- Third loop of `set_t::amicable`, the statements before the `_amicable` call. -/
def prepare3 (t : set_t) (p : perm) : set_t :=
  (t.swap_slot (p.getD 1 0)).reverse_slot (p.getD 1 0)

/-- Third loop of `set_t::amicable`, the statement after a failed call. -/
def restore3 (t : set_t) (p : perm) : set_t := t.swap_slot (p.getD 1 0)

/-- Fourth loop of `set_t::amicable`, the statements before the `_amicable` call: both
swaps, then both reverses. -/
def prepare4 (t : set_t) (p : perm) : set_t :=
  (((t.swap_slot (p.getD 1 0)).swap_slot (p.getD 3 0)).reverse_slot
    (p.getD 1 0)).reverse_slot (p.getD 3 0)

/-- Fourth loop of `set_t::amicable`, the statements after a failed call. -/
def restore4 (t : set_t) (p : perm) : set_t :=
  (t.swap_slot (p.getD 1 0)).swap_slot (p.getD 3 0)

/-- One `for ( auto const& p : P )` loop of `set_t::amicable`: `pre` runs before the
`_amicable` call, `post` after a call that returned `false`; a call that returns `true`
ends the whole function. -/
def amicable_loop (pre post : set_t → perm → set_t) : List perm → set_t → Bool × set_t
  | [], t => (false, t)
  | p :: ps, t =>
    match _amicable (pre t p) p with
    | (true, t1) => (true, t1)
    | (false, t1) => amicable_loop pre post ps (post t1 p)

/-- Member `set_t::amicable` of `src/src/set.c++`: the four loops over `P` in order;
the flag tells whether some `_amicable` call returned `true`. -/
def set_t.amicable (t : set_t) : Bool × set_t :=
  match amicable_loop prepare1 restore1 P t with
  | (true, t1) => (true, t1)
  | (false, t1) =>
    match amicable_loop prepare2 restore2 P t1 with
    | (true, t2) => (true, t2)
    | (false, t2) =>
      match amicable_loop prepare3 restore3 P t2 with
      | (true, t3) => (true, t3)
      | (false, t3) => amicable_loop prepare4 restore4 P t3

/-- A quadruple: four forward sequences and four reversals, all of length `n`. -/
def set_t.quadruple (t : set_t) : Prop :=
  t.s.length = 4 ∧ t.r.length = 4 ∧ (∀ x ∈ t.s, x.length = t.n) ∧ (∀ x ∈ t.r, x.length = t.n)

instance (t : set_t) : Decidable t.quadruple := by
  unfold set_t.quadruple; infer_instance

/-- The state left by `operator>>`: a quadruple whose reversals are the element-wise
reverses of the forward sequences (`S.r = S.s` followed by `std::reverse` of each). -/
def set_t.as_read (t : set_t) : Prop :=
  t.quadruple ∧ t.r = t.s.map List.reverse

instance (t : set_t) : Decidable t.as_read := by
  unfold set_t.as_read; infer_instance

/-- Sum-zero condition of `_amicable` on the rows `a`, `b` over the lags `1 ≤ j < n/2`. -/
def sum_zero (a b : seq) (n : Nat) : Prop :=
  ∀ j, 1 ≤ j → j < n / 2 → a.getD j 0 + b.getD j 0 = 0

/-- Difference-zero condition of `_amicable` on the rows `a`, `b` over `1 ≤ j < n/2`. -/
def diff_zero (a b : seq) (n : Nat) : Prop :=
  ∀ j, 1 ≤ j → j < n / 2 → -(a.getD j 0) + b.getD j 0 = 0

instance (a b : seq) (n : Nat) : Decidable (sum_zero a b n) := by
  unfold sum_zero; infer_instance

instance (a b : seq) (n : Nat) : Decidable (diff_zero a b n) := by
  unfold diff_zero; infer_instance

/-- The wrapped index `J` computed by `cross_corr` at position `i` and lag `j` for
sequences of length `n`. -/
def wrap_index (n : Nat) (i : Nat) (j : Int) : Nat :=
  (if (i : Int) - j < 0 then (n : Int) + ((i : Int) - j) else (i : Int) - j).toNat

/-- Row `i1` of the first matrix of `_amicable`. -/
def rowA (t : set_t) (p : perm) (i1 : Nat) : seq := (corrs1 t p).getD i1 []

/-- Row `i2` of the second matrix of `_amicable`. -/
def rowB (t : set_t) (p : perm) (i2 : Nat) : seq := (corrs2 t p).getD i2 []

/-- The pair of rows `(i1, i2)` satisfies the sum-zero or the difference-zero condition. -/
def pair_ok (t : set_t) (p : perm) (i1 i2 : Nat) : Prop :=
  sum_zero (rowA t p i1) (rowB t p i2) t.n ∨ diff_zero (rowA t p i1) (rowB t p i2) t.n

instance (t : set_t) (p : perm) (i1 i2 : Nat) : Decidable (pair_ok t p i1 i2) := by
  unfold pair_ok; infer_instance

/-- The state in which `operator>>` leaves a `set_t` of length `n` after reading the four
groups `s`: `S.r = S.s`, then every element of `S.r` is reversed. -/
def set_t.of_seqs (n : Nat) (s : seqs) : set_t :=
  { n := n, s := s, r := s.map List.reverse }

/-- Example input, length 6: `_amicable` succeeds on the identity permutation at the rows
`(2, 1)` through the difference-zero condition. -/
def ex_neg6 : set_t :=
  set_t.of_seqs 6
    [[1, -1, 1, 1, 1, 1], [-1, 1, -1, -1, 1, 1], [-1, 1, 1, -1, 1, 1], [1, 1, -1, -1, 1, -1]]

/-- Example input, length 6: `_amicable` fails on the identity permutation and succeeds
on `(0,2,1,3)` at the rows `(2, 1)` through the sum-zero condition. -/
def ex_second6 : set_t :=
  set_t.of_seqs 6
    [[1, 1, 1, 1, -1, 1], [1, -1, -1, 1, 1, 1], [1, 1, 1, 1, 1, -1], [-1, -1, 1, -1, -1, 1]]

/-- Example input, length 4: all twelve `_amicable` calls of `set_t::amicable` fail. -/
def ex_fail4 : set_t :=
  set_t.of_seqs 4 [[1, 1, 1, -1], [1, 1, -1, -1], [1, 1, -1, -1], [1, 1, -1, -1]]

/-- Example input, length 10, entries `+1`/`-1`: all twelve `_amicable` calls of
`set_t::amicable` fail, while reversing slot `2` makes the permutation `(0,3,1,2)` succeed. -/
def ex_ten : set_t :=
  set_t.of_seqs 10
    [[1, 1, -1, -1, 1, -1, 1, -1, -1, -1], [-1, -1, 1, -1, 1, -1, -1, 1, -1, -1],
     [-1, -1, -1, 1, -1, 1, 1, -1, 1, 1], [1, 1, -1, 1, 1, 1, 1, 1, -1, -1]]

/-- The amicability identity on the out-of-phase lags for the first four sequences of `s`
of length `n`: for every `1 ≤ j < n`,
`(cc01[j] - cc01[n-j]) + (cc23[j] - cc23[n-j]) = 0`, where `cc01 = cross_corrs s[0] s[1]`
and `cc23 = cross_corrs s[2] s[3]`. -/
def amicable_identity (s : seqs) (n : Nat) : Prop :=
  ∀ j, 1 ≤ j → j < n →
    ((cross_corrs (s.getD 0 []) (s.getD 1 [])).getD j 0 -
      (cross_corrs (s.getD 0 []) (s.getD 1 [])).getD (n - j) 0) +
    ((cross_corrs (s.getD 2 []) (s.getD 3 [])).getD j 0 -
      (cross_corrs (s.getD 2 []) (s.getD 3 [])).getD (n - j) 0) = 0

instance (s : seqs) (n : Nat) : Decidable (amicable_identity s n) := by
  unfold amicable_identity; infer_instance

/-- A sequence, reversed when the flag is set. -/
def rev_if (b : Bool) (v : seq) : seq := if b then v.reverse else v

/-- The right-hand side of the completeness statement for the symmetry group
(permutation × reversal × rotation): some representative permutation `p`, some reversal
state `(rev1, rev3)` and some offsets `i1, i2 < n` satisfy the sum-zero or the
difference-zero condition on the rows of
`A = rotations(cross_corrs(q[p[0]], q[p[1]]'))` and
`B = rotations(cross_corrs(q[p[2]], q[p[3]]'))`, where `q[p[1]]'` is `q[p[1]]` reversed
iff `rev1` and `q[p[3]]'` is `q[p[3]]` reversed iff `rev3`. -/
def transform_exists (t : set_t) : Prop :=
  ∃ p ∈ P, ∃ rev1 rev3 : Bool, ∃ i1, i1 < t.n ∧ ∃ i2, i2 < t.n ∧
    (sum_zero
      ((rotations (cross_corrs (t.s.getD (p.getD 0 0) [])
        (rev_if rev1 (t.s.getD (p.getD 1 0) [])))).getD i1 [])
      ((rotations (cross_corrs (t.s.getD (p.getD 2 0) [])
        (rev_if rev3 (t.s.getD (p.getD 3 0) [])))).getD i2 []) t.n ∨
     diff_zero
      ((rotations (cross_corrs (t.s.getD (p.getD 0 0) [])
        (rev_if rev1 (t.s.getD (p.getD 1 0) [])))).getD i1 [])
      ((rotations (cross_corrs (t.s.getD (p.getD 2 0) [])
        (rev_if rev3 (t.s.getD (p.getD 3 0) [])))).getD i2 []) t.n)

/-- The pair of rows `(i1, i2)` is the first one, in the order of the row loops of
`_amicable` (`i1` outer, `i2` inner), that satisfies the sum-zero or the difference-zero
condition: the iteration from which `_amicable` returns `true`. -/
def first_pair (t : set_t) (p : perm) (i1 i2 : Nat) : Prop :=
  i1 < t.n ∧ i2 < t.n ∧ pair_ok t p i1 i2 ∧
    ∀ k1, k1 < t.n → ∀ k2, k2 < t.n → pair_ok t p k1 k2 → i1 < k1 ∨ (i1 = k1 ∧ i2 ≤ k2)

instance (t : set_t) (p : perm) (i1 i2 : Nat) : Decidable (first_pair t p i1 i2) := by
  unfold first_pair; infer_instance

/-- Constructor `set_t(unsigned _n)`: `n{_n}, s(4, seq(n))`; the reversals start empty. -/
def set_t.make (n : Nat) : set_t :=
  { n := n, s := List.replicate 4 (List.replicate n 0), r := [] }

/-- The call `is >> s` for a `seq` (`for ( auto& x : s ) is >> x;`).  The stream is the
list of the integers still to be read; an extraction from an exhausted stream fails and
stores nothing, and so does every later one. -/
def read_seq : seq → List Int → seq × List Int
  | [], input => ([], input)
  | x :: xs, [] => (x :: xs, [])
  | _ :: xs, a :: input => ((a :: (read_seq xs input).1), (read_seq xs input).2)

/-- The loop `for ( auto& x : S.s ) is >> x;` of `operator>>` for `set_t`. -/
def read_seqs : seqs → List Int → seqs × List Int
  | [], input => ([], input)
  | v :: vs, input =>
    ((read_seq v input).1 :: (read_seqs vs (read_seq v input).2).1,
      (read_seqs vs (read_seq v input).2).2)

/-- Friend `operator>>` of `set_t`: the four sequences are read, then `S.r = S.s` and
every element of `S.r` is reversed.  The value is the state and the rest of the stream. -/
def set_t.read (t : set_t) (input : List Int) : set_t × List Int :=
  ({ t with s := (read_seqs t.s input).1,
            r := (read_seqs t.s input).1.map List.reverse },
    (read_seqs t.s input).2)

/-- Example input, length 4: the four sequences are `1 1 1 1`. -/
def ex_ones : set_t :=
  set_t.of_seqs 4 [[1, 1, 1, 1], [1, 1, 1, 1], [1, 1, 1, 1], [1, 1, 1, 1]]

/-- Example input, length 4: the quadruple of the negative end-to-end scenario. -/
def ex_scenario : set_t :=
  set_t.of_seqs 4 [[1, 1, 1, 1], [1, 1, 1, 1], [1, -1, 1, -1], [1, 1, -1, -1]]

instance (t : set_t) : Decidable (transform_exists t) := by
  unfold transform_exists; infer_instance


/-- Function `operator<<(std::ostream&, seq const&)` of `set.h++`: every value is written
in decimal and followed by one blank (`os << x << " "`).  The stream is the text written
so far. -/
def write_seq (os : String) (v : seq) : String :=
  v.foldl (fun (os : String) (x : Int) => (os ++ toString x) ++ " ") os

/-- Friend `operator<<(std::ostream&, set_t const&)`: every forward sequence is written
and followed by a newline (`os << x << '\n'`). -/
def write_set (os : String) (t : set_t) : String :=
  t.s.foldl (fun (os : String) (x : seq) => write_seq os x ++ "\n") os

/-- Body of the row loops of `_amicable` with the text it writes: in both branches the
transformed set is written to `std::cout` and followed by a newline
(`std::cout << s << '\n'`) before `return true`. -/
def amicable_body_text (t : set_t) (p : perm) (corrs1 corrs2 : seqs) (i1 i2 : Nat) :
    Option (set_t × String) :=
  let fn := lag_scan (corrs1.getD i1 []) (corrs2.getD i2 [])
    (List.range (corrs1.getD 0 []).length) true true
  if fn.1 then
    some (apply_flag t p i1 i2, write_set "" (apply_flag t p i1 i2) ++ "\n")
  else if fn.2 then
    some (apply_neg t p i1 i2, write_set "" (apply_neg t p i1 i2) ++ "\n")
  else none

/-- Function `_amicable` with the text it writes to `std::cout`: the verdict, the state
after the call and the text. -/
def _amicable_text (t : set_t) (p : perm) : Bool × set_t × String :=
  let c1 := corrs1 t p
  let c2 := corrs2 t p
  match (List.range c1.length).findSome? (fun i1 =>
      (List.range c2.length).findSome? (fun i2 => amicable_body_text t p c1 c2 i1 i2)) with
  | some (t1, text) => (true, t1, text)
  | none => (false, t, "")

/-- One loop of `set_t::amicable` with the text written so far. -/
def amicable_loop_text (pre post : set_t → perm → set_t) :
    List perm → set_t → String → Bool × set_t × String
  | [], t, out => (false, t, out)
  | p :: ps, t, out =>
    match _amicable_text (pre t p) p with
    | (true, t1, text) => (true, t1, out ++ text)
    | (false, t1, text) => amicable_loop_text pre post ps (post t1 p) (out ++ text)

/-- Member `set_t::amicable` with the text written to `std::cout`. -/
def set_t.amicable_text (t : set_t) : Bool × set_t × String :=
  match amicable_loop_text prepare1 restore1 P t "" with
  | (true, t1, out) => (true, t1, out)
  | (false, t1, out) =>
    match amicable_loop_text prepare2 restore2 P t1 out with
    | (true, t2, out) => (true, t2, out)
    | (false, t2, out) =>
      match amicable_loop_text prepare3 restore3 P t2 out with
      | (true, t3, out) => (true, t3, out)
      | (false, t3, out) => amicable_loop_text prepare4 restore4 P t3 out

/-- One line of output as `write_seq` and `write_set` produce it: every value followed by
one blank, then the newline. -/
def line_text (v : seq) : String :=
  (v.map (fun (x : Int) => toString x ++ " ")).foldr (fun a b => a ++ b) "" ++ "\n"

/-- The four-line block in the wording "space-separated decimal values of forward slot
`k` followed by a newline": blanks between the values only. -/
def lines_separated (t : set_t) : String :=
  (t.s.map (fun (v : seq) => String.intercalate " " (v.map toString) ++ "\n")).foldr
    (fun a b => a ++ b) ""

/-- Class `args_t` of `args.h++`, the fields the constructor computes from `_n`: the
length `n`, the bound and the size of the vector `psd`.  The fftw3 buffers and the plan
are resources outside the model. -/
structure args_t where
  n : Nat
  bound : Nat
  psd_size : Nat
deriving DecidableEq, Repr

/-- Constructor `args_t(unsigned _n)`: `n{_n}, bound{(n << 2U) + 4U}, psd((n >> 1U) + 1)`,
in 32-bit unsigned arithmetic. -/
def args_t.make (_n : Nat) : args_t :=
  { n := _n % 2 ^ 32
    bound := (((_n % 2 ^ 32) * 2 ^ 2) % 2 ^ 32 + 4) % 2 ^ 32
    psd_size := (_n % 2 ^ 32) / 2 + 1 }

/-- Class `sequence_t` of `sequence.h++`, the fields the constructor computes from `_n`:
the length, the bound, the sequence `a` and the size of the vector `psd`. -/
structure sequence_t where
  n : Nat
  bound : Nat
  a : seq
  psd_size : Nat
deriving DecidableEq, Repr

/-- Constructor `sequence_t(unsigned _n)`:
`n{_n}, bound{(_n << 2U) + 4U}, a(_n), psd(_n >> 1U)`, in 32-bit unsigned arithmetic. -/
def sequence_t.make (_n : Nat) : sequence_t :=
  { n := _n % 2 ^ 32
    bound := (((_n % 2 ^ 32) * 2 ^ 2) % 2 ^ 32 + 4) % 2 ^ 32
    a := List.replicate (_n % 2 ^ 32) 0
    psd_size := (_n % 2 ^ 32) / 2 }

/-- Example input, length 2, with arbitrary integer entries. -/
def ex_two : set_t := set_t.of_seqs 2 [[3, -7], [0, 5], [2, 2], [-1, 4]]

/-- The accumulator `sum` of `cross_corr` after the first `k` iterations of its loop. -/
def cross_corr_upto (k : Nat) (j : Int) (s1 s2 : seq) : Int :=
  (List.range k).foldl
    (fun (sum : Int) (i : Nat) =>
      let J : Int := (i : Int) - j
      let J : Int := if J < 0 then (s1.length : Int) + J else J
      sum + s1.getD i 0 * s2.getD J.toNat 0)
    0

/-- A value that a 32-bit signed `int` holds: `-2^31 ≤ v ≤ 2^31 - 1`. -/
def in_int32 (v : Int) : Prop := -2147483648 ≤ v ∧ v ≤ 2147483647

instance (v : Int) : Decidable (in_int32 v) := by
  unfold in_int32; infer_instance

/-- Every entry of the sequence is `+1` or `-1`. -/
def pm_one (v : seq) : Prop := ∀ x ∈ v, x = 1 ∨ x = -1

instance (v : seq) : Decidable (pm_one v) := by
  unfold pm_one; infer_instance

/-- Function `cross_corr` with checked accesses: the reads `s1[i]` and `s2[J]` are
`s1[i]?` and `s2[J]?` (with `J` not negative), and one read out of range makes the value
`none`. -/
def cross_corr_checked (j : Int) (s1 s2 : seq) : Option Int :=
  (List.range s1.length).foldl
    (fun (sum : Option Int) (i : Nat) =>
      let J : Int := (i : Int) - j
      let J : Int := if J < 0 then (s1.length : Int) + J else J
      match sum, s1[i]?, (if 0 ≤ J then s2[J.toNat]? else none) with
      | some acc, some x, some y => some (acc + x * y)
      | _, _, _ => none)
    (some 0)

/-- A list of checked values: `none` as soon as one of them is `none`. -/
def all_some {α : Type} : List (Option α) → Option (List α)
  | [] => some []
  | none :: _ => none
  | some a :: rest =>
    match all_some rest with
    | some l => some (a :: l)
    | none => none

/-- Function `cross_corrs` with checked accesses. -/
def cross_corrs_checked (s1 s2 : seq) : Option seq :=
  all_some ((List.range s1.length).map (fun (j : Nat) => cross_corr_checked (j : Int) s1 s2))

/-- Function `rotations` with checked accesses: the reads `s[J]`, `S[i][j]` and
`S[i][s.size() - j]` are checked. -/
def rotations_checked (s : seq) : Option seqs :=
  match all_some ((List.range s.length).map (fun i =>
      all_some ((List.range s.length).map (fun j =>
        let J := j + i
        let J := if J < s.length then J else J - s.length
        s[J]?)))) with
  | none => none
  | some S =>
    all_some ((List.range s.length).map (fun i =>
      all_some ((List.range (s.length / 2)).map (fun j =>
        if 1 ≤ j then
          match S[i]?, S[i]? with
          | some row1, some row2 =>
            match row1[j]?, row2[s.length - j]? with
            | some a, some b => some (a - b)
            | _, _ => none
          | _, _ => none
        else some 0))))

/-- Lag loop of `_amicable` with checked accesses `corrs1[i1][j]` and `corrs2[i2][j]`. -/
def lag_scan_checked (c1 c2 : seq) : List Nat → Bool → Bool → Option (Bool × Bool)
  | [], flag, neg => some (flag, neg)
  | j :: js, flag, neg =>
    match c1[j]?, c2[j]? with
    | some a, some b =>
      let flag := if a + b ≠ 0 then false else flag
      let neg := if -a + b ≠ 0 then false else neg
      if (!flag && !neg) then some (flag, neg) else lag_scan_checked c1 c2 js flag neg
    | _, _ => none

/-- Some pair of rows of the rotation differences of the correlation vectors `x` and `y`
satisfies the sum-zero or the difference-zero condition: the verdict of `_amicable` in
terms of its two correlation vectors. -/
def some_pair_ok (x y : seq) (n : Nat) : Prop :=
  ∃ i1 i2, i1 < n ∧ i2 < n ∧
    (sum_zero ((rotations x).getD i1 []) ((rotations y).getD i2 []) n ∨
      diff_zero ((rotations x).getD i1 []) ((rotations y).getD i2 []) n)

/-- One `for ( auto const& p : P )` loop of `set_t::amicable` in `src/set.c++`, the
copy-and-reverse variant: `pre` stands for the statements before the `_amicable` call (the
copies `tmp` are taken from the state before them, then the slots are reversed), `post`
for the statements after a failed call, which move the copies back; `post` reads the
copies from the state saved before `pre`.  The helpers `cross_corr`, `cross_corrs`,
`rotations`, `_amicable`, the table `P` and the members `apply_perm` and `negate` of
`src/set.c++` and `src/set.h++` are textually those of `src/src`. -/
def copy_loop (pre : set_t → perm → set_t) (post : set_t → set_t → perm → set_t) :
    List perm → set_t → Bool × set_t
  | [], t => (false, t)
  | p :: ps, t =>
    match _amicable (pre t p) p with
    | (true, u) => (true, u)
    | (false, u) => copy_loop pre post ps (post t u p)

/-- First loop of the copy-and-reverse variant: `seq tmp{s[p[3]]};` then
`std::reverse` of `s[p[3]]`. -/
def copy_prepare2 (t : set_t) (p : perm) : set_t := t.reverse_slot (p.getD 3 0)

/-- First loop of the copy-and-reverse variant: `s[p[3]] = std::move(tmp);`. -/
def copy_restore2 (saved u : set_t) (p : perm) : set_t :=
  u.set_s (p.getD 3 0) (saved.s.getD (p.getD 3 0) [])

/-- Second loop of the copy-and-reverse variant: `seq tmp{s[p[1]]};` then
`std::reverse` of `s[p[1]]`. -/
def copy_prepare3 (t : set_t) (p : perm) : set_t := t.reverse_slot (p.getD 1 0)

/-- Second loop of the copy-and-reverse variant: `s[p[1]] = std::move(tmp);`. -/
def copy_restore3 (saved u : set_t) (p : perm) : set_t :=
  u.set_s (p.getD 1 0) (saved.s.getD (p.getD 1 0) [])

/-- Third loop of the copy-and-reverse variant: both copies, then both reverses. -/
def copy_prepare4 (t : set_t) (p : perm) : set_t :=
  (t.reverse_slot (p.getD 1 0)).reverse_slot (p.getD 3 0)

/-- Third loop of the copy-and-reverse variant: `s[p[1]] = std::move(tmp1);` then
`s[p[3]] = std::move(tmp2);`. -/
def copy_restore4 (saved u : set_t) (p : perm) : set_t :=
  (u.set_s (p.getD 1 0) (saved.s.getD (p.getD 1 0) [])).set_s (p.getD 3 0)
    (saved.s.getD (p.getD 3 0) [])

/-- Member `set_t::amicable` of `src/set.c++`, the copy-and-reverse variant: its loop
without reversal is commented out, and three loops follow (slot `p[3]` reversed, slot
`p[1]` reversed, both reversed).  The flag tells whether some `_amicable` call returned
`true`. -/
def set_t.amicable_copy (t : set_t) : Bool × set_t :=
  match copy_loop copy_prepare2 copy_restore2 P t with
  | (true, t1) => (true, t1)
  | (false, t1) =>
    match copy_loop copy_prepare3 copy_restore3 P t1 with
    | (true, t2) => (true, t2)
    | (false, t2) => copy_loop copy_prepare4 copy_restore4 P t2

/-- Example input, length 4: both variants succeed and leave different sequences. -/
def ex_last4 : set_t :=
  set_t.of_seqs 4 [[1, 1, 1, 1], [1, 1, 1, 1], [1, 1, 1, 1], [1, 1, 1, -1]]

/-- Example input, length 10: the cache-swapping variant succeeds without reversal and
the copy-and-reverse variant fails. -/
def ex_ten_plain : set_t :=
  set_t.of_seqs 10
    [[1, -1, 1, 1, 1, 1, -1, 1, -1, 1], [1, 1, 1, 1, -1, -1, 1, 1, 1, -1],
     [-1, 1, -1, 1, -1, -1, -1, -1, 1, 1], [1, -1, -1, 1, 1, 1, -1, 1, 1, 1]]

/-- Value an `int` holds after an arithmetic result `v`: `v` itself inside the 32-bit
signed range, and outside it `v` reduced modulo `2^32` into that range (two's-complement
wrap; the language leaves signed overflow undefined). -/
def int_wrap (v : Int) : Int := (v + 2147483648) % 4294967296 - 2147483648

/-- Function `cross_corr` of `set.c++` in `int` arithmetic: the product `s1[i] * s2[J]`
and the sum `sum += ...` are each an `int` result. -/
def cross_corr_int (j : Int) (s1 s2 : seq) : Int :=
  (List.range s1.length).foldl
    (fun (sum : Int) (i : Nat) =>
      let J : Int := (i : Int) - j
      let J : Int := if J < 0 then (s1.length : Int) + J else J
      int_wrap (sum + int_wrap (s1.getD i 0 * s2.getD J.toNat 0)))
    0

/-- Function `cross_corrs` of `set.c++` in `int` arithmetic: entry `j` is
`cross_corr(j, s1, s2)`. -/
def cross_corrs_int (s1 s2 : seq) : seq :=
  (List.range s1.length).map (fun (j : Nat) => cross_corr_int (j : Int) s1 s2)

/-- The accumulator `sum` of `cross_corr` in `int` arithmetic after the first `k`
iterations of its loop. -/
def cross_corr_int_upto (k : Nat) (j : Int) (s1 s2 : seq) : Int :=
  (List.range k).foldl
    (fun (sum : Int) (i : Nat) =>
      let J : Int := (i : Int) - j
      let J : Int := if J < 0 then (s1.length : Int) + J else J
      int_wrap (sum + int_wrap (s1.getD i 0 * s2.getD J.toNat 0)))
    0

/-! ## Lists, sums and wrapped indices -/

theorem getD_map_range {α : Type} (f : Nat → α) (n i : Nat) (d : α) (h : i < n) :
    ((List.range n).map f).getD i d = f i := by
  rw [List.getD_eq_getElem _ _ (by simpa using h)]
  simp

theorem foldl_add_eq (f : Nat → Int) (l : List Nat) (a : Int) :
    l.foldl (fun (sum : Int) (i : Nat) => sum + f i) a = a + (l.map f).sum := by
  induction l generalizing a with
  | nil => simp
  | cons x xs ih => simp [ih, add_assoc]

theorem sum_map_range (f : Nat → Int) (n : Nat) :
    ((List.range n).map f).sum = ∑ i ∈ Finset.range n, f i := by
  induction n with
  | zero => simp
  | succ k ih => rw [List.sum_range_succ, Finset.sum_range_succ, ih]

theorem cross_corr_eq_sum (j : Int) (s1 s2 : seq) :
    cross_corr j s1 s2 =
      ∑ i ∈ Finset.range s1.length, s1.getD i 0 * s2.getD (wrap_index s1.length i j) 0 := by
  have h := foldl_add_eq (fun i => s1.getD i 0 * s2.getD (wrap_index s1.length i j) 0)
    (List.range s1.length) 0
  rw [sum_map_range, zero_add] at h
  exact h

theorem wrap_index_eq_emod (n i j : Nat) (hi : i < n) (hj : j < n) :
    wrap_index n i (j : Int) = (((i : Int) - (j : Int)) % (n : Int)).toNat := by
  unfold wrap_index
  split_ifs with h
  · rw [← Int.add_emod_self_left, Int.emod_eq_of_lt (by omega) (by omega)]
  · rw [Int.emod_eq_of_lt (by omega) (by omega)]

theorem wrap_index_nat (n i j : Nat) (hj : j < n) :
    wrap_index n i (j : Int) = if i < j then n + i - j else i - j := by
  unfold wrap_index
  split_ifs <;> omega

theorem wrap_index_lt (n i j : Nat) (hi : i < n) (hj : j < n) :
    wrap_index n i (j : Int) < n := by
  rw [wrap_index_nat n i j hj]; split_ifs <;> omega

theorem cross_corrs_length (s1 s2 : seq) : (cross_corrs s1 s2).length = s1.length := by
  simp [cross_corrs]

theorem cross_corrs_getD (s1 s2 : seq) (j : Nat) (hj : j < s1.length) :
    (cross_corrs s1 s2).getD j 0 = cross_corr (j : Int) s1 s2 := by
  unfold cross_corrs
  exact getD_map_range _ _ _ _ hj

/-! ## The correlation engine and the rotation differences -/

/-- Over the unbounded integers `cross_corrs s1 s2` has length `n`, its entry at lag
`j < n` is the sum of `s1[i] * s2[(i - j) mod n]`, and its entry at lag `0` is the dot
product. -/
theorem cross_corrs_sum (s1 s2 : seq) (n : Nat) (h1 : s1.length = n)
    (h2 : s2.length = n) :
    (cross_corrs s1 s2).length = n ∧
    (∀ j, j < n → (cross_corrs s1 s2).getD j 0 =
      ∑ i ∈ Finset.range n,
        s1.getD i 0 * s2.getD ((((i : Int) - (j : Int)) % (n : Int)).toNat) 0) ∧
    (cross_corrs s1 s2).getD 0 0 = ∑ i ∈ Finset.range n, s1.getD i 0 * s2.getD i 0 := by
  subst h1
  have key : ∀ j, j < s1.length → (cross_corrs s1 s2).getD j 0 =
      ∑ i ∈ Finset.range s1.length,
        s1.getD i 0 * s2.getD ((((i : Int) - (j : Int)) % (s1.length : Int)).toNat) 0 := by
    intro j hj
    rw [cross_corrs_getD s1 s2 j hj, cross_corr_eq_sum]
    apply Finset.sum_congr rfl
    intro i hi
    rw [wrap_index_eq_emod _ i j (Finset.mem_range.mp hi) hj]
  refine ⟨cross_corrs_length s1 s2, key, ?_⟩
  rcases Nat.eq_zero_or_pos s1.length with h0 | hpos
  · have : cross_corrs s1 s2 = [] := by
      apply List.eq_nil_of_length_eq_zero; rw [cross_corrs_length]; exact h0
    rw [this, h0]; simp
  · rw [key 0 hpos]
    apply Finset.sum_congr rfl
    intro i hi
    have hi2 := Finset.mem_range.mp hi
    congr 2
    simp only [Nat.cast_zero, sub_zero]
    rw [Int.emod_eq_of_lt (by omega) (by omega)]
    simp

theorem rotations_length (s : seq) : (rotations s).length = s.length := by
  simp [rotations]

theorem rotations_row (s : seq) (i : Nat) (hi : i < s.length) :
    (rotations s).getD i [] =
      (List.range (s.length / 2)).map (fun j =>
        if 1 ≤ j then ((rotations_S s).getD i []).getD j 0 -
          ((rotations_S s).getD i []).getD (s.length - j) 0
        else 0) := by
  unfold rotations
  exact getD_map_range _ _ _ _ hi

theorem rotations_S_entry (s : seq) (i j : Nat) (hi : i < s.length) (hj : j < s.length) :
    ((rotations_S s).getD i []).getD j 0 =
      s.getD (if j + i < s.length then j + i else j + i - s.length) 0 := by
  unfold rotations_S
  rw [getD_map_range _ _ _ _ hi, getD_map_range _ _ _ _ hj]

theorem wrap_add (n x : Nat) (hx : x < 2 * n) :
    x % n = if x < n then x else x - n := by
  split_ifs with h
  · exact Nat.mod_eq_of_lt h
  · rw [Nat.mod_eq_sub_mod (by omega), Nat.mod_eq_of_lt (by omega)]

/-- Entry of the rotation differences at row `i` and column `1 ≤ j < n / 2`. -/
theorem rotations_getD (corr : seq) (n i j : Nat) (hn : corr.length = n) (hi : i < n)
    (h1 : 1 ≤ j) (hj : j < n / 2) :
    ((rotations corr).getD i []).getD j 0 =
      corr.getD ((j + i) % n) 0 - corr.getD ((n - j + i) % n) 0 := by
  subst hn
  rw [rotations_row corr i hi, getD_map_range _ _ _ _ hj, if_pos h1,
    rotations_S_entry corr i j hi (by omega),
    rotations_S_entry corr i (corr.length - j) hi (by omega),
    wrap_add corr.length (j + i) (by omega), wrap_add corr.length (corr.length - j + i) (by omega)]

theorem rotations_mem_row (s row : seq) (h : row ∈ rotations s) :
    row.length = s.length / 2 ∧ (1 ≤ s.length / 2 → row[0]? = some 0) := by
  unfold rotations at h
  simp only [List.mem_map, List.mem_range] at h
  obtain ⟨i, _, rfl⟩ := h
  refine ⟨by simp, ?_⟩
  intro hpos
  rw [List.getElem?_map, List.getElem?_range hpos]
  simp

/-- Claim C7. For a vector `s` of length `n`, `rotations s` has exactly `n` rows, every
row has exactly `n / 2` columns (integer division), and when `n ≥ 2` column `0` of every
row exists and is `0`. -/
theorem rotations_shape (s : seq) (n : Nat) (hn : s.length = n) :
    (rotations s).length = n ∧
    (∀ row ∈ rotations s, row.length = n / 2) ∧
    (2 ≤ n → ∀ row ∈ rotations s, row[0]? = some 0) := by
  subst hn
  refine ⟨rotations_length s, fun row h => (rotations_mem_row s row h).1, ?_⟩
  intro h2 row h
  exact (rotations_mem_row s row h).2 (by omega)

/-- Claim C7, instance: the rotation differences of a length-4 vector. -/
theorem rotations_shape_witness :
    ([3, 1, 4, 1] : seq).length = 4 ∧
    ((rotations [3, 1, 4, 1]).length = 4 ∧
    (∀ row ∈ rotations [3, 1, 4, 1], row.length = 4 / 2) ∧
    (2 ≤ 4 → ∀ row ∈ rotations [3, 1, 4, 1], row[0]? = some 0)) :=
  ⟨rfl, rotations_shape [3, 1, 4, 1] 4 rfl⟩

/-! ## The lag loop and the row loops of `_amicable` -/

theorem lag_scan_fst (c1 c2 : seq) (js : List Nat) (flag neg : Bool) :
    (lag_scan c1 c2 js flag neg).1 = true ↔
      flag = true ∧ ∀ j ∈ js, c1.getD j 0 + c2.getD j 0 = 0 := by
  induction js generalizing flag neg with
  | nil => simp [-List.getD_eq_getElem?_getD, lag_scan]
  | cons j js ih =>
    simp only [lag_scan]
    by_cases h1 : c1.getD j 0 + c2.getD j 0 = 0 <;>
      by_cases h2 : -(c1.getD j 0) + c2.getD j 0 = 0 <;>
      cases flag <;> cases neg <;>
      simp [-List.getD_eq_getElem?_getD, h1, h2, ih]

theorem lag_scan_snd (c1 c2 : seq) (js : List Nat) (flag neg : Bool) :
    (lag_scan c1 c2 js flag neg).2 = true ↔
      neg = true ∧ ∀ j ∈ js, -(c1.getD j 0) + c2.getD j 0 = 0 := by
  induction js generalizing flag neg with
  | nil => simp [-List.getD_eq_getElem?_getD, lag_scan]
  | cons j js ih =>
    simp only [lag_scan]
    by_cases h1 : c1.getD j 0 + c2.getD j 0 = 0 <;>
      by_cases h2 : -(c1.getD j 0) + c2.getD j 0 = 0 <;>
      cases flag <;> cases neg <;>
      simp [-List.getD_eq_getElem?_getD, h1, h2, ih]

theorem findSome_range_none {α : Type} (f : Nat → Option α) (n : Nat) :
    (List.range n).findSome? f = none ↔ ∀ i, i < n → f i = none := by
  simp [List.findSome?_eq_none_iff]

theorem findSome_range_some {α : Type} (f : Nat → Option α) (n : Nat) (b : α) :
    (List.range n).findSome? f = some b ↔
      ∃ i, i < n ∧ f i = some b ∧ ∀ k, k < i → f k = none := by
  induction n generalizing b with
  | zero => simp
  | succ m ih =>
    rw [List.range_succ, List.findSome?_append]
    cases h : (List.range m).findSome? f with
    | some c =>
      obtain ⟨i, hi, hfi, hlt⟩ := (ih c).mp h
      simp only [Option.or_some]
      constructor
      · intro hc
        cases hc
        exact ⟨i, by omega, hfi, hlt⟩
      · rintro ⟨i2, hi2, hfi2, hlt2⟩
        rcases Nat.lt_trichotomy i i2 with hlt3 | heq | hgt
        · rw [hlt2 i hlt3] at hfi; cases hfi
        · subst heq; rw [hfi] at hfi2; exact hfi2
        · rw [hlt i2 hgt] at hfi2; cases hfi2
    | none =>
      have hnone := (findSome_range_none f m).mp h
      simp only [Option.none_or, List.findSome?_cons, List.findSome?_nil]
      constructor
      · intro hm
        refine ⟨m, by omega, ?_, hnone⟩
        cases hfm : f m with
        | none => rw [hfm] at hm; cases hm
        | some c => rw [hfm] at hm; exact hm
      · rintro ⟨i, hi, hfi, _⟩
        have him : i = m := by
          by_contra hne
          have := hnone i (by omega)
          rw [this] at hfi; cases hfi
        subst him
        rw [hfi]

theorem amicable_some (t : set_t) (p : perm) (t1 : set_t)
    (h : (List.range (corrs1 t p).length).findSome? (fun i1 =>
        (List.range (corrs2 t p).length).findSome? (fun i2 =>
          amicable_body t p (corrs1 t p) (corrs2 t p) i1 i2)) = some t1) :
    _amicable t p = (true, t1) := by
  unfold _amicable
  simp only [h]

theorem amicable_none (t : set_t) (p : perm)
    (h : (List.range (corrs1 t p).length).findSome? (fun i1 =>
        (List.range (corrs2 t p).length).findSome? (fun i2 =>
          amicable_body t p (corrs1 t p) (corrs2 t p) i1 i2)) = none) :
    _amicable t p = (false, t) := by
  unfold _amicable
  simp only [h]

theorem amicable_fail_state (t : set_t) (p : perm) (h : (_amicable t p).1 = false) :
    (_amicable t p).2 = t := by
  cases hs : (List.range (corrs1 t p).length).findSome? (fun i1 =>
        (List.range (corrs2 t p).length).findSome? (fun i2 =>
          amicable_body t p (corrs1 t p) (corrs2 t p) i1 i2)) with
  | some t1 => rw [amicable_some t p t1 hs] at h; cases h
  | none => rw [amicable_none t p hs]

theorem amicable_eq_iff (t : set_t) (p : perm) (t1 : set_t) :
    _amicable t p = (true, t1) ↔
      ∃ i1, i1 < (corrs1 t p).length ∧ ∃ i2, i2 < (corrs2 t p).length ∧
        amicable_body t p (corrs1 t p) (corrs2 t p) i1 i2 = some t1 ∧
        (∀ k2, k2 < i2 → amicable_body t p (corrs1 t p) (corrs2 t p) i1 k2 = none) ∧
        (∀ k1, k1 < i1 → ∀ k2, k2 < (corrs2 t p).length →
          amicable_body t p (corrs1 t p) (corrs2 t p) k1 k2 = none) := by
  constructor
  · intro h
    cases hs : (List.range (corrs1 t p).length).findSome? (fun i1 =>
        (List.range (corrs2 t p).length).findSome? (fun i2 =>
          amicable_body t p (corrs1 t p) (corrs2 t p) i1 i2)) with
    | none => rw [amicable_none t p hs] at h; cases h
    | some t2 =>
      rw [amicable_some t p t2 hs] at h
      cases h
      obtain ⟨i1, hi1, hf, hlt⟩ := (findSome_range_some _ _ _).mp hs
      obtain ⟨i2, hi2, hf2, hlt2⟩ := (findSome_range_some _ _ _).mp hf
      refine ⟨i1, hi1, i2, hi2, hf2, hlt2, ?_⟩
      intro k1 hk1 k2 hk2
      exact (findSome_range_none _ _).mp (hlt k1 hk1) k2 hk2
  · rintro ⟨i1, hi1, i2, hi2, hf, hlt2, hlt1⟩
    apply amicable_some
    apply (findSome_range_some _ _ _).mpr
    refine ⟨i1, hi1, ?_, ?_⟩
    · exact (findSome_range_some _ _ _).mpr ⟨i2, hi2, hf, hlt2⟩
    · intro k1 hk1
      exact (findSome_range_none _ _).mpr (hlt1 k1 hk1)

theorem perm_getD_lt (p : perm) (hp : p.Perm [0, 1, 2, 3]) (k : Nat) (hk : k < 4) :
    p.getD k 0 < 4 := by
  have hlen : p.length = 4 := hp.length_eq
  have hmem : p.getD k 0 ∈ p := by
    rw [List.getD_eq_getElem p 0 (by omega)]
    exact List.getElem_mem _
  have h4 := hp.subset hmem
  simp only [List.mem_cons, List.mem_singleton, List.not_mem_nil, or_false] at h4
  omega

theorem slot_length (t : set_t) (hq : t.s.length = 4) (hl : ∀ x ∈ t.s, x.length = t.n)
    (k : Nat) (hk : k < 4) : (t.s.getD k []).length = t.n := by
  apply hl
  rw [List.getD_eq_getElem t.s [] (by omega)]
  exact List.getElem_mem _

theorem rotations_row_length (s : seq) (i : Nat) (hi : i < s.length) :
    ((rotations s).getD i []).length = s.length / 2 := by
  rw [rotations_row s i hi]; simp

theorem rotations_col_zero (s : seq) (i : Nat) (hi : i < s.length) :
    ((rotations s).getD i []).getD 0 0 = 0 := by
  rw [rotations_row s i hi]
  rcases Nat.eq_zero_or_pos (s.length / 2) with h0 | hpos
  · rw [h0]; rfl
  · rw [getD_map_range _ _ _ _ hpos]; simp

theorem corrs1_length (t : set_t) (p : perm) :
    (corrs1 t p).length = (t.s.getD (p.getD 0 0) []).length := by
  unfold corrs1; rw [rotations_length, cross_corrs_length]

theorem corrs2_length (t : set_t) (p : perm) :
    (corrs2 t p).length = (t.s.getD (p.getD 2 0) []).length := by
  unfold corrs2; rw [rotations_length, cross_corrs_length]

/-- The lag loop, started with both flags set on two rows of rotation differences,
decides the sum-zero and the difference-zero conditions. -/
theorem lag_scan_rows (x y : seq) (n i1 i2 : Nat) (hx : x.length = n) (hy : y.length = n)
    (hi1 : i1 < n) (hi2 : i2 < n) :
    ((lag_scan ((rotations x).getD i1 []) ((rotations y).getD i2 [])
        (List.range ((rotations x).getD 0 []).length) true true).1 = true ↔
      sum_zero ((rotations x).getD i1 []) ((rotations y).getD i2 []) n) ∧
    ((lag_scan ((rotations x).getD i1 []) ((rotations y).getD i2 [])
        (List.range ((rotations x).getD 0 []).length) true true).2 = true ↔
      diff_zero ((rotations x).getD i1 []) ((rotations y).getD i2 []) n) := by
  subst hx
  have h0 : ((rotations x).getD 0 []).length = x.length / 2 :=
    rotations_row_length x 0 (by omega)
  have hA := rotations_col_zero x i1 hi1
  have hB := rotations_col_zero y i2 (by omega)
  rw [lag_scan_fst, lag_scan_snd, h0]
  unfold sum_zero diff_zero
  constructor
  · constructor
    · rintro ⟨_, h⟩ j _ hj
      exact h j (List.mem_range.mpr hj)
    · intro h
      refine ⟨rfl, ?_⟩
      intro j hj
      rcases Nat.eq_zero_or_pos j with hz | hp
      · subst hz; rw [hA, hB]; rfl
      · exact h j hp (List.mem_range.mp hj)
  · constructor
    · rintro ⟨_, h⟩ j _ hj
      exact h j (List.mem_range.mpr hj)
    · intro h
      refine ⟨rfl, ?_⟩
      intro j hj
      rcases Nat.eq_zero_or_pos j with hz | hp
      · subst hz; rw [hA, hB]; rfl
      · exact h j hp (List.mem_range.mp hj)

theorem branch_congr (fn : Bool × Bool) (A B : Prop) [Decidable A] [Decidable B]
    (h1 : fn.1 = true ↔ A) (h2 : fn.2 = true ↔ B) (a b : set_t) :
    (if fn.1 = true then some a else if fn.2 = true then some b else none) =
      (if A then some a else if B then some b else none) := by
  by_cases hA : A
  · rw [if_pos hA, if_pos (h1.mpr hA)]
  · rw [if_neg hA, if_neg (fun h => hA (h1.mp h))]
    by_cases hB : B
    · rw [if_pos hB, if_pos (h2.mpr hB)]
    · rw [if_neg hB, if_neg (fun h => hB (h2.mp h))]

/-- The body of the row loops of `_amicable`, in terms of the two conditions. -/
theorem amicable_body_eq (t : set_t) (p : perm) (i1 i2 : Nat)
    (h0 : (t.s.getD (p.getD 0 0) []).length = t.n)
    (h2 : (t.s.getD (p.getD 2 0) []).length = t.n)
    (hi1 : i1 < t.n) (hi2 : i2 < t.n) :
    amicable_body t p (corrs1 t p) (corrs2 t p) i1 i2 =
      if sum_zero (rowA t p i1) (rowB t p i2) t.n then some (apply_flag t p i1 i2)
      else if diff_zero (rowA t p i1) (rowB t p i2) t.n then some (apply_neg t p i1 i2)
      else none := by
  have hrows := lag_scan_rows
    (cross_corrs (t.s.getD (p.getD 0 0) []) (t.s.getD (p.getD 1 0) []))
    (cross_corrs (t.s.getD (p.getD 2 0) []) (t.s.getD (p.getD 3 0) []))
    t.n i1 i2 (by rw [cross_corrs_length, h0]) (by rw [cross_corrs_length, h2]) hi1 hi2
  unfold amicable_body rowA rowB
  unfold corrs1 corrs2
  exact branch_congr _ _ _ hrows.1 hrows.2 _ _

theorem amicable_body_none_iff (t : set_t) (p : perm) (i1 i2 : Nat)
    (h0 : (t.s.getD (p.getD 0 0) []).length = t.n)
    (h2 : (t.s.getD (p.getD 2 0) []).length = t.n)
    (hi1 : i1 < t.n) (hi2 : i2 < t.n) :
    amicable_body t p (corrs1 t p) (corrs2 t p) i1 i2 = none ↔ ¬ pair_ok t p i1 i2 := by
  rw [amicable_body_eq t p i1 i2 h0 h2 hi1 hi2]
  unfold pair_ok
  by_cases hs : sum_zero (rowA t p i1) (rowB t p i2) t.n
  · simp [hs]
  · by_cases hd : diff_zero (rowA t p i1) (rowB t p i2) t.n
    · simp [hs, hd]
    · simp [hs, hd]

/-- The verdict and the final state of `_amicable` in terms of the first pair of rows, in
the order of the loops, that satisfies one of the two conditions. -/
theorem amicable_true_first (t : set_t) (p : perm)
    (h0 : (t.s.getD (p.getD 0 0) []).length = t.n)
    (h2 : (t.s.getD (p.getD 2 0) []).length = t.n)
    (h : (_amicable t p).1 = true) :
    ∃ i1 i2, i1 < t.n ∧ i2 < t.n ∧ pair_ok t p i1 i2 ∧
      (∀ k1 k2, k1 < t.n → k2 < t.n → pair_ok t p k1 k2 →
        i1 < k1 ∨ (i1 = k1 ∧ i2 ≤ k2)) ∧
      (_amicable t p).2 =
        (if sum_zero (rowA t p i1) (rowB t p i2) t.n then apply_flag t p i1 i2
         else apply_neg t p i1 i2) := by
  have hc1 : (corrs1 t p).length = t.n := by rw [corrs1_length, h0]
  have hc2 : (corrs2 t p).length = t.n := by rw [corrs2_length, h2]
  have heq : _amicable t p = (true, (_amicable t p).2) := by
    rw [← h]
  obtain ⟨i1, hi1, i2, hi2, hb, hlt2, hlt1⟩ := (amicable_eq_iff t p _).mp heq
  rw [hc1] at hi1
  rw [hc2] at hi2 hlt1
  have hok : pair_ok t p i1 i2 := by
    by_contra hno
    rw [(amicable_body_none_iff t p i1 i2 h0 h2 hi1 hi2).mpr hno] at hb
    cases hb
  refine ⟨i1, i2, hi1, hi2, hok, ?_, ?_⟩
  · intro k1 k2 hk1 hk2 hk
    by_contra hcon
    rcases Nat.lt_trichotomy k1 i1 with hlt | heq1 | hgt
    · exact (amicable_body_none_iff t p k1 k2 h0 h2 hk1 hk2).mp (hlt1 k1 hlt k2 hk2) hk
    · subst heq1
      have hk2lt : k2 < i2 := by
        by_contra hge
        exact hcon (Or.inr ⟨rfl, by omega⟩)
      exact (amicable_body_none_iff t p k1 k2 h0 h2 hk1 hk2).mp (hlt2 k2 hk2lt) hk
    · exact hcon (Or.inl hgt)
  · rw [amicable_body_eq t p i1 i2 h0 h2 hi1 hi2] at hb
    by_cases hs : sum_zero (rowA t p i1) (rowB t p i2) t.n
    · rw [if_pos hs] at hb ⊢
      exact (Option.some.inj hb).symm
    · rw [if_neg hs] at hb ⊢
      rcases hok with h1 | h1
      · exact absurd h1 hs
      · rw [if_pos h1] at hb
        exact (Option.some.inj hb).symm

theorem amicable_true_of_pair (t : set_t) (p : perm)
    (h0 : (t.s.getD (p.getD 0 0) []).length = t.n)
    (h2 : (t.s.getD (p.getD 2 0) []).length = t.n)
    (i1 i2 : Nat) (hi1 : i1 < t.n) (hi2 : i2 < t.n) (hok : pair_ok t p i1 i2) :
    (_amicable t p).1 = true := by
  have hc1 : (corrs1 t p).length = t.n := by rw [corrs1_length, h0]
  have hc2 : (corrs2 t p).length = t.n := by rw [corrs2_length, h2]
  cases hs : (List.range (corrs1 t p).length).findSome? (fun i1 =>
        (List.range (corrs2 t p).length).findSome? (fun i2 =>
          amicable_body t p (corrs1 t p) (corrs2 t p) i1 i2)) with
  | some t1 => rw [amicable_some t p t1 hs]
  | none =>
    exfalso
    have := (findSome_range_none _ _).mp
      ((findSome_range_none _ _).mp hs i1 (by rw [hc1]; exact hi1)) i2 (by rw [hc2]; exact hi2)
    exact (amicable_body_none_iff t p i1 i2 h0 h2 hi1 hi2).mp this hok

/-! ## One attempt: `_amicable` -/

theorem amicable_loop_cons_true (pre post : set_t → perm → set_t) (p : perm)
    (ps : List perm) (t : set_t) (h : (_amicable (pre t p) p).1 = true) :
    amicable_loop pre post (p :: ps) t = (true, (_amicable (pre t p) p).2) := by
  rw [amicable_loop]
  rcases hr : _amicable (pre t p) p with ⟨b, t1⟩
  rw [hr] at h
  cases h
  rfl

theorem amicable_loop_cons_false (pre post : set_t → perm → set_t) (p : perm)
    (ps : List perm) (t : set_t) (h : (_amicable (pre t p) p).1 = false) :
    amicable_loop pre post (p :: ps) t = amicable_loop pre post ps (post (pre t p) p) := by
  have hst := amicable_fail_state (pre t p) p h
  rw [amicable_loop]
  rcases hr : _amicable (pre t p) p with ⟨b, t1⟩
  rw [hr] at h hst
  cases h
  cases hst
  rfl

/-- A loop in which no call succeeds runs `pre` and `post` around every permutation. -/
theorem amicable_loop_false (pre post : set_t → perm → set_t) (ps : List perm) (t : set_t)
    (h : (amicable_loop pre post ps t).1 = false) :
    (amicable_loop pre post ps t).2 = ps.foldl (fun u p => post (pre u p) p) t := by
  induction ps generalizing t with
  | nil => rfl
  | cons p ps ih =>
    cases hb : (_amicable (pre t p) p).1 with
    | true =>
      rw [amicable_loop_cons_true pre post p ps t hb] at h
      cases h
    | false =>
      rw [amicable_loop_cons_false pre post p ps t hb] at h ⊢
      rw [ih _ h]
      rfl

/-- The four loops of `set_t::amicable` in sequence. -/
theorem amicable_cases (t : set_t) :
    t.amicable =
      if (amicable_loop prepare1 restore1 P t).1 = true then
        (true, (amicable_loop prepare1 restore1 P t).2)
      else if (amicable_loop prepare2 restore2 P
          (amicable_loop prepare1 restore1 P t).2).1 = true then
        (true, (amicable_loop prepare2 restore2 P
          (amicable_loop prepare1 restore1 P t).2).2)
      else if (amicable_loop prepare3 restore3 P
          (amicable_loop prepare2 restore2 P
            (amicable_loop prepare1 restore1 P t).2).2).1 = true then
        (true, (amicable_loop prepare3 restore3 P
          (amicable_loop prepare2 restore2 P
            (amicable_loop prepare1 restore1 P t).2).2).2)
      else amicable_loop prepare4 restore4 P
        (amicable_loop prepare3 restore3 P
          (amicable_loop prepare2 restore2 P
            (amicable_loop prepare1 restore1 P t).2).2).2 := by
  unfold set_t.amicable
  rcases h1 : amicable_loop prepare1 restore1 P t with ⟨b1, t1⟩
  cases b1
  · rcases h2 : amicable_loop prepare2 restore2 P t1 with ⟨b2, t2⟩
    cases b2
    · rcases h3 : amicable_loop prepare3 restore3 P t2 with ⟨b3, t3⟩
      cases b3
      · simp [h2, h3]
      · simp [h2, h3]
    · simp [h2]
  · simp

/-- The first loop returns from the first permutation on which `_amicable` succeeds. -/
theorem first_loop_priority (t : set_t) (front back : List perm) (p : perm)
    (hfront : ∀ q ∈ front, (_amicable t q).1 = false) (hp : (_amicable t p).1 = true) :
    amicable_loop prepare1 restore1 (front ++ p :: back) t =
      (true, (_amicable t p).2) := by
  induction front with
  | nil => exact amicable_loop_cons_true prepare1 restore1 p back t hp
  | cons q qs ih =>
    rw [List.cons_append, amicable_loop_cons_false prepare1 restore1 q _ t
      (hfront q (List.mem_cons_self _ _))]
    exact ih (fun q2 hq2 => hfront q2 (List.mem_cons_of_mem _ hq2))

theorem amicable_result_form (t : set_t) (p : perm) (h : (_amicable t p).1 = true) :
    ∃ i1 i2, (_amicable t p).2 = apply_flag t p i1 i2 ∨
      (_amicable t p).2 = apply_neg t p i1 i2 := by
  have heq : _amicable t p = (true, (_amicable t p).2) := by rw [← h]
  obtain ⟨i1, _, i2, _, hb, _, _⟩ := (amicable_eq_iff t p _).mp heq
  refine ⟨i1, i2, ?_⟩
  simp only [amicable_body] at hb
  split_ifs at hb
  · exact Or.inl (Option.some.inj hb).symm
  · exact Or.inr (Option.some.inj hb).symm

/-- Claim C9. If `_amicable` returns `true` on the quadruple as it is at call time (no
reversal applied) for some representative permutation, and `p` is the first such one in
the order of the table `P`, then `set_t::amicable` ends in exactly the state produced by
`_amicable(q, p)`: the `flag` or the `neg` transform applied to the quadruple itself, so
no forward slot was swapped with its reversal or reversed. -/
theorem amicable_step1_priority (t : set_t) (front back : List perm) (p : perm)
    (hP : P = front ++ p :: back)
    (hfront : ∀ q ∈ front, (_amicable t q).1 = false) (hp : (_amicable t p).1 = true) :
    t.amicable = (true, (_amicable t p).2) ∧
    ∃ i1 i2, (t.amicable).2 = apply_flag t p i1 i2 ∨
      (t.amicable).2 = apply_neg t p i1 i2 := by
  have h1 := first_loop_priority t front back p hfront hp
  rw [← hP] at h1
  have h2 : t.amicable = (true, (_amicable t p).2) := by
    rw [amicable_cases, h1]
    simp
  refine ⟨h2, ?_⟩
  rw [h2]
  exact amicable_result_form t p hp

set_option maxRecDepth 100000 in
/-- Claim C9, instance: on the length-6 example the identity permutation fails and
`(0,2,1,3)` is the first permutation that succeeds. -/
theorem amicable_step1_priority_witness :
    ex_second6.as_read ∧ P = [[0, 1, 2, 3]] ++ [0, 2, 1, 3] :: [[0, 3, 1, 2]] ∧
    (∀ q ∈ [[0, 1, 2, 3]], (_amicable ex_second6 q).1 = false) ∧
    (_amicable ex_second6 [0, 2, 1, 3]).1 = true ∧
    ex_second6.amicable = (true, (_amicable ex_second6 [0, 2, 1, 3]).2) :=
  ⟨by decide, rfl, by decide, by decide,
    (amicable_step1_priority ex_second6 [[0, 1, 2, 3]] [[0, 3, 1, 2]] [0, 2, 1, 3] rfl
      (by decide) (by decide)).1⟩

/-- The state after all four loops when every call fails. -/
theorem amicable_false_state (t : set_t) (h : (t.amicable).1 = false) :
    (t.amicable).2 =
      P.foldl (fun u p => restore4 (prepare4 u p) p)
        (P.foldl (fun u p => restore3 (prepare3 u p) p)
          (P.foldl (fun u p => restore2 (prepare2 u p) p)
            (P.foldl (fun u p => restore1 (prepare1 u p) p) t))) := by
  rw [amicable_cases] at h ⊢
  split_ifs at h ⊢ with h1 h2 h3
  · have e1 := amicable_loop_false _ _ P t (by simpa using h1)
    rw [e1] at h2 h3 h ⊢
    have e2 := amicable_loop_false _ _ P _ (by simpa using h2)
    rw [e2] at h3 h ⊢
    have e3 := amicable_loop_false _ _ P _ (by simpa using h3)
    rw [e3] at h ⊢
    exact amicable_loop_false _ _ P _ h

theorem toggle2 (n : Nat) (a b c d e f g k : seq) :
    restore2 (prepare2 ⟨n, [a, b, c, d], [e, f, g, k]⟩ [0, 1, 2, 3]) [0, 1, 2, 3] =
      ⟨n, [a, b, c, d], [e, f, g, k.reverse]⟩ ∧
    restore2 (prepare2 ⟨n, [a, b, c, d], [e, f, g, k]⟩ [0, 2, 1, 3]) [0, 2, 1, 3] =
      ⟨n, [a, b, c, d], [e, f, g, k.reverse]⟩ ∧
    restore2 (prepare2 ⟨n, [a, b, c, d], [e, f, g, k]⟩ [0, 3, 1, 2]) [0, 3, 1, 2] =
      ⟨n, [a, b, c, d], [e, f, g.reverse, k]⟩ :=
  ⟨rfl, rfl, rfl⟩

theorem toggle3 (n : Nat) (a b c d e f g k : seq) :
    restore3 (prepare3 ⟨n, [a, b, c, d], [e, f, g, k]⟩ [0, 1, 2, 3]) [0, 1, 2, 3] =
      ⟨n, [a, b, c, d], [e, f.reverse, g, k]⟩ ∧
    restore3 (prepare3 ⟨n, [a, b, c, d], [e, f, g, k]⟩ [0, 2, 1, 3]) [0, 2, 1, 3] =
      ⟨n, [a, b, c, d], [e, f, g.reverse, k]⟩ ∧
    restore3 (prepare3 ⟨n, [a, b, c, d], [e, f, g, k]⟩ [0, 3, 1, 2]) [0, 3, 1, 2] =
      ⟨n, [a, b, c, d], [e, f, g, k.reverse]⟩ :=
  ⟨rfl, rfl, rfl⟩

theorem toggle4 (n : Nat) (a b c d e f g k : seq) :
    restore4 (prepare4 ⟨n, [a, b, c, d], [e, f, g, k]⟩ [0, 1, 2, 3]) [0, 1, 2, 3] =
      ⟨n, [a, b, c, d], [e, f.reverse, g, k.reverse]⟩ ∧
    restore4 (prepare4 ⟨n, [a, b, c, d], [e, f, g, k]⟩ [0, 2, 1, 3]) [0, 2, 1, 3] =
      ⟨n, [a, b, c, d], [e, f, g.reverse, k.reverse]⟩ ∧
    restore4 (prepare4 ⟨n, [a, b, c, d], [e, f, g, k]⟩ [0, 3, 1, 2]) [0, 3, 1, 2] =
      ⟨n, [a, b, c, d], [e, f, g.reverse, k.reverse]⟩ :=
  ⟨rfl, rfl, rfl⟩

/-- Claim C2. For a state with four forward and four reversed arrays (of length `n`), if
`set_t::amicable` finds no satisfying transform (every `_amicable` call returns `false`)
then on return the state, that is every forward array `s[k]` and every reversed array
`r[k]`, equals its value before the call. -/
theorem amicable_restore (t : set_t) (hq : t.quadruple) (h : (t.amicable).1 = false) :
    (t.amicable).2 = t := by
  rw [amicable_false_state t h]
  obtain ⟨hs, hr, _, _⟩ := hq
  rcases t with ⟨n, s, r⟩
  simp only at hs hr
  match s, hs, r, hr with
  | [a, b, c, d], _, [e, f, g, k], _ =>
    simp only [P, List.foldl, prepare1, restore1, (toggle2 _ _ _ _ _ _ _ _ _).1,
      (toggle2 _ _ _ _ _ _ _ _ _).2.1, (toggle2 _ _ _ _ _ _ _ _ _).2.2,
      (toggle3 _ _ _ _ _ _ _ _ _).1, (toggle3 _ _ _ _ _ _ _ _ _).2.1,
      (toggle3 _ _ _ _ _ _ _ _ _).2.2, (toggle4 _ _ _ _ _ _ _ _ _).1,
      (toggle4 _ _ _ _ _ _ _ _ _).2.1, (toggle4 _ _ _ _ _ _ _ _ _).2.2,
      List.reverse_reverse]

set_option maxRecDepth 100000 in
/-- Claim C2, instance: the length-4 example on which all twelve calls fail. -/
theorem amicable_restore_witness :
    ex_fail4.quadruple ∧ (ex_fail4.amicable).1 = false ∧ (ex_fail4.amicable).2 = ex_fail4 :=
  ⟨by decide, by decide, amicable_restore ex_fail4 (by decide) (by decide)⟩

/-! ## Rotation of a slot and the correlation rows -/

theorem rotate_rev_eq_rotate (v : seq) (k : Nat) (hk : k ≤ v.length) :
    rotate_rev v k = v.rotate (v.length - k % v.length) := by
  unfold rotate_rev std_rotate
  rw [← List.rotate_eq_drop_append_take (by simpa using hk), List.reverse_rotate]
  simp

theorem rotate_rev_length (v : seq) (k : Nat) : (rotate_rev v k).length = v.length := by
  unfold rotate_rev std_rotate
  simp only [List.length_reverse, List.length_append, List.length_drop, List.length_take]
  omega

theorem rotate_rev_getD (v : seq) (k m : Nat) (hk : k < v.length) (hm : m < v.length) :
    (rotate_rev v k).getD m 0 = v.getD ((m + (v.length - k)) % v.length) 0 := by
  rw [rotate_rev_eq_rotate v k (by omega), Nat.mod_eq_of_lt hk]
  rw [List.getD_eq_getElem _ _ (by simpa using hm), List.getElem_rotate,
    List.getD_eq_getElem _ _ (Nat.mod_lt _ (by omega))]

theorem cross_corr_rotate (a b : seq) (n j k : Nat) (ha : a.length = n) (hb : b.length = n)
    (hj : j < n) (hk : k < n) :
    cross_corr (j : Int) a (rotate_rev b k) = cross_corr (((j + k) % n : Nat) : Int) a b := by
  subst ha
  rw [cross_corr_eq_sum, cross_corr_eq_sum]
  apply Finset.sum_congr rfl
  intro i hi
  have hi2 := Finset.mem_range.mp hi
  have hjk : (j + k) % a.length < a.length := Nat.mod_lt _ (by omega)
  congr 1
  rw [rotate_rev_getD b k _ (by omega) (by rw [hb]; exact wrap_index_lt _ i j hi2 hj), hb]
  congr 1
  rw [wrap_index_nat _ i j hj, wrap_index_nat _ i _ hjk,
    wrap_add a.length (j + k) (by omega)]
  split_ifs with h1 h2 h3 h4 h5 <;>
    first
    | omega
    | (rw [wrap_add a.length _ (by omega)]; split_ifs <;> omega)

theorem cross_corrs_rotate (a b : seq) (n j k : Nat) (ha : a.length = n)
    (hb : b.length = n) (hj : j < n) (hk : k < n) :
    (cross_corrs a (rotate_rev b k)).getD j 0 = (cross_corrs a b).getD ((j + k) % n) 0 := by
  rw [cross_corrs_getD a _ j (by omega),
    cross_corrs_getD a b _ (by rw [ha]; exact Nat.mod_lt _ (by omega))]
  exact cross_corr_rotate a b n j k ha hb hj hk

theorem cross_corr_neg (a b : seq) (j : Int) :
    cross_corr j (a.map (fun x => -x)) b = -cross_corr j a b := by
  rw [cross_corr_eq_sum, cross_corr_eq_sum, List.length_map, ← Finset.sum_neg_distrib]
  apply Finset.sum_congr rfl
  intro i _
  have : (a.map (fun x => -x)).getD i 0 = -(a.getD i 0) := by
    have h := List.getD_map (l := a) (d := (0 : Int)) (n := i) (fun x => -x)
    simpa using h
  rw [this]
  ring

theorem cross_corrs_neg (a b : seq) (j : Nat) (hj : j < a.length) :
    (cross_corrs (a.map (fun x => -x)) b).getD j 0 = -(cross_corrs a b).getD j 0 := by
  rw [cross_corrs_getD _ b j (by simpa using hj), cross_corrs_getD a b j hj]
  exact cross_corr_neg a b j

/-- An identity that is anti-symmetric under `j ↦ n - j` and holds on `1 ≤ j < n/2`
holds on `1 ≤ j < n` when `n` is even. -/
theorem half_to_full (A B : Nat → Int) (n : Nat) (hn : Even n)
    (h : ∀ j, 1 ≤ j → j < n / 2 → (A j - A (n - j)) + (B j - B (n - j)) = 0) :
    ∀ j, 1 ≤ j → j < n → (A j - A (n - j)) + (B j - B (n - j)) = 0 := by
  obtain ⟨m, hm⟩ := hn
  intro j h1 hj
  rcases Nat.lt_trichotomy j m with hlt | heq | hgt
  · exact h j h1 (by omega)
  · have : n - j = j := by omega
    rw [this]; ring
  · have h3 := h (n - j) (by omega) (by omega)
    have : n - (n - j) = j := by omega
    rw [this] at h3
    linarith

theorem identity_of_sum_zero (a b c d : seq) (n i1 i2 : Nat) (ha : a.length = n)
    (hb : b.length = n) (hc : c.length = n) (hd : d.length = n) (hn : Even n)
    (hi1 : i1 < n) (hi2 : i2 < n)
    (h : sum_zero ((rotations (cross_corrs a b)).getD i1 [])
      ((rotations (cross_corrs c d)).getD i2 []) n) :
    amicable_identity [a, rotate_rev b i1, c, rotate_rev d i2] n := by
  show ∀ j, 1 ≤ j → j < n →
    ((cross_corrs a (rotate_rev b i1)).getD j 0 -
      (cross_corrs a (rotate_rev b i1)).getD (n - j) 0) +
    ((cross_corrs c (rotate_rev d i2)).getD j 0 -
      (cross_corrs c (rotate_rev d i2)).getD (n - j) 0) = 0
  apply half_to_full (fun j => (cross_corrs a (rotate_rev b i1)).getD j 0)
    (fun j => (cross_corrs c (rotate_rev d i2)).getD j 0) n hn
  intro j h1 hj
  have hj2 := h j h1 hj
  rw [rotations_getD (cross_corrs a b) n i1 j (by rw [cross_corrs_length, ha]) hi1 h1 hj,
    rotations_getD (cross_corrs c d) n i2 j (by rw [cross_corrs_length, hc]) hi2 h1 hj]
    at hj2
  rw [cross_corrs_rotate a b n j i1 ha hb (by omega) hi1,
    cross_corrs_rotate a b n (n - j) i1 ha hb (by omega) hi1,
    cross_corrs_rotate c d n j i2 hc hd (by omega) hi2,
    cross_corrs_rotate c d n (n - j) i2 hc hd (by omega) hi2]
  exact hj2

theorem identity_of_diff_zero (a b c d : seq) (n i1 i2 : Nat) (ha : a.length = n)
    (hb : b.length = n) (hc : c.length = n) (hd : d.length = n) (hn : Even n)
    (hi1 : i1 < n) (hi2 : i2 < n)
    (h : diff_zero ((rotations (cross_corrs a b)).getD i1 [])
      ((rotations (cross_corrs c d)).getD i2 []) n) :
    amicable_identity [a.map (fun x => -x), rotate_rev b i1, c, rotate_rev d i2] n := by
  show ∀ j, 1 ≤ j → j < n →
    ((cross_corrs (a.map (fun x => -x)) (rotate_rev b i1)).getD j 0 -
      (cross_corrs (a.map (fun x => -x)) (rotate_rev b i1)).getD (n - j) 0) +
    ((cross_corrs c (rotate_rev d i2)).getD j 0 -
      (cross_corrs c (rotate_rev d i2)).getD (n - j) 0) = 0
  apply half_to_full (fun j => (cross_corrs (a.map (fun x => -x)) (rotate_rev b i1)).getD j 0)
    (fun j => (cross_corrs c (rotate_rev d i2)).getD j 0) n hn
  intro j h1 hj
  have hj2 := h j h1 hj
  rw [rotations_getD (cross_corrs a b) n i1 j (by rw [cross_corrs_length, ha]) hi1 h1 hj,
    rotations_getD (cross_corrs c d) n i2 j (by rw [cross_corrs_length, hc]) hi2 h1 hj]
    at hj2
  rw [cross_corrs_neg a _ j (by omega), cross_corrs_neg a _ (n - j) (by omega),
    cross_corrs_rotate a b n j i1 ha hb (by omega) hi1,
    cross_corrs_rotate a b n (n - j) i1 ha hb (by omega) hi1,
    cross_corrs_rotate c d n j i2 hc hd (by omega) hi2,
    cross_corrs_rotate c d n (n - j) i2 hc hd (by omega) hi2]
  linarith

/-- The forward slots after the `flag` branch, for a representative permutation. -/
theorem apply_flag_s (u : set_t) (p : perm) (i1 i2 : Nat) (hp : p ∈ P)
    (hs : u.s.length = 4) :
    (apply_flag u p i1 i2).s =
      [u.s.getD (p.getD 0 0) [], rotate_rev (u.s.getD (p.getD 1 0) []) i1,
        u.s.getD (p.getD 2 0) [], rotate_rev (u.s.getD (p.getD 3 0) []) i2] := by
  rcases u with ⟨n, s, r⟩
  simp only at hs
  match s, hs with
  | [x0, x1, x2, x3], _ =>
    simp only [P, List.mem_cons, List.mem_singleton, List.not_mem_nil, or_false] at hp
    rcases hp with rfl | rfl | rfl <;> rfl

/-- The forward slots after the `neg` branch, for a representative permutation. -/
theorem apply_neg_s (u : set_t) (p : perm) (i1 i2 : Nat) (hp : p ∈ P)
    (hs : u.s.length = 4) :
    (apply_neg u p i1 i2).s =
      [(u.s.getD (p.getD 0 0) []).map (fun x => -x),
        rotate_rev (u.s.getD (p.getD 1 0) []) i1,
        u.s.getD (p.getD 2 0) [], rotate_rev (u.s.getD (p.getD 3 0) []) i2] := by
  rcases u with ⟨n, s, r⟩
  simp only at hs
  match s, hs with
  | [x0, x1, x2, x3], _ =>
    simp only [P, List.mem_cons, List.mem_singleton, List.not_mem_nil, or_false] at hp
    rcases hp with rfl | rfl | rfl <;> rfl

theorem rep_perm (p : perm) (hp : p ∈ P) : p.Perm [0, 1, 2, 3] := by
  simp only [P, List.mem_cons, List.mem_singleton, List.not_mem_nil, or_false] at hp
  rcases hp with rfl | rfl | rfl <;> decide

/-- One successful attempt on four length-`n` sequences, `n` even, leaves forward
sequences that satisfy the amicability identity. -/
theorem attempt_sound (u : set_t) (p : perm) (hp : p ∈ P) (hs : u.s.length = 4)
    (hl : ∀ x ∈ u.s, x.length = u.n) (hn : Even u.n) (h : (_amicable u p).1 = true) :
    amicable_identity (_amicable u p).2.s u.n := by
  have hperm := rep_perm p hp
  have h0 := slot_length u hs hl _ (perm_getD_lt p hperm 0 (by omega))
  have h1 := slot_length u hs hl _ (perm_getD_lt p hperm 1 (by omega))
  have h2 := slot_length u hs hl _ (perm_getD_lt p hperm 2 (by omega))
  have h3 := slot_length u hs hl _ (perm_getD_lt p hperm 3 (by omega))
  obtain ⟨i1, i2, hi1, hi2, hok, _, hst⟩ := amicable_true_first u p h0 h2 h
  rw [hst]
  by_cases hsum : sum_zero (rowA u p i1) (rowB u p i2) u.n
  · rw [if_pos hsum, apply_flag_s u p i1 i2 hp hs]
    exact identity_of_sum_zero _ _ _ _ u.n i1 i2 h0 h1 h2 h3 hn hi1 hi2 hsum
  · rw [if_neg hsum, apply_neg_s u p i1 i2 hp hs]
    rcases hok with hx | hdiff
    · exact absurd hx hsum
    · exact identity_of_diff_zero _ _ _ _ u.n i1 i2 h0 h1 h2 h3 hn hi1 hi2 hdiff

/-! ## The quadruple shape is kept by the loops -/

theorem set_keeps_lengths (l : seqs) (k n : Nat) (v : seq) (hv : k < l.length → v.length = n)
    (hl : ∀ x ∈ l, x.length = n) : ∀ x ∈ l.set k v, x.length = n := by
  intro x hx
  by_cases hk : k < l.length
  · rcases List.mem_or_eq_of_mem_set hx with hmem | heq
    · exact hl x hmem
    · rw [heq]; exact hv hk
  · rw [List.set_eq_of_length_le (by omega)] at hx
    exact hl x hx

theorem getD_length_of_all (l : seqs) (k n : Nat) (hk : k < l.length)
    (hl : ∀ x ∈ l, x.length = n) : (l.getD k []).length = n := by
  apply hl
  rw [List.getD_eq_getElem l [] hk]
  exact List.getElem_mem _

theorem swap_slot_quadruple (u : set_t) (k : Nat) (h : u.quadruple) :
    (u.swap_slot k).quadruple ∧ (u.swap_slot k).n = u.n := by
  obtain ⟨hs, hr, hsl, hrl⟩ := h
  refine ⟨⟨?_, ?_, ?_, ?_⟩, rfl⟩
  · simp [set_t.swap_slot, hs]
  · simp [set_t.swap_slot, hr]
  · exact set_keeps_lengths u.s k u.n _
      (fun hk => getD_length_of_all u.r k u.n (by omega) hrl) hsl
  · exact set_keeps_lengths u.r k u.n _
      (fun hk => getD_length_of_all u.s k u.n (by omega) hsl) hrl

theorem reverse_slot_quadruple (u : set_t) (k : Nat) (h : u.quadruple) :
    (u.reverse_slot k).quadruple ∧ (u.reverse_slot k).n = u.n := by
  obtain ⟨hs, hr, hsl, hrl⟩ := h
  refine ⟨⟨?_, hr, ?_, hrl⟩, rfl⟩
  · simp [set_t.reverse_slot, set_t.set_s, hs]
  · exact set_keeps_lengths u.s k u.n _
      (fun hk => by rw [List.length_reverse]; exact getD_length_of_all u.s k u.n hk hsl) hsl

/-- Every loop of `set_t::amicable` either ends in the state returned by a successful
`_amicable` call on a quadruple, or leaves a quadruple. -/
theorem loop_sound (pre post : set_t → perm → set_t) (n : Nat)
    (hpre : ∀ u p, u.quadruple ∧ u.n = n → (pre u p).quadruple ∧ (pre u p).n = n)
    (hpost : ∀ u p, u.quadruple ∧ u.n = n → (post u p).quadruple ∧ (post u p).n = n)
    (ps : List perm) (hps : ∀ p ∈ ps, p ∈ P) (u : set_t) (hu : u.quadruple ∧ u.n = n) :
    ((amicable_loop pre post ps u).1 = true →
      ∃ w p, p ∈ P ∧ w.quadruple ∧ w.n = n ∧ (_amicable w p).1 = true ∧
        (amicable_loop pre post ps u).2 = (_amicable w p).2) ∧
    ((amicable_loop pre post ps u).1 = false →
      (amicable_loop pre post ps u).2.quadruple ∧ (amicable_loop pre post ps u).2.n = n) := by
  induction ps generalizing u with
  | nil => exact ⟨fun h => (by cases h), fun _ => hu⟩
  | cons p ps ih =>
    have hp := hpre u p hu
    cases hb : (_amicable (pre u p) p).1 with
    | true =>
      rw [amicable_loop_cons_true pre post p ps u hb]
      exact ⟨fun _ => ⟨pre u p, p, hps p (List.mem_cons_self _ _), hp.1, hp.2, hb, rfl⟩,
        fun h => (by cases h)⟩
    | false =>
      rw [amicable_loop_cons_false pre post p ps u hb]
      exact ih (fun q hq => hps q (List.mem_cons_of_mem _ hq)) _ (hpost _ p hp)

theorem prepare1_quadruple (n : Nat) (u : set_t) (p : perm) (h : u.quadruple ∧ u.n = n) :
    (prepare1 u p).quadruple ∧ (prepare1 u p).n = n := h

theorem prepare2_quadruple (n : Nat) (u : set_t) (p : perm) (h : u.quadruple ∧ u.n = n) :
    (prepare2 u p).quadruple ∧ (prepare2 u p).n = n := by
  have a := swap_slot_quadruple u (p.getD 3 0) h.1
  have b := reverse_slot_quadruple _ (p.getD 3 0) a.1
  exact ⟨b.1, by rw [prepare2, b.2, a.2, h.2]⟩

theorem restore2_quadruple (n : Nat) (u : set_t) (p : perm) (h : u.quadruple ∧ u.n = n) :
    (restore2 u p).quadruple ∧ (restore2 u p).n = n := by
  have a := swap_slot_quadruple u (p.getD 3 0) h.1
  exact ⟨a.1, by rw [restore2, a.2, h.2]⟩

theorem prepare3_quadruple (n : Nat) (u : set_t) (p : perm) (h : u.quadruple ∧ u.n = n) :
    (prepare3 u p).quadruple ∧ (prepare3 u p).n = n := by
  have a := swap_slot_quadruple u (p.getD 1 0) h.1
  have b := reverse_slot_quadruple _ (p.getD 1 0) a.1
  exact ⟨b.1, by rw [prepare3, b.2, a.2, h.2]⟩

theorem restore3_quadruple (n : Nat) (u : set_t) (p : perm) (h : u.quadruple ∧ u.n = n) :
    (restore3 u p).quadruple ∧ (restore3 u p).n = n := by
  have a := swap_slot_quadruple u (p.getD 1 0) h.1
  exact ⟨a.1, by rw [restore3, a.2, h.2]⟩

theorem prepare4_quadruple (n : Nat) (u : set_t) (p : perm) (h : u.quadruple ∧ u.n = n) :
    (prepare4 u p).quadruple ∧ (prepare4 u p).n = n := by
  have a := swap_slot_quadruple u (p.getD 1 0) h.1
  have b := swap_slot_quadruple _ (p.getD 3 0) a.1
  have c := reverse_slot_quadruple _ (p.getD 1 0) b.1
  have d := reverse_slot_quadruple _ (p.getD 3 0) c.1
  exact ⟨d.1, by rw [prepare4, d.2, c.2, b.2, a.2, h.2]⟩

theorem restore4_quadruple (n : Nat) (u : set_t) (p : perm) (h : u.quadruple ∧ u.n = n) :
    (restore4 u p).quadruple ∧ (restore4 u p).n = n := by
  have a := swap_slot_quadruple u (p.getD 1 0) h.1
  have b := swap_slot_quadruple _ (p.getD 3 0) a.1
  exact ⟨b.1, by rw [restore4, b.2, a.2, h.2]⟩

/-- A successful `set_t::amicable` ends in the state returned by a successful `_amicable`
call on a quadruple of the same length and a representative permutation. -/
theorem amicable_true_state (t : set_t) (hq : t.quadruple) (h : (t.amicable).1 = true) :
    ∃ w p, p ∈ P ∧ w.quadruple ∧ w.n = t.n ∧ (_amicable w p).1 = true ∧
      (t.amicable).2 = (_amicable w p).2 := by
  have l1 := loop_sound prepare1 restore1 t.n (prepare1_quadruple t.n) (prepare1_quadruple t.n)
    P (fun _ hp => hp) t ⟨hq, rfl⟩
  have l2 := loop_sound prepare2 restore2 t.n (prepare2_quadruple t.n) (restore2_quadruple t.n)
    P (fun _ hp => hp) (amicable_loop prepare1 restore1 P t).2
  have l3 := loop_sound prepare3 restore3 t.n (prepare3_quadruple t.n) (restore3_quadruple t.n)
    P (fun _ hp => hp)
    (amicable_loop prepare2 restore2 P (amicable_loop prepare1 restore1 P t).2).2
  have l4 := loop_sound prepare4 restore4 t.n (prepare4_quadruple t.n) (restore4_quadruple t.n)
    P (fun _ hp => hp)
    (amicable_loop prepare3 restore3 P
      (amicable_loop prepare2 restore2 P (amicable_loop prepare1 restore1 P t).2).2).2
  rw [amicable_cases] at h ⊢
  split_ifs at h ⊢ with h1 h2 h3
  · dsimp only
    exact l1.1 h1
  · dsimp only
    have q1 := l1.2 (by simpa using h1)
    exact (l2 q1).1 h2
  · dsimp only
    have q1 := l1.2 (by simpa using h1)
    have q2 := (l2 q1).2 (by simpa using h2)
    exact (l3 q2).1 h3
  · have q1 := l1.2 (by simpa using h1)
    have q2 := (l2 q1).2 (by simpa using h2)
    have q3 := (l3 q2).2 (by simpa using h3)
    exact (l4 q3).1 h

/-! ## The search as a whole -/

set_option maxRecDepth 100000 in
/-- Claim C3, the code at a failing input. The length-10 example, with entries `+1`/`-1`
and in the state left by `operator>>`, has a satisfying transform in the symmetry group
(permutation `(0,3,1,2)`, slot `p[3]` reversed, offsets `(2, 1)`, sum-zero), and
`set_t::amicable` fails on it. -/
theorem amicable_incomplete_at_ex_ten :
    Even ex_ten.n ∧ ex_ten.as_read ∧ transform_exists ex_ten ∧
    (ex_ten.amicable).1 = false :=
  ⟨by decide, by decide,
    ⟨[0, 3, 1, 2], by decide, false, true, 2, by decide, 1, by decide, Or.inl (by decide)⟩,
    by decide⟩

set_option maxRecDepth 100000 in
/-- Claim C8, the code at a failing input. On the length-4 example, in the state left by
`operator>>`, the first loop fails, and the state on which the second loop calls
`_amicable` for `p = (0,1,2,3)` has forward slot `p[3] = 3` equal to the sequence as read,
which differs from its element-reverse. -/
theorem step2_slot_not_reversed_at_ex_fail4 :
    ex_fail4.as_read ∧
    amicable_loop prepare1 restore1 P ex_fail4 = (false, ex_fail4) ∧
    (prepare2 ex_fail4 [0, 1, 2, 3]).s.getD 3 [] = ex_fail4.s.getD 3 [] ∧
    (prepare2 ex_fail4 [0, 1, 2, 3]).s.getD 3 [] ≠ (ex_fail4.s.getD 3 []).reverse :=
  ⟨by decide, by decide, by decide, by decide⟩

/-! ## The operations of `set_t` -/

theorem getD_set_ne (l : seqs) (i j : Nat) (v : seq) (h : i ≠ j) :
    (l.set i v).getD j [] = l.getD j [] := by
  simp only [List.getD_eq_getElem?_getD, List.getElem?_set_ne h]

/-- The forward slots after `apply_perm` when the four entries of `p` are distinct: no
slot is read after it was moved from. -/
theorem apply_perm_s (t : set_t) (p : perm)
    (h01 : p.getD 0 0 ≠ p.getD 1 0) (h02 : p.getD 0 0 ≠ p.getD 2 0)
    (h12 : p.getD 1 0 ≠ p.getD 2 0) (h03 : p.getD 0 0 ≠ p.getD 3 0)
    (h13 : p.getD 1 0 ≠ p.getD 3 0) (h23 : p.getD 2 0 ≠ p.getD 3 0) :
    (t.apply_perm p).s =
      [t.s.getD (p.getD 0 0) [], t.s.getD (p.getD 1 0) [],
        t.s.getD (p.getD 2 0) [], t.s.getD (p.getD 3 0) []] := by
  unfold set_t.apply_perm
  simp only [getD_set_ne _ _ _ _ h01, getD_set_ne _ _ _ _ h02, getD_set_ne _ _ _ _ h12,
    getD_set_ne _ _ _ _ h03, getD_set_ne _ _ _ _ h13, getD_set_ne _ _ _ _ h23]

theorem apply_perm_r (t : set_t) (p : perm) : (t.apply_perm p).r = t.r := rfl

theorem apply_perm_n (t : set_t) (p : perm) : (t.apply_perm p).n = t.n := rfl

theorem perm_distinct (p : perm) (hp : p.Perm [0, 1, 2, 3]) :
    p.getD 0 0 ≠ p.getD 1 0 ∧ p.getD 0 0 ≠ p.getD 2 0 ∧ p.getD 1 0 ≠ p.getD 2 0 ∧
    p.getD 0 0 ≠ p.getD 3 0 ∧ p.getD 1 0 ≠ p.getD 3 0 ∧ p.getD 2 0 ≠ p.getD 3 0 := by
  have hlen : p.length = 4 := hp.length_eq
  have hnd : p.Nodup := hp.nodup_iff.mpr (by decide)
  match p, hlen, hnd with
  | [a, b, c, d], _, hnd =>
    simp only [List.nodup_cons, List.mem_cons, List.mem_singleton, List.not_mem_nil,
      or_false, not_or, List.nodup_nil, and_true, not_false_eq_true] at hnd
    obtain ⟨⟨h1, h2, h3⟩, ⟨h4, h5⟩, h6⟩ := hnd
    exact ⟨h1, h2, h4, h3, h5, h6⟩

theorem apply_perm_s_of_perm (t : set_t) (p : perm) (hp : p.Perm [0, 1, 2, 3]) :
    (t.apply_perm p).s =
      [t.s.getD (p.getD 0 0) [], t.s.getD (p.getD 1 0) [],
        t.s.getD (p.getD 2 0) [], t.s.getD (p.getD 3 0) []] := by
  obtain ⟨h01, h02, h12, h03, h13, h23⟩ := perm_distinct p hp
  exact apply_perm_s t p h01 h02 h12 h03 h13 h23

theorem apply_perm_slot (t : set_t) (p : perm) (hp : p.Perm [0, 1, 2, 3]) (k : Nat)
    (hk : k < 4) : (t.apply_perm p).s.getD k [] = t.s.getD (p.getD k 0) [] := by
  rw [apply_perm_s_of_perm t p hp]
  interval_cases k <;> rfl

/-- Claim C14. For every permutation `p` of `{0,1,2,3}`, after `apply_perm(p)` the forward
slot `k` holds the sequence that was at the forward slot `p[k]` before the call, for each
`k` in `0..3` (and there are exactly four forward slots). -/
theorem apply_perm_relabels (t : set_t) (p : perm) (hp : p.Perm [0, 1, 2, 3]) :
    (t.apply_perm p).s.length = 4 ∧
    ∀ k, k < 4 → (t.apply_perm p).s.getD k [] = t.s.getD (p.getD k 0) [] := by
  refine ⟨?_, apply_perm_slot t p hp⟩
  rw [apply_perm_s_of_perm t p hp]
  rfl

/-- Claim C14, instance: the permutation `(0,3,1,2)` on the length-6 example. -/
theorem apply_perm_relabels_witness :
    ex_second6.quadruple ∧ List.Perm [0, 3, 1, 2] [0, 1, 2, 3] ∧
    ((ex_second6.apply_perm [0, 3, 1, 2]).s.length = 4 ∧
    ∀ k, k < 4 → (ex_second6.apply_perm [0, 3, 1, 2]).s.getD k [] =
      ex_second6.s.getD (([0, 3, 1, 2] : perm).getD k 0) []) :=
  ⟨by decide, by decide, apply_perm_relabels ex_second6 [0, 3, 1, 2] (by decide)⟩

/-- Claim C15, as stated, fails: the length-6 example is in the state left by
`operator>>` (every `r[i]` is the reverse of `s[i]`), `(0,2,1,3)` is a permutation, and
after `apply_perm` the reversal at slot `1` is not the reverse of the forward slot `1`. -/
theorem apply_perm_breaks_sync :
    ex_second6.as_read ∧ List.Perm [0, 2, 1, 3] [0, 1, 2, 3] ∧
    ¬ (∀ i, i < 4 → (ex_second6.apply_perm [0, 2, 1, 3]).r.getD i [] =
      ((ex_second6.apply_perm [0, 2, 1, 3]).s.getD i []).reverse) := by
  decide

/-- Claim C15, amended. `apply_perm(p)` leaves the reversed arrays as they were; so when
`r[i] = reverse(s[i])` held for all slots before the call and `p` is a permutation of
`{0,1,2,3}`, afterwards every `r[i]` is the reverse of the sequence that was at the forward
slot `i` before the call, and `r[i] = reverse(s[i])` holds at every slot `i` that `p`
fixes (`p[i] = i`). -/
theorem apply_perm_keeps_reversals (t : set_t) (p : perm) (hp : p.Perm [0, 1, 2, 3])
    (hsync : ∀ i, i < 4 → t.r.getD i [] = (t.s.getD i []).reverse) :
    (t.apply_perm p).r = t.r ∧
    (∀ i, i < 4 → (t.apply_perm p).r.getD i [] = (t.s.getD i []).reverse) ∧
    (∀ i, i < 4 → p.getD i 0 = i →
      (t.apply_perm p).r.getD i [] = ((t.apply_perm p).s.getD i []).reverse) := by
  refine ⟨rfl, fun i hi => hsync i hi, ?_⟩
  intro i hi hfix
  rw [apply_perm_slot t p hp i hi, hfix]
  exact hsync i hi

/-- Claim C15, amended, instance: the permutation `(0,2,1,3)` on the length-6 example
fixes the slots `0` and `3`. -/
theorem apply_perm_keeps_reversals_witness :
    List.Perm [0, 2, 1, 3] [0, 1, 2, 3] ∧
    (∀ i, i < 4 → ex_second6.r.getD i [] = (ex_second6.s.getD i []).reverse) ∧
    (ex_second6.apply_perm [0, 2, 1, 3]).r = ex_second6.r :=
  ⟨by decide, by decide,
    (apply_perm_keeps_reversals ex_second6 [0, 2, 1, 3] (by decide) (by decide)).1⟩

/-- Claim C18. For a state with four forward slots, a permutation `p` of `{0,1,2,3}` and
its inverse `q` (`p[q[k]] = k` for `k` in `0..3`), `apply_perm(p)` followed by
`apply_perm(q)` gives back the state: all forward and reversed arrays have their values
from before the two calls.  In particular, when `p` is an involution (`p[p[k]] = k`),
`apply_perm(p)` applied twice gives back the state. -/
theorem apply_perm_round_trip (t : set_t) (p q : perm) (hs : t.s.length = 4)
    (hp : p.Perm [0, 1, 2, 3]) (hq : q.Perm [0, 1, 2, 3])
    (hinv : ∀ k, k < 4 → p.getD (q.getD k 0) 0 = k) :
    (t.apply_perm p).apply_perm q = t ∧
    ((∀ k, k < 4 → p.getD (p.getD k 0) 0 = k) → (t.apply_perm p).apply_perm p = t) := by
  have key : ∀ q2 : perm, q2.Perm [0, 1, 2, 3] →
      (∀ k, k < 4 → p.getD (q2.getD k 0) 0 = k) → (t.apply_perm p).apply_perm q2 = t := by
    intro q2 hq2 hinv2
    have hslot : ∀ k, k < 4 →
        (t.apply_perm p).s.getD (q2.getD k 0) [] = t.s.getD k [] := by
      intro k hk
      rw [apply_perm_slot t p hp _ (perm_getD_lt q2 hq2 k hk), hinv2 k hk]
    have hS := apply_perm_s_of_perm (t.apply_perm p) q2 hq2
    rw [hslot 0 (by omega), hslot 1 (by omega), hslot 2 (by omega), hslot 3 (by omega)] at hS
    rcases t with ⟨n, s, r⟩
    simp only at hs
    match s, hs with
    | [a, b, c, d], _ =>
      have hr : ((set_t.mk n [a, b, c, d] r).apply_perm p).apply_perm q2 =
          ⟨n, (((set_t.mk n [a, b, c, d] r).apply_perm p).apply_perm q2).s, r⟩ := rfl
      rw [hr, hS]
      rfl
  exact ⟨key q hq hinv, fun hinvol => key p hp hinvol⟩

/-- Claim C18, instance: the three-cycle `(0,3,1,2)` with its inverse `(0,2,3,1)` on the
length-6 example. -/
theorem apply_perm_round_trip_witness :
    ex_second6.s.length = 4 ∧ List.Perm [0, 3, 1, 2] [0, 1, 2, 3] ∧
    List.Perm [0, 2, 3, 1] [0, 1, 2, 3] ∧
    (∀ k, k < 4 → ([0, 3, 1, 2] : perm).getD (([0, 2, 3, 1] : perm).getD k 0) 0 = k) ∧
    (ex_second6.apply_perm [0, 3, 1, 2]).apply_perm [0, 2, 3, 1] = ex_second6 :=
  ⟨by decide, by decide, by decide, by decide,
    (apply_perm_round_trip ex_second6 [0, 3, 1, 2] [0, 2, 3, 1] (by decide) (by decide)
      (by decide) (by decide)).1⟩

/-! ## The transform applied by a successful attempt -/

/-- The forward slots after the `flag` branch, for any permutation of `{0,1,2,3}`. -/
theorem apply_flag_s_of_perm (t : set_t) (p : perm) (i1 i2 : Nat)
    (hp : p.Perm [0, 1, 2, 3]) :
    (apply_flag t p i1 i2).s =
      [t.s.getD (p.getD 0 0) [], rotate_rev (t.s.getD (p.getD 1 0) []) i1,
        t.s.getD (p.getD 2 0) [], rotate_rev (t.s.getD (p.getD 3 0) []) i2] := by
  have h := apply_perm_s_of_perm t p hp
  unfold apply_flag set_t.set_s
  simp only [h]
  rfl

/-- The forward slots after the `neg` branch, for any permutation of `{0,1,2,3}`. -/
theorem apply_neg_s_of_perm (t : set_t) (p : perm) (i1 i2 : Nat)
    (hp : p.Perm [0, 1, 2, 3]) :
    (apply_neg t p i1 i2).s =
      [(t.s.getD (p.getD 0 0) []).map (fun x => -x),
        rotate_rev (t.s.getD (p.getD 1 0) []) i1,
        t.s.getD (p.getD 2 0) [], rotate_rev (t.s.getD (p.getD 3 0) []) i2] := by
  have h := apply_perm_s_of_perm t p hp
  unfold apply_neg set_t.set_s set_t.negate
  simp only [h]
  rfl

/-- When `(i1, i2)` is the first pair of rows that satisfies a condition, `_amicable`
returns `true` from that iteration: through the `flag` branch when the sum-zero condition
holds there, through the `neg` branch otherwise. -/
theorem amicable_at_first (t : set_t) (p : perm)
    (h0 : (t.s.getD (p.getD 0 0) []).length = t.n)
    (h2 : (t.s.getD (p.getD 2 0) []).length = t.n)
    (i1 i2 : Nat) (hf : first_pair t p i1 i2) :
    _amicable t p =
      (true, if sum_zero (rowA t p i1) (rowB t p i2) t.n then apply_flag t p i1 i2
        else apply_neg t p i1 i2) := by
  obtain ⟨hi1, hi2, hok, hmin⟩ := hf
  have htrue := amicable_true_of_pair t p h0 h2 i1 i2 hi1 hi2 hok
  obtain ⟨j1, j2, hj1, hj2, hjok, hjmin, hst⟩ := amicable_true_first t p h0 h2 htrue
  have ha := hmin j1 hj1 j2 hj2 hjok
  have hb := hjmin i1 i2 hi1 hi2 hok
  have e1 : j1 = i1 := by omega
  have e2 : j2 = i2 := by omega
  subst e1 e2
  rw [← hst, ← htrue]

theorem first_pair_lengths (t : set_t) (p : perm) (hq : t.s.length = 4)
    (hl : ∀ x ∈ t.s, x.length = t.n) (hp : p.Perm [0, 1, 2, 3]) (k : Nat) (hk : k < 4) :
    (t.s.getD (p.getD k 0) []).length = t.n :=
  slot_length t hq hl _ (perm_getD_lt p hp k hk)

/-- Claim C11, as stated, fails. On the length-6 example with `p = (0,2,1,3)` the call
succeeds in the sum-zero branch with offsets `(2, 1)`, and the forward slot `1` of the
result is not the pre-call `s[p[1]]` rotated left by `2`. -/
theorem flag_rotation_not_left :
    ex_second6.s.length = 4 ∧ (∀ x ∈ ex_second6.s, x.length = ex_second6.n) ∧
    first_pair ex_second6 [0, 2, 1, 3] 2 1 ∧
    sum_zero (rowA ex_second6 [0, 2, 1, 3] 2) (rowB ex_second6 [0, 2, 1, 3] 1)
      ex_second6.n ∧
    _amicable ex_second6 [0, 2, 1, 3] = (true, apply_flag ex_second6 [0, 2, 1, 3] 2 1) ∧
    ¬ (∀ k, k < 6 → ((_amicable ex_second6 [0, 2, 1, 3]).2.s.getD 1 []).getD k 0 =
      (ex_second6.s.getD 2 []).getD ((k + 2) % 6) 0) := by
  decide

/-- Claim C11, amended. When `_amicable(s, p)` succeeds in the sum-zero branch with offsets
`(i1, i2)` (four forward sequences of length `n`, `p` a permutation of `{0,1,2,3}`), the
resulting forward slots are: slot `0` = pre-call `s[p[0]]`, slot `2` = pre-call `s[p[2]]`,
slot `1` = pre-call `s[p[1]]` cyclically rotated right by `i1`
(`new[k] = old[(k + n - i1) mod n]` for every `k < n`), and slot `3` = pre-call `s[p[3]]`
cyclically rotated right by `i2`. -/
theorem flag_rotation_right (t : set_t) (p : perm) (hq : t.s.length = 4)
    (hl : ∀ x ∈ t.s, x.length = t.n) (hp : p.Perm [0, 1, 2, 3]) (i1 i2 : Nat)
    (hf : first_pair t p i1 i2)
    (hsum : sum_zero (rowA t p i1) (rowB t p i2) t.n) :
    (_amicable t p).1 = true ∧
    (_amicable t p).2.s.getD 0 [] = t.s.getD (p.getD 0 0) [] ∧
    (_amicable t p).2.s.getD 2 [] = t.s.getD (p.getD 2 0) [] ∧
    ((_amicable t p).2.s.getD 1 []).length = t.n ∧
    (∀ k, k < t.n → ((_amicable t p).2.s.getD 1 []).getD k 0 =
      (t.s.getD (p.getD 1 0) []).getD ((k + (t.n - i1)) % t.n) 0) ∧
    ((_amicable t p).2.s.getD 3 []).length = t.n ∧
    (∀ k, k < t.n → ((_amicable t p).2.s.getD 3 []).getD k 0 =
      (t.s.getD (p.getD 3 0) []).getD ((k + (t.n - i2)) % t.n) 0) := by
  have h0 := first_pair_lengths t p hq hl hp 0 (by omega)
  have h1 := first_pair_lengths t p hq hl hp 1 (by omega)
  have h2 := first_pair_lengths t p hq hl hp 2 (by omega)
  have h3 := first_pair_lengths t p hq hl hp 3 (by omega)
  have hres := amicable_at_first t p h0 h2 i1 i2 hf
  rw [if_pos hsum] at hres
  have hs := apply_flag_s_of_perm t p i1 i2 hp
  have e0 : (apply_flag t p i1 i2).s.getD 0 [] = t.s.getD (p.getD 0 0) [] := by
    rw [hs]; rfl
  have e1 : (apply_flag t p i1 i2).s.getD 1 [] = rotate_rev (t.s.getD (p.getD 1 0) []) i1 := by
    rw [hs]; rfl
  have e2 : (apply_flag t p i1 i2).s.getD 2 [] = t.s.getD (p.getD 2 0) [] := by
    rw [hs]; rfl
  have e3 : (apply_flag t p i1 i2).s.getD 3 [] = rotate_rev (t.s.getD (p.getD 3 0) []) i2 := by
    rw [hs]; rfl
  rw [hres]
  dsimp only
  rw [e0, e1, e2, e3]
  refine ⟨rfl, rfl, rfl, ?_, ?_, ?_, ?_⟩
  · rw [rotate_rev_length, h1]
  · intro k hk
    rw [rotate_rev_getD _ i1 k (by rw [h1]; exact hf.1) (by rw [h1]; exact hk), h1]
  · rw [rotate_rev_length, h3]
  · intro k hk
    rw [rotate_rev_getD _ i2 k (by rw [h3]; exact hf.2.1) (by rw [h3]; exact hk), h3]

/-- Claim C11, amended, instance: the length-6 example with `p = (0,2,1,3)` and the
offsets `(2, 1)`. -/
theorem flag_rotation_right_witness :
    ex_second6.s.length = 4 ∧ (∀ x ∈ ex_second6.s, x.length = ex_second6.n) ∧
    List.Perm [0, 2, 1, 3] [0, 1, 2, 3] ∧ first_pair ex_second6 [0, 2, 1, 3] 2 1 ∧
    sum_zero (rowA ex_second6 [0, 2, 1, 3] 2) (rowB ex_second6 [0, 2, 1, 3] 1)
      ex_second6.n ∧
    (∀ k, k < ex_second6.n →
      ((_amicable ex_second6 [0, 2, 1, 3]).2.s.getD 1 []).getD k 0 =
        (ex_second6.s.getD (([0, 2, 1, 3] : perm).getD 1 0) []).getD
          ((k + (ex_second6.n - 2)) % ex_second6.n) 0) :=
  ⟨by decide, by decide, by decide, by decide, by decide,
    (flag_rotation_right ex_second6 [0, 2, 1, 3] (by decide) (by decide) (by decide) 2 1
      (by decide) (by decide)).2.2.2.2.1⟩

theorem ext_getD (l1 l2 : seq) (hlen : l1.length = l2.length)
    (h : ∀ j, j < l1.length → l1.getD j 0 = l2.getD j 0) : l1 = l2 := by
  apply List.ext_getElem hlen
  intro j h1 h2
  have := h j h1
  rwa [List.getD_eq_getElem l1 0 h1, List.getD_eq_getElem l2 0 h2] at this

/-- Row `0` of the rotation differences of a vector `x` that is the vector `y` shifted by
`i` is row `i` of the rotation differences of `y`. -/
theorem rotations_row_shift (x y : seq) (n i : Nat) (hx : x.length = n) (hy : y.length = n)
    (hi : i < n) (h : ∀ j, j < n → x.getD j 0 = y.getD ((j + i) % n) 0) :
    (rotations x).getD 0 [] = (rotations y).getD i [] := by
  apply ext_getD
  · rw [rotations_row_length x 0 (by omega), rotations_row_length y i (by omega), hx, hy]
  · intro j hj
    rw [rotations_row_length x 0 (by omega), hx] at hj
    rcases Nat.eq_zero_or_pos j with hz | hpos
    · subst hz
      rw [rotations_col_zero x 0 (by omega), rotations_col_zero y i (by omega)]
    · rw [rotations_getD x n 0 j hx (by omega) hpos hj,
        rotations_getD y n i j hy hi hpos hj,
        Nat.add_zero, Nat.add_zero, Nat.mod_eq_of_lt (by omega : j < n),
        Nat.mod_eq_of_lt (by omega : n - j < n), h j (by omega), h (n - j) (by omega)]

/-- Claim C12. When `_amicable(s, p)` succeeds in the sum-zero branch with offsets
`(i1, i2)` (four forward sequences of length `n`, `p` a permutation of `{0,1,2,3}`), then
for every lag `j < n`,
`cross_corrs(out[0], out[1])[j] = cross_corrs(in[p[0]], in[p[1]])[(j + i1) mod n]` and
`cross_corrs(out[2], out[3])[j] = cross_corrs(in[p[2]], in[p[3]])[(j + i2) mod n]`, where
`in` is the quadruple at call time and `out` the quadruple on return; so row `0` of the
rotation differences of the output is row `i1`, resp. `i2`, of those of the input. -/
theorem rotation_matches_row (t : set_t) (p : perm) (hq : t.s.length = 4)
    (hl : ∀ x ∈ t.s, x.length = t.n) (hp : p.Perm [0, 1, 2, 3]) (i1 i2 : Nat)
    (hf : first_pair t p i1 i2)
    (hsum : sum_zero (rowA t p i1) (rowB t p i2) t.n) :
    (_amicable t p).1 = true ∧
    (∀ j, j < t.n →
      (cross_corrs ((_amicable t p).2.s.getD 0 []) ((_amicable t p).2.s.getD 1 [])).getD j 0 =
        (cross_corrs (t.s.getD (p.getD 0 0) []) (t.s.getD (p.getD 1 0) [])).getD
          ((j + i1) % t.n) 0 ∧
      (cross_corrs ((_amicable t p).2.s.getD 2 []) ((_amicable t p).2.s.getD 3 [])).getD j 0 =
        (cross_corrs (t.s.getD (p.getD 2 0) []) (t.s.getD (p.getD 3 0) [])).getD
          ((j + i2) % t.n) 0) ∧
    (rotations (cross_corrs ((_amicable t p).2.s.getD 0 [])
        ((_amicable t p).2.s.getD 1 []))).getD 0 [] =
      (rotations (cross_corrs (t.s.getD (p.getD 0 0) [])
        (t.s.getD (p.getD 1 0) []))).getD i1 [] ∧
    (rotations (cross_corrs ((_amicable t p).2.s.getD 2 [])
        ((_amicable t p).2.s.getD 3 []))).getD 0 [] =
      (rotations (cross_corrs (t.s.getD (p.getD 2 0) [])
        (t.s.getD (p.getD 3 0) []))).getD i2 [] := by
  have h0 := first_pair_lengths t p hq hl hp 0 (by omega)
  have h1 := first_pair_lengths t p hq hl hp 1 (by omega)
  have h2 := first_pair_lengths t p hq hl hp 2 (by omega)
  have h3 := first_pair_lengths t p hq hl hp 3 (by omega)
  have hres := amicable_at_first t p h0 h2 i1 i2 hf
  rw [if_pos hsum] at hres
  have hs := apply_flag_s_of_perm t p i1 i2 hp
  have e0 : (apply_flag t p i1 i2).s.getD 0 [] = t.s.getD (p.getD 0 0) [] := by
    rw [hs]; rfl
  have e1 : (apply_flag t p i1 i2).s.getD 1 [] = rotate_rev (t.s.getD (p.getD 1 0) []) i1 := by
    rw [hs]; rfl
  have e2 : (apply_flag t p i1 i2).s.getD 2 [] = t.s.getD (p.getD 2 0) [] := by
    rw [hs]; rfl
  have e3 : (apply_flag t p i1 i2).s.getD 3 [] = rotate_rev (t.s.getD (p.getD 3 0) []) i2 := by
    rw [hs]; rfl
  rw [hres]
  dsimp only
  rw [e0, e1, e2, e3]
  have hA : ∀ j, j < t.n →
      (cross_corrs (t.s.getD (p.getD 0 0) []) (rotate_rev (t.s.getD (p.getD 1 0) []) i1)).getD
        j 0 =
      (cross_corrs (t.s.getD (p.getD 0 0) []) (t.s.getD (p.getD 1 0) [])).getD
        ((j + i1) % t.n) 0 :=
    fun j hj => cross_corrs_rotate _ _ t.n j i1 h0 h1 hj hf.1
  have hB : ∀ j, j < t.n →
      (cross_corrs (t.s.getD (p.getD 2 0) []) (rotate_rev (t.s.getD (p.getD 3 0) []) i2)).getD
        j 0 =
      (cross_corrs (t.s.getD (p.getD 2 0) []) (t.s.getD (p.getD 3 0) [])).getD
        ((j + i2) % t.n) 0 :=
    fun j hj => cross_corrs_rotate _ _ t.n j i2 h2 h3 hj hf.2.1
  refine ⟨rfl, fun j hj => ⟨hA j hj, hB j hj⟩, ?_, ?_⟩
  · exact rotations_row_shift _ _ t.n i1 (by rw [cross_corrs_length, h0])
      (by rw [cross_corrs_length, h0]) hf.1 hA
  · exact rotations_row_shift _ _ t.n i2 (by rw [cross_corrs_length, h2])
      (by rw [cross_corrs_length, h2]) hf.2.1 hB

/-- Claim C12, instance: the length-6 example with `p = (0,2,1,3)` and the offsets
`(2, 1)`. -/
theorem rotation_matches_row_witness :
    ex_second6.s.length = 4 ∧ (∀ x ∈ ex_second6.s, x.length = ex_second6.n) ∧
    List.Perm [0, 2, 1, 3] [0, 1, 2, 3] ∧ first_pair ex_second6 [0, 2, 1, 3] 2 1 ∧
    sum_zero (rowA ex_second6 [0, 2, 1, 3] 2) (rowB ex_second6 [0, 2, 1, 3] 1)
      ex_second6.n ∧
    (rotations (cross_corrs ((_amicable ex_second6 [0, 2, 1, 3]).2.s.getD 0 [])
        ((_amicable ex_second6 [0, 2, 1, 3]).2.s.getD 1 []))).getD 0 [] =
      (rotations (cross_corrs (ex_second6.s.getD (([0, 2, 1, 3] : perm).getD 0 0) [])
        (ex_second6.s.getD (([0, 2, 1, 3] : perm).getD 1 0) []))).getD 2 [] :=
  ⟨by decide, by decide, by decide, by decide, by decide,
    (rotation_matches_row ex_second6 [0, 2, 1, 3] (by decide) (by decide) (by decide) 2 1
      (by decide) (by decide)).2.2.1⟩

theorem read_seq_length (v : seq) (input : List Int) :
    (read_seq v input).1.length = v.length := by
  induction v generalizing input with
  | nil => rfl
  | cons x xs ih =>
    cases input with
    | nil => rfl
    | cons a rest => simp [read_seq, ih]

theorem read_seq_enough (v : seq) (input : List Int) (h : v.length ≤ input.length) :
    (read_seq v input).1 = input.take v.length ∧
    (read_seq v input).2 = input.drop v.length := by
  induction v generalizing input with
  | nil => exact ⟨rfl, rfl⟩
  | cons x xs ih =>
    cases input with
    | nil => simp at h
    | cons a rest =>
      have hr := ih rest (by simpa using h)
      simp [read_seq, hr.1, hr.2]

theorem read_seqs_length (vs : seqs) (input : List Int) :
    (read_seqs vs input).1.length = vs.length := by
  induction vs generalizing input with
  | nil => rfl
  | cons v vs ih => simp [read_seqs, ih]

theorem read_seqs_lengths (vs : seqs) (input : List Int) (n : Nat)
    (hl : ∀ x ∈ vs, x.length = n) : ∀ x ∈ (read_seqs vs input).1, x.length = n := by
  induction vs generalizing input with
  | nil => intro x hx; cases hx
  | cons v vs ih =>
    intro x hx
    simp only [read_seqs, List.mem_cons] at hx
    rcases hx with rfl | hx
    · rw [read_seq_length]; exact hl v (List.mem_cons_self _ _)
    · exact ih _ (fun y hy => hl y (List.mem_cons_of_mem _ hy)) x hx

theorem read_seqs_groups (a b c d : seq) (input : List Int) (n : Nat) (ha : a.length = n)
    (hb : b.length = n) (hc : c.length = n) (hd : d.length = n)
    (h : 4 * n ≤ input.length) :
    (read_seqs [a, b, c, d] input).1 =
      [(input.drop (0 * n)).take n, (input.drop (1 * n)).take n,
        (input.drop (2 * n)).take n, (input.drop (3 * n)).take n] := by
  have r1 := read_seq_enough a input (by omega)
  have r2 := read_seq_enough b (input.drop n) (by rw [List.length_drop]; omega)
  have r3 := read_seq_enough c ((input.drop n).drop n) (by
    rw [List.length_drop, List.length_drop]; omega)
  have r4 := read_seq_enough d (((input.drop n).drop n).drop n) (by
    rw [List.length_drop, List.length_drop, List.length_drop]; omega)
  rw [ha] at r1
  rw [hb] at r2
  rw [hc] at r3
  rw [hd] at r4
  simp only [read_seqs, r1.1, r1.2, r2.1, r2.2, r3.1, r3.2, r4.1]
  simp only [List.drop_drop, zero_mul, one_mul, List.drop_zero]
  have e2 : n + n = 2 * n := by omega
  have e3 : n + n + n = 3 * n := by omega
  rw [e3, e2]

theorem reverse_getD (v : seq) (i : Nat) (hi : i < v.length) :
    v.reverse.getD i 0 = v.getD (v.length - 1 - i) 0 := by
  rw [List.getD_eq_getElem _ _ (by simpa using hi), List.getElem_reverse,
    List.getD_eq_getElem _ _ (by omega)]

theorem getD_map_reverse (l : seqs) (k : Nat) :
    (l.map List.reverse).getD k [] = (l.getD k []).reverse := by
  have h := List.getD_map (l := l) (d := ([] : seq)) (n := k) List.reverse
  simpa using h

/-- Claim C16. After `operator>>` on a `set_t` that holds four forward sequences of length
`n` (as built by `set_t(n)`), the state is the as-read state: four forward and four
reversed arrays of length `n` with `r = reverse` of `s` slot by slot; for every slot `k`
in `0..3`, `r[k]` has length `n` and `r[k][i] = s[k][n-1-i]` for every `i < n`; and when
the stream holds at least `4n` integers, `s[k]` is the `k`-th group of `n` integers read. -/
theorem read_establishes_reversals (t : set_t) (input : List Int) (hs : t.s.length = 4)
    (hl : ∀ x ∈ t.s, x.length = t.n) :
    (t.read input).1.as_read ∧ (t.read input).1.n = t.n ∧
    (∀ k, k < 4 → ((t.read input).1.r.getD k []).length = t.n ∧
      ∀ i, i < t.n → ((t.read input).1.r.getD k []).getD i 0 =
        ((t.read input).1.s.getD k []).getD (t.n - 1 - i) 0) ∧
    (4 * t.n ≤ input.length →
      ∀ k, k < 4 → (t.read input).1.s.getD k [] = (input.drop (k * t.n)).take t.n) := by
  have hlen : (read_seqs t.s input).1.length = 4 := by rw [read_seqs_length, hs]
  have hall := read_seqs_lengths t.s input t.n hl
  have hslot : ∀ k, k < 4 → ((read_seqs t.s input).1.getD k []).length = t.n :=
    fun k hk => getD_length_of_all _ k t.n (by omega) hall
  refine ⟨⟨⟨hlen, ?_, hall, ?_⟩, rfl⟩, rfl, ?_, ?_⟩
  · show ((read_seqs t.s input).1.map List.reverse).length = 4
    rw [List.length_map, hlen]
  · intro x hx
    have hx2 : x ∈ (read_seqs t.s input).1.map List.reverse := hx
    obtain ⟨y, hy, rfl⟩ := List.mem_map.mp hx2
    rw [List.length_reverse]
    exact hall y hy
  · intro k hk
    show (((read_seqs t.s input).1.map List.reverse).getD k []).length = t.n ∧
      ∀ i, i < t.n → (((read_seqs t.s input).1.map List.reverse).getD k []).getD i 0 =
        (((read_seqs t.s input).1).getD k []).getD (t.n - 1 - i) 0
    rw [getD_map_reverse]
    refine ⟨by rw [List.length_reverse, hslot k hk], ?_⟩
    intro i hi
    rw [reverse_getD _ i (by rw [hslot k hk]; exact hi), hslot k hk]
  · intro h4 k hk
    show (read_seqs t.s input).1.getD k [] = _
    rcases t with ⟨n, s, r⟩
    simp only at hs hl h4 ⊢
    match s, hs with
    | [a, b, c, d], _ =>
      rw [read_seqs_groups a b c d input n (hl a (by simp)) (hl b (by simp)) (hl c (by simp))
        (hl d (by simp)) h4]
      interval_cases k <;> rfl

/-- Claim C16, instance: a `set_t` built with length 2 reads eight integers. -/
theorem read_establishes_reversals_witness :
    (set_t.make 2).s.length = 4 ∧ (∀ x ∈ (set_t.make 2).s, x.length = (set_t.make 2).n) ∧
    4 * (set_t.make 2).n ≤ ([1, 2, 3, 4, 5, 6, 7, 8] : List Int).length ∧
    ((set_t.make 2).read [1, 2, 3, 4, 5, 6, 7, 8]).1 =
      ⟨2, [[1, 2], [3, 4], [5, 6], [7, 8]], [[2, 1], [4, 3], [6, 5], [8, 7]]⟩ ∧
    ((set_t.make 2).read [1, 2, 3, 4, 5, 6, 7, 8]).1.as_read :=
  ⟨by decide, by decide, by decide, by decide,
    (read_establishes_reversals (set_t.make 2) [1, 2, 3, 4, 5, 6, 7, 8] (by decide)
      (by decide)).1⟩

/-! ## End-to-end scenarios -/

theorem getD_replicate_lt (n i : Nat) (c : Int) (hi : i < n) :
    (List.replicate n c).getD i 0 = c := by
  rw [List.getD_eq_getElem _ _ (by simpa using hi), List.getElem_replicate]

/-- The cross-correlation vector of two constant sequences is constant. -/
theorem cross_corrs_const (n : Nat) (c d : Int) :
    cross_corrs (List.replicate n c) (List.replicate n d) =
      List.replicate n ((n : Int) * (c * d)) := by
  apply ext_getD
  · rw [cross_corrs_length, List.length_replicate, List.length_replicate]
  · intro j hj
    rw [cross_corrs_length, List.length_replicate] at hj
    rw [cross_corrs_getD _ _ j (by simpa using hj), cross_corr_eq_sum,
      getD_replicate_lt n j _ hj, List.length_replicate]
    have hterm : ∀ i ∈ Finset.range n,
        (List.replicate n c).getD i 0 *
          (List.replicate n d).getD (wrap_index n i (j : Int)) 0 = c * d := by
      intro i hi
      have hi2 := Finset.mem_range.mp hi
      rw [getD_replicate_lt n i c hi2,
        getD_replicate_lt n _ d (wrap_index_lt n i j hi2 hj)]
    rw [Finset.sum_congr rfl hterm, Finset.sum_const, Finset.card_range, nsmul_eq_mul]

/-- Every rotation difference of a constant vector is zero. -/
theorem rotations_const (n : Nat) (v : Int) :
    ∀ row ∈ rotations (List.replicate n v), ∀ e ∈ row, e = 0 := by
  intro row hrow e he
  unfold rotations at hrow
  simp only [List.mem_map, List.mem_range, List.length_replicate] at hrow
  obtain ⟨i, hi, rfl⟩ := hrow
  simp only [List.mem_map, List.mem_range] at he
  obtain ⟨j, hj, rfl⟩ := he
  split_ifs with h1
  · rw [rotations_S_entry _ i j (by simpa using hi) (by rw [List.length_replicate]; omega),
      rotations_S_entry _ i (n - j) (by simpa using hi)
        (by rw [List.length_replicate]; omega),
      List.length_replicate,
      getD_replicate_lt n _ v (by split_ifs <;> omega),
      getD_replicate_lt n _ v (by split_ifs <;> omega)]
    ring
  · rfl

theorem getD_of_all_zero (row : seq) (h : ∀ e ∈ row, e = 0) (j : Nat) : row.getD j 0 = 0 := by
  by_cases hj : j < row.length
  · rw [List.getD_eq_getElem row 0 hj]
    exact h _ (List.getElem_mem _)
  · rw [List.getD_eq_default row 0 (by omega)]

theorem getD_row_mem (m : seqs) (i : Nat) (hi : i < m.length) : m.getD i [] ∈ m := by
  rw [List.getD_eq_getElem m [] hi]
  exact List.getElem_mem _

theorem rotate_rev_zero (v : seq) : rotate_rev v 0 = v := by
  simp [rotate_rev, std_rotate]

/-- A first loop that succeeds at once decides `set_t::amicable`. -/
theorem amicable_of_identity (t : set_t) (h : (_amicable t [0, 1, 2, 3]).1 = true) :
    t.amicable = (true, (_amicable t [0, 1, 2, 3]).2) := by
  have h1 : amicable_loop prepare1 restore1 P t = (true, (_amicable t [0, 1, 2, 3]).2) :=
    amicable_loop_cons_true prepare1 restore1 [0, 1, 2, 3] [[0, 2, 1, 3], [0, 3, 1, 2]] t h
  rw [amicable_cases, h1]
  simp

/-- Claim C19. For every quadruple of length `n ≥ 1` (in particular every even `n ≥ 2`) in
which each of the four sequences is constant: every cross-correlation vector is constant,
every rotation difference is `0`, and `set_t::amicable` succeeds at the first attempt
(`p = (0,1,2,3)`, no reversal, `(i1, i2) = (0, 0)` the first satisfying pair, sum-zero
branch) and leaves the state, so the four forward sequences, unchanged. -/
theorem constant_sequences_succeed (t : set_t) (hn : 1 ≤ t.n) (hq : t.quadruple)
    (hc : ∀ x ∈ t.s, ∃ c, x = List.replicate t.n c) :
    (∀ a ∈ t.s, ∀ b ∈ t.s, ∃ v, cross_corrs a b = List.replicate t.n v) ∧
    (∀ a ∈ t.s, ∀ b ∈ t.s, ∀ row ∈ rotations (cross_corrs a b), ∀ e ∈ row, e = 0) ∧
    first_pair t [0, 1, 2, 3] 0 0 ∧
    sum_zero (rowA t [0, 1, 2, 3] 0) (rowB t [0, 1, 2, 3] 0) t.n ∧
    _amicable t [0, 1, 2, 3] = (true, t) ∧
    t.amicable = (true, t) := by
  have hcc : ∀ a ∈ t.s, ∀ b ∈ t.s, ∃ v, cross_corrs a b = List.replicate t.n v := by
    intro a ha b hb
    obtain ⟨c, rfl⟩ := hc a ha
    obtain ⟨d, rfl⟩ := hc b hb
    exact ⟨_, cross_corrs_const t.n c d⟩
  have hrot : ∀ a ∈ t.s, ∀ b ∈ t.s, ∀ row ∈ rotations (cross_corrs a b),
      ∀ e ∈ row, e = 0 := by
    intro a ha b hb
    obtain ⟨v, hv⟩ := hcc a ha b hb
    rw [hv]
    exact rotations_const t.n v
  obtain ⟨hs, hr, hl, _⟩ := hq
  have hmem : ∀ k, k < 4 → t.s.getD k [] ∈ t.s := fun k hk => getD_row_mem t.s k (by omega)
  have hlen : ∀ k, k < 4 → (t.s.getD k []).length = t.n := fun k hk => hl _ (hmem k hk)
  have hA : ∀ e ∈ rowA t [0, 1, 2, 3] 0, e = 0 := by
    apply hrot _ (hmem 0 (by omega)) _ (hmem 1 (by omega))
    apply getD_row_mem
    show 0 < (rotations (cross_corrs (t.s.getD 0 []) (t.s.getD 1 []))).length
    rw [rotations_length, cross_corrs_length, hlen 0 (by omega)]
    omega
  have hB : ∀ e ∈ rowB t [0, 1, 2, 3] 0, e = 0 := by
    apply hrot _ (hmem 2 (by omega)) _ (hmem 3 (by omega))
    apply getD_row_mem
    show 0 < (rotations (cross_corrs (t.s.getD 2 []) (t.s.getD 3 []))).length
    rw [rotations_length, cross_corrs_length, hlen 2 (by omega)]
    omega
  have hsum : sum_zero (rowA t [0, 1, 2, 3] 0) (rowB t [0, 1, 2, 3] 0) t.n := by
    intro j _ _
    rw [getD_of_all_zero _ hA j, getD_of_all_zero _ hB j]
    rfl
  have hfirst : first_pair t [0, 1, 2, 3] 0 0 := by
    refine ⟨by omega, by omega, Or.inl hsum, ?_⟩
    intro k1 _ k2 _ _
    omega
  have hres := amicable_at_first t [0, 1, 2, 3] (hlen 0 (by omega)) (hlen 2 (by omega)) 0 0
    hfirst
  rw [if_pos hsum] at hres
  have hsame : apply_flag t [0, 1, 2, 3] 0 0 = t := by
    rcases t with ⟨n, s, r⟩
    simp only at hs
    match s, hs with
    | [a, b, c, d], _ =>
      show (⟨n, [a, rotate_rev b 0, c, rotate_rev d 0], r⟩ : set_t) = _
      rw [rotate_rev_zero, rotate_rev_zero]
  rw [hsame] at hres
  refine ⟨hcc, hrot, hfirst, hsum, hres, ?_⟩
  have h1 : (_amicable t [0, 1, 2, 3]).1 = true := by rw [hres]
  rw [amicable_of_identity t h1, hres]

/-- Claim C19, instance: `n = 4` with all four sequences `1 1 1 1`; the correlation
vector is constant `4` and the search succeeds unchanged. -/
theorem constant_sequences_succeed_witness :
    Even ex_ones.n ∧ 2 ≤ ex_ones.n ∧ ex_ones.quadruple ∧
    (∀ x ∈ ex_ones.s, ∃ c, x = List.replicate ex_ones.n c) ∧
    cross_corrs [1, 1, 1, 1] [1, 1, 1, 1] = [4, 4, 4, 4] ∧
    ex_ones.amicable = (true, ex_ones) :=
  have hc : ∀ x ∈ ex_ones.s, ∃ c, x = List.replicate ex_ones.n c := by
    intro x hx
    refine ⟨1, ?_⟩
    simp only [ex_ones, set_t.of_seqs, List.mem_cons, List.mem_singleton, List.not_mem_nil,
      or_false, or_self] at hx
    rw [hx]
    rfl
  ⟨by decide, by decide, by decide, hc, by decide,
    (constant_sequences_succeed ex_ones (by decide) (by decide) hc).2.2.2.2.2⟩

/-- Claim C20, as stated, fails. On the quadruple of the scenario (`n = 4`, in the state
left by `operator>>`) a permutation/reversal/rotation combination satisfies an equality
and `set_t::amicable` does not report failure: its first `_amicable` call returns `true`. -/
theorem scenario_not_negative :
    ex_scenario.as_read ∧ transform_exists ex_scenario ∧
    (_amicable ex_scenario [0, 1, 2, 3]).1 = true ∧ (ex_scenario.amicable).1 = true := by
  decide

/-- Claim C20, amended. For `n = 4` and the quadruple of the scenario, the cross
correlation of the last two sequences is `0` at every lag, the sum-zero condition holds at
`p = (0,1,2,3)` with no reversal and `(i1, i2) = (0, 0)`, and `set_t::amicable` succeeds at
its first attempt leaving the quadruple equal to the input.  The negative scenario holds
for `n = 4` and the quadruple `1 1 1 -1`, `1 1 -1 -1`, `1 1 -1 -1`, `1 1 -1 -1`: no
permutation/reversal/rotation combination satisfies either equality, every `_amicable`
call returns `false`, and the quadruple after the call equals the input. -/
theorem scenario_amended :
    (cross_corrs [1, -1, 1, -1] [1, 1, -1, -1] = [0, 0, 0, 0] ∧
      first_pair ex_scenario [0, 1, 2, 3] 0 0 ∧
      sum_zero (rowA ex_scenario [0, 1, 2, 3] 0) (rowB ex_scenario [0, 1, 2, 3] 0)
        ex_scenario.n ∧
      ex_scenario.amicable = (true, ex_scenario)) ∧
    (ex_fail4.as_read ∧ ¬ transform_exists ex_fail4 ∧
      ex_fail4.amicable = (false, ex_fail4)) := by
  decide

/-! ## Degenerate length and bound constants -/

/-- When the sum-zero condition holds on the rows `(0, 0)` for the identity permutation,
`set_t::amicable` succeeds at its first attempt and leaves the state as it was. -/
theorem first_attempt_unchanged (t : set_t) (hn : 1 ≤ t.n) (hq : t.quadruple)
    (hsum : sum_zero (rowA t [0, 1, 2, 3] 0) (rowB t [0, 1, 2, 3] 0) t.n) :
    first_pair t [0, 1, 2, 3] 0 0 ∧ _amicable t [0, 1, 2, 3] = (true, t) ∧
    t.amicable = (true, t) := by
  obtain ⟨hs, hr, hl, _⟩ := hq
  have hlen : ∀ k, k < 4 → (t.s.getD k []).length = t.n :=
    fun k hk => hl _ (getD_row_mem t.s k (by omega))
  have hfirst : first_pair t [0, 1, 2, 3] 0 0 := by
    refine ⟨by omega, by omega, Or.inl hsum, ?_⟩
    intro k1 _ k2 _ _
    omega
  have hres := amicable_at_first t [0, 1, 2, 3] (hlen 0 (by omega)) (hlen 2 (by omega)) 0 0
    hfirst
  rw [if_pos hsum] at hres
  have hsame : apply_flag t [0, 1, 2, 3] 0 0 = t := by
    rcases t with ⟨n, s, r⟩
    simp only at hs
    match s, hs with
    | [a, b, c, d], _ =>
      show (⟨n, [a, rotate_rev b 0, c, rotate_rev d 0], r⟩ : set_t) = _
      rw [rotate_rev_zero, rotate_rev_zero]
  rw [hsame] at hres
  refine ⟨hfirst, hres, ?_⟩
  have h1 : (_amicable t [0, 1, 2, 3]).1 = true := by rw [hres]
  rw [amicable_of_identity t h1, hres]

theorem rotations_rows_two (x : seq) (hx : x.length = 2) :
    ∀ row ∈ rotations x, row = [0] := by
  intro row hrow
  obtain ⟨hlen, hzero⟩ := rotations_mem_row x row hrow
  rw [hx] at hlen hzero
  match row, hlen with
  | [e], _ =>
    have h := hzero (by decide)
    simp only [List.getElem?_cons_zero, Option.some.injEq] at h
    rw [h]

/-- Claim C27. For every quadruple of four length-2 integer sequences, every row of the
rotation-difference matrices is the single column `0`, and `set_t::amicable` succeeds at
its very first attempt (`p = (0,1,2,3)`, no reversal, `(i1, i2) = (0, 0)` the first
satisfying pair, sum-zero branch) and leaves the state, so all four forward sequences,
unchanged and unnegated, whatever their contents. -/
theorem length_two_always_succeeds (t : set_t) (hq : t.quadruple) (h2 : t.n = 2) :
    (∀ a ∈ t.s, ∀ b ∈ t.s, ∀ row ∈ rotations (cross_corrs a b), row = [0]) ∧
    first_pair t [0, 1, 2, 3] 0 0 ∧
    sum_zero (rowA t [0, 1, 2, 3] 0) (rowB t [0, 1, 2, 3] 0) t.n ∧
    _amicable t [0, 1, 2, 3] = (true, t) ∧
    t.amicable = (true, t) ∧ (t.amicable).2.s = t.s := by
  have hsum : sum_zero (rowA t [0, 1, 2, 3] 0) (rowB t [0, 1, 2, 3] 0) t.n := by
    intro j h1 hj
    rw [h2] at hj
    omega
  obtain ⟨hf, hres, hall⟩ := first_attempt_unchanged t (by omega) hq hsum
  refine ⟨?_, hf, hsum, hres, hall, by rw [hall]⟩
  intro a ha b _
  apply rotations_rows_two
  rw [cross_corrs_length, hq.2.2.1 a ha, h2]

/-- Claim C27, instance: a length-2 quadruple with arbitrary integer entries. -/
theorem length_two_always_succeeds_witness :
    ex_two.quadruple ∧ ex_two.n = 2 ∧ ex_two.amicable = (true, ex_two) :=
  ⟨by decide, rfl, (length_two_always_succeeds ex_two (by decide) rfl).2.2.2.2.1⟩

/-- Claim C22, the code at a failing input. For `n = 6` the constructor of `args_t` assigns
`bound = 28`, which is `4n + 4` and not the documented `2n + 2 = 14`; the constructor of
`sequence_t` assigns the same `28`. -/
theorem args_bound_at_six :
    (args_t.make 6).n = 6 ∧ (args_t.make 6).bound = 28 ∧ (args_t.make 6).bound ≠ 2 * 6 + 2 ∧
    (sequence_t.make 6).bound = (args_t.make 6).bound := by
  decide

/-- The bound both constructors assign is `4n + 4` reduced modulo `2^32`. -/
theorem args_bound_eq (n : Nat) :
    (args_t.make n).bound = (4 * (n % 2 ^ 32) + 4) % 2 ^ 32 ∧
    (sequence_t.make n).bound = (args_t.make n).bound := by
  refine ⟨?_, rfl⟩
  show (((n % 2 ^ 32) * 2 ^ 2) % 2 ^ 32 + 4) % 2 ^ 32 = _
  omega

/-! ## The text written to the output stream -/

theorem write_seq_eq (os : String) (v : seq) :
    write_seq os v =
      os ++ (v.map (fun (x : Int) => toString x ++ " ")).foldr (fun a b => a ++ b) "" := by
  unfold write_seq
  induction v generalizing os with
  | nil => simp
  | cons x xs ih =>
    simp only [List.foldl_cons, List.map_cons, List.foldr_cons]
    rw [ih]
    simp only [String.append_assoc]

theorem write_set_four (os : String) (n : Nat) (a b c d : seq) (r : seqs) :
    write_set os ⟨n, [a, b, c, d], r⟩ =
      os ++ (line_text a ++ (line_text b ++ (line_text c ++ line_text d))) := by
  unfold write_set line_text
  simp only [List.foldl_cons, List.foldl_nil, write_seq_eq, String.append_assoc]

theorem amicable_body_text_eq (t : set_t) (p : perm) (c1 c2 : seqs) (i1 i2 : Nat) :
    amicable_body_text t p c1 c2 i1 i2 =
      (amicable_body t p c1 c2 i1 i2).map (fun u => (u, write_set "" u ++ "\n")) := by
  simp only [amicable_body_text, amicable_body]
  split_ifs <;> rfl

theorem findSome_map {α β : Type} (f : Nat → Option α) (g : α → β) (l : List Nat) :
    l.findSome? (fun i => (f i).map g) = (l.findSome? f).map g := by
  induction l with
  | nil => rfl
  | cons x xs ih =>
    simp only [List.findSome?_cons]
    cases hfx : f x with
    | none => simpa using ih
    | some a => simp

/-- The text `_amicable` writes: the transformed set and one more newline when it returns
`true`, nothing when it returns `false`; verdict and state are those of `_amicable`. -/
theorem amicable_text_eq (t : set_t) (p : perm) :
    _amicable_text t p =
      ((_amicable t p).1, (_amicable t p).2,
        if (_amicable t p).1 = true then write_set "" (_amicable t p).2 ++ "\n" else "") := by
  have hbody : (fun i1 => (List.range (corrs2 t p).length).findSome? (fun i2 =>
      amicable_body_text t p (corrs1 t p) (corrs2 t p) i1 i2)) =
      (fun i1 => ((List.range (corrs2 t p).length).findSome? (fun i2 =>
        amicable_body t p (corrs1 t p) (corrs2 t p) i1 i2)).map
          (fun u => (u, write_set "" u ++ "\n"))) := by
    funext i1
    rw [← findSome_map]
    congr 1
    funext i2
    exact amicable_body_text_eq t p _ _ i1 i2
  have hsearch : (List.range (corrs1 t p).length).findSome? (fun i1 =>
      (List.range (corrs2 t p).length).findSome? (fun i2 =>
        amicable_body_text t p (corrs1 t p) (corrs2 t p) i1 i2)) =
      ((List.range (corrs1 t p).length).findSome? (fun i1 =>
        (List.range (corrs2 t p).length).findSome? (fun i2 =>
          amicable_body t p (corrs1 t p) (corrs2 t p) i1 i2))).map
            (fun u => (u, write_set "" u ++ "\n")) := by
    rw [hbody, findSome_map]
  unfold _amicable_text
  simp only [hsearch]
  cases hs : (List.range (corrs1 t p).length).findSome? (fun i1 =>
        (List.range (corrs2 t p).length).findSome? (fun i2 =>
          amicable_body t p (corrs1 t p) (corrs2 t p) i1 i2)) with
  | some t1 => rw [amicable_some t p t1 hs]; rfl
  | none => rw [amicable_none t p hs]; rfl

theorem amicable_loop_text_eq (pre post : set_t → perm → set_t) (ps : List perm)
    (t : set_t) (out : String) :
    amicable_loop_text pre post ps t out =
      ((amicable_loop pre post ps t).1, (amicable_loop pre post ps t).2,
        out ++ (if (amicable_loop pre post ps t).1 = true then
          write_set "" (amicable_loop pre post ps t).2 ++ "\n" else "")) := by
  induction ps generalizing t out with
  | nil => simp [amicable_loop_text, amicable_loop]
  | cons p ps ih =>
    rw [amicable_loop_text, amicable_text_eq]
    cases hb : (_amicable (pre t p) p).1 with
    | true =>
      rw [amicable_loop_cons_true pre post p ps t hb]
    | false =>
      rw [amicable_loop_cons_false pre post p ps t hb]
      simp only [Bool.false_eq_true, if_false, String.append_empty]
      rw [ih, amicable_fail_state _ _ hb]

/-- The text `set_t::amicable` writes: the transformed set and one more newline after a
successful search, nothing after a failed one; verdict and state are those of
`set_t.amicable`. -/
theorem amicable_text_whole (t : set_t) :
    t.amicable_text =
      ((t.amicable).1, (t.amicable).2,
        if (t.amicable).1 = true then write_set "" (t.amicable).2 ++ "\n" else "") := by
  unfold set_t.amicable_text set_t.amicable
  simp only [amicable_loop_text_eq]
  rcases h1 : amicable_loop prepare1 restore1 P t with ⟨b1, u1⟩
  cases b1
  · rcases h2 : amicable_loop prepare2 restore2 P u1 with ⟨b2, u2⟩
    cases b2
    · rcases h3 : amicable_loop prepare3 restore3 P u2 with ⟨b3, u3⟩
      cases b3
      · rcases h4 : amicable_loop prepare4 restore4 P u3 with ⟨b4, u4⟩
        cases b4 <;> simp [h2, h3, h4]
      · simp [h2, h3]
    · simp [h2]
  · simp

/-- Claim C21, as stated, fails. The text written for the quadruple of four sequences
`1 1 1 1` has a blank after every value, also after the last one of a line, so it is not
the block of four lines of blank-separated values. -/
theorem output_not_separated :
    write_set "" ex_ones = "1 1 1 1 \n1 1 1 1 \n1 1 1 1 \n1 1 1 1 \n" ∧
    lines_separated ex_ones = "1 1 1 1\n1 1 1 1\n1 1 1 1\n1 1 1 1\n" ∧
    write_set "" ex_ones ≠ lines_separated ex_ones := by
  decide

/-- Claim C21, amended. For every quadruple, the text written by `operator<<` for `set_t`
is exactly four lines, line `k` (`k = 0..3`) being the decimal values of forward slot `k`,
each value followed by one blank, and then a newline; on a successful search the emitted
text is this four-line block for the transformed quadruple followed by one more newline
(a blank trailer line), and on a failed search nothing is emitted. -/
theorem output_text (t : set_t) (hs : t.s.length = 4) :
    write_set "" t =
      line_text (t.s.getD 0 []) ++ (line_text (t.s.getD 1 []) ++
        (line_text (t.s.getD 2 []) ++ line_text (t.s.getD 3 []))) ∧
    (t.amicable_text).1 = (t.amicable).1 ∧ (t.amicable_text).2.1 = (t.amicable).2 ∧
    ((t.amicable).1 = true →
      (t.amicable_text).2.2 = write_set "" (t.amicable).2 ++ "\n") ∧
    ((t.amicable).1 = false → (t.amicable_text).2.2 = "") := by
  rw [amicable_text_whole]
  refine ⟨?_, rfl, rfl, ?_, ?_⟩
  · rcases t with ⟨n, s, r⟩
    simp only at hs
    match s, hs with
    | [a, b, c, d], _ =>
      rw [write_set_four]
      simp only [String.empty_append]
      rfl
  · intro h
    simp only [h, if_true]
  · intro h
    simp only [h, Bool.false_eq_true, if_false]

set_option maxRecDepth 100000 in
/-- Claim C21, amended, instance: the text emitted by the successful search on the length-6
example. -/
theorem output_text_witness :
    ex_second6.s.length = 4 ∧ (ex_second6.amicable).1 = true ∧
    (ex_second6.amicable_text).2.2 =
      "1 1 1 1 -1 1 \n1 -1 1 1 1 1 \n1 -1 -1 1 1 1 \n1 -1 -1 1 -1 -1 \n\n" ∧
    (ex_second6.amicable_text).2.2 = write_set "" (ex_second6.amicable).2 ++ "\n" :=
  ⟨by decide, by decide, by decide,
    (output_text ex_second6 (by decide)).2.2.2.1 (by decide)⟩

/-! ## Magnitudes for sequences with entries `+1` and `-1` -/

theorem cross_corr_upto_full (j : Int) (s1 s2 : seq) :
    cross_corr_upto s1.length j s1 s2 = cross_corr j s1 s2 := rfl

theorem cross_corr_upto_eq_sum (k : Nat) (j : Int) (s1 s2 : seq) :
    cross_corr_upto k j s1 s2 =
      ∑ i ∈ Finset.range k, s1.getD i 0 * s2.getD (wrap_index s1.length i j) 0 := by
  have h := foldl_add_eq (fun i => s1.getD i 0 * s2.getD (wrap_index s1.length i j) 0)
    (List.range k) 0
  rw [sum_map_range, zero_add] at h
  exact h

theorem pm_one_getD (v : seq) (hv : pm_one v) (i : Nat) (hi : i < v.length) :
    v.getD i 0 = 1 ∨ v.getD i 0 = -1 := by
  rw [List.getD_eq_getElem v 0 hi]
  exact hv _ (List.getElem_mem _)

/-- A sum of `k` terms, each `+1` or `-1`, lies in `[-k, k]` and has the parity of `k`. -/
theorem pm_sum_bound (f : Nat → Int) (k : Nat) (h : ∀ i, i < k → f i = 1 ∨ f i = -1) :
    -(k : Int) ≤ ∑ i ∈ Finset.range k, f i ∧ ∑ i ∈ Finset.range k, f i ≤ (k : Int) ∧
    (∑ i ∈ Finset.range k, f i - (k : Int)) % 2 = 0 := by
  induction k with
  | zero => simp
  | succ m ih =>
    obtain ⟨a, b, c⟩ := ih (fun i hi => h i (by omega))
    rw [Finset.sum_range_succ]
    push_cast
    rcases h m (by omega) with hm | hm <;> rw [hm] <;> refine ⟨by omega, by omega, by omega⟩

theorem cross_corr_term_pm (s1 s2 : seq) (n i j : Nat) (h1 : s1.length = n)
    (h2 : s2.length = n) (hp1 : pm_one s1) (hp2 : pm_one s2) (hi : i < n) (hj : j < n) :
    s1.getD i 0 * s2.getD (wrap_index s1.length i (j : Int)) 0 = 1 ∨
    s1.getD i 0 * s2.getD (wrap_index s1.length i (j : Int)) 0 = -1 := by
  have ha := pm_one_getD s1 hp1 i (by omega)
  have hb := pm_one_getD s2 hp2 (wrap_index s1.length i (j : Int))
    (by rw [h2, h1]; exact wrap_index_lt n i j hi hj)
  rcases ha with ha | ha <;> rcases hb with hb | hb <;> rw [ha, hb] <;> simp

theorem cross_corr_upto_bound (s1 s2 : seq) (n j k : Nat) (h1 : s1.length = n)
    (h2 : s2.length = n) (hp1 : pm_one s1) (hp2 : pm_one s2) (hj : j < n) (hk : k ≤ n) :
    -(k : Int) ≤ cross_corr_upto k (j : Int) s1 s2 ∧
    cross_corr_upto k (j : Int) s1 s2 ≤ (k : Int) ∧
    (cross_corr_upto k (j : Int) s1 s2 - (k : Int)) % 2 = 0 := by
  rw [cross_corr_upto_eq_sum]
  exact pm_sum_bound _ k
    (fun i hi => cross_corr_term_pm s1 s2 n i j h1 h2 hp1 hp2 (by omega) hj)

theorem cross_corrs_bound (s1 s2 : seq) (n j : Nat) (h1 : s1.length = n)
    (h2 : s2.length = n) (hp1 : pm_one s1) (hp2 : pm_one s2) (hj : j < n) :
    -(n : Int) ≤ (cross_corrs s1 s2).getD j 0 ∧ (cross_corrs s1 s2).getD j 0 ≤ (n : Int) ∧
    ((cross_corrs s1 s2).getD j 0 - (n : Int)) % 2 = 0 := by
  rw [cross_corrs_getD s1 s2 j (by omega), ← cross_corr_upto_full, h1]
  exact cross_corr_upto_bound s1 s2 n j n h1 h2 hp1 hp2 hj (le_refl n)

/-- Every rotation difference of a vector whose entries lie in `[-n, n]` and have the
parity of `n` is even and lies in `[-2n, 2n]`. -/
theorem rotations_entry_bound (x : seq) (n : Nat) (hx : x.length = n)
    (hb : ∀ j, j < n → -(n : Int) ≤ x.getD j 0 ∧ x.getD j 0 ≤ (n : Int) ∧
      (x.getD j 0 - (n : Int)) % 2 = 0) :
    ∀ row ∈ rotations x, ∀ e ∈ row,
      e % 2 = 0 ∧ -(2 * (n : Int)) ≤ e ∧ e ≤ 2 * (n : Int) := by
  intro row hrow e he
  unfold rotations at hrow
  simp only [List.mem_map, List.mem_range] at hrow
  obtain ⟨i, hi, rfl⟩ := hrow
  simp only [List.mem_map, List.mem_range] at he
  obtain ⟨j, hj, rfl⟩ := he
  rw [hx] at hi hj
  split_ifs with h1
  · rw [rotations_S_entry x i j (by omega) (by omega),
      rotations_S_entry x i (x.length - j) (by omega) (by omega), hx]
    have ha := hb (if j + i < n then j + i else j + i - n) (by split_ifs <;> omega)
    have hc := hb (if n - j + i < n then n - j + i else n - j + i - n)
      (by split_ifs <;> omega)
    omega
  · omega

theorem getD_of_all (row : seq) (Q : Int → Prop) (h : ∀ e ∈ row, Q e) (h0 : Q 0) (j : Nat) :
    Q (row.getD j 0) := by
  by_cases hj : j < row.length
  · rw [List.getD_eq_getElem row 0 hj]
    exact h _ (List.getElem_mem _)
  · rw [List.getD_eq_default row 0 (by omega)]
    exact h0

/-- Claim C26. For sequences `s1`, `s2` (and a second pair `s3`, `s4`) of equal length `n`
with every entry `+1` or `-1`: at every lag `j < n`,
`-n ≤ cross_corrs(s1,s2)[j] ≤ n` and `cross_corrs(s1,s2)[j]` is congruent to `n` modulo
`2`; every entry of `rotations(cross_corrs(s1,s2))` is even with absolute value at most
`2n`; and when `4n < 2^31` every value computed in `int` stays in the 32-bit signed range:
the index difference and the product in `cross_corr`, its accumulator after every
iteration, the differences in `rotations`, and the sum, the negation and the difference
formed by the tests of `_amicable` on rows of the two matrices. -/
theorem correlation_magnitude (s1 s2 s3 s4 : seq) (n : Nat) (h1 : s1.length = n)
    (h2 : s2.length = n) (h3 : s3.length = n) (h4 : s4.length = n) (hp1 : pm_one s1)
    (hp2 : pm_one s2) (hp3 : pm_one s3) (hp4 : pm_one s4) :
    (∀ j, j < n → -(n : Int) ≤ (cross_corrs s1 s2).getD j 0 ∧
      (cross_corrs s1 s2).getD j 0 ≤ (n : Int) ∧
      (cross_corrs s1 s2).getD j 0 % 2 = (n : Int) % 2) ∧
    (∀ row ∈ rotations (cross_corrs s1 s2), ∀ e ∈ row,
      e % 2 = 0 ∧ -(2 * (n : Int)) ≤ e ∧ e ≤ 2 * (n : Int)) ∧
    (4 * n < 2147483648 →
      (∀ i j, i < n → j < n → in_int32 ((i : Int) - (j : Int)) ∧
        in_int32 (s1.getD i 0 * s2.getD (wrap_index s1.length i (j : Int)) 0)) ∧
      (∀ j k, j < n → k ≤ n → in_int32 (cross_corr_upto k (j : Int) s1 s2)) ∧
      (∀ row ∈ rotations (cross_corrs s1 s2), ∀ e ∈ row, in_int32 e) ∧
      (∀ rowA ∈ rotations (cross_corrs s1 s2), ∀ rowB ∈ rotations (cross_corrs s3 s4),
        ∀ j, in_int32 (rowA.getD j 0 + rowB.getD j 0) ∧ in_int32 (-(rowA.getD j 0)) ∧
          in_int32 (-(rowA.getD j 0) + rowB.getD j 0))) := by
  have hcc12 := fun j hj => cross_corrs_bound s1 s2 n j h1 h2 hp1 hp2 hj
  have hcc34 := fun j hj => cross_corrs_bound s3 s4 n j h3 h4 hp3 hp4 hj
  have hrot12 := rotations_entry_bound (cross_corrs s1 s2) n
    (by rw [cross_corrs_length, h1]) hcc12
  have hrot34 := rotations_entry_bound (cross_corrs s3 s4) n
    (by rw [cross_corrs_length, h3]) hcc34
  refine ⟨?_, hrot12, ?_⟩
  · intro j hj
    obtain ⟨a, b, c⟩ := hcc12 j hj
    exact ⟨a, b, by omega⟩
  · intro hn
    refine ⟨?_, ?_, ?_, ?_⟩
    · intro i j hi hj
      refine ⟨⟨by omega, by omega⟩, ?_⟩
      rcases cross_corr_term_pm s1 s2 n i j h1 h2 hp1 hp2 hi hj with h | h <;> rw [h] <;>
        decide
    · intro j k hj hk
      obtain ⟨a, b, _⟩ := cross_corr_upto_bound s1 s2 n j k h1 h2 hp1 hp2 hj hk
      exact ⟨by omega, by omega⟩
    · intro row hrow e he
      obtain ⟨_, a, b⟩ := hrot12 row hrow e he
      exact ⟨by omega, by omega⟩
    · intro rowA hA rowB hB j
      have ha := getD_of_all rowA
        (fun e => e % 2 = 0 ∧ -(2 * (n : Int)) ≤ e ∧ e ≤ 2 * (n : Int))
        (hrot12 rowA hA) ⟨by omega, by omega, by omega⟩ j
      have hb := getD_of_all rowB
        (fun e => e % 2 = 0 ∧ -(2 * (n : Int)) ≤ e ∧ e ≤ 2 * (n : Int))
        (hrot34 rowB hB) ⟨by omega, by omega, by omega⟩ j
      simp only at ha hb
      unfold in_int32
      omega

/-- Claim C26, instance: the first two and the last two sequences of the length-6
example. -/
theorem correlation_magnitude_witness :
    ([1, -1, 1, 1, 1, 1] : seq).length = 6 ∧ ([-1, 1, -1, -1, 1, 1] : seq).length = 6 ∧
    pm_one [1, -1, 1, 1, 1, 1] ∧ pm_one [-1, 1, -1, -1, 1, 1] ∧
    pm_one [-1, 1, 1, -1, 1, 1] ∧ pm_one [1, 1, -1, -1, 1, -1] ∧
    (∀ j, j < 6 → -((6 : Nat) : Int) ≤
        (cross_corrs [1, -1, 1, 1, 1, 1] [-1, 1, -1, -1, 1, 1]).getD j 0 ∧
      (cross_corrs [1, -1, 1, 1, 1, 1] [-1, 1, -1, -1, 1, 1]).getD j 0 ≤ ((6 : Nat) : Int) ∧
      (cross_corrs [1, -1, 1, 1, 1, 1] [-1, 1, -1, -1, 1, 1]).getD j 0 % 2 =
        ((6 : Nat) : Int) % 2) :=
  ⟨rfl, rfl, by decide, by decide, by decide, by decide,
    (correlation_magnitude [1, -1, 1, 1, 1, 1] [-1, 1, -1, -1, 1, 1] [-1, 1, 1, -1, 1, 1]
      [1, 1, -1, -1, 1, -1] 6 rfl rfl rfl rfl (by decide) (by decide) (by decide)
      (by decide)).1⟩

/-! ## Index safety -/

theorem all_some_map {α : Type} (f : Nat → Option α) (g : Nat → α) (l : List Nat)
    (h : ∀ i ∈ l, f i = some (g i)) : all_some (l.map f) = some (l.map g) := by
  induction l with
  | nil => rfl
  | cons x xs ih =>
    simp only [List.map_cons]
    rw [h x (List.mem_cons_self _ _)]
    simp only [all_some]
    rw [ih (fun i hi => h i (List.mem_cons_of_mem _ hi))]

theorem cross_corr_checked_fold (j : Int) (s1 s2 : seq) (l : List Nat) (a : Int)
    (h : ∀ i ∈ l, i < s1.length ∧
      0 ≤ (if (i : Int) - j < 0 then (s1.length : Int) + ((i : Int) - j) else (i : Int) - j) ∧
      (if (i : Int) - j < 0 then (s1.length : Int) + ((i : Int) - j)
        else (i : Int) - j).toNat < s2.length) :
    l.foldl
      (fun (sum : Option Int) (i : Nat) =>
        let J : Int := (i : Int) - j
        let J : Int := if J < 0 then (s1.length : Int) + J else J
        match sum, s1[i]?, (if 0 ≤ J then s2[J.toNat]? else none) with
        | some acc, some x, some y => some (acc + x * y)
        | _, _, _ => none)
      (some a) =
    some (l.foldl
      (fun (sum : Int) (i : Nat) =>
        let J : Int := (i : Int) - j
        let J : Int := if J < 0 then (s1.length : Int) + J else J
        sum + s1.getD i 0 * s2.getD J.toNat 0)
      a) := by
  induction l generalizing a with
  | nil => rfl
  | cons x xs ih =>
    obtain ⟨h1, h2, h3⟩ := h x (List.mem_cons_self _ _)
    simp only [List.foldl_cons]
    rw [List.getElem?_eq_getElem h1, if_pos h2, List.getElem?_eq_getElem h3]
    simp only
    rw [ih _ (fun i hi => h i (List.mem_cons_of_mem _ hi)),
      List.getD_eq_getElem s1 0 h1, List.getD_eq_getElem s2 0 h3]

theorem cross_corr_checked_eq (s1 s2 : seq) (n j : Nat) (h1 : s1.length = n)
    (h2 : s2.length = n) (hj : j < n) :
    cross_corr_checked (j : Int) s1 s2 = some (cross_corr (j : Int) s1 s2) := by
  unfold cross_corr_checked cross_corr
  apply cross_corr_checked_fold
  intro i hi
  have hi2 := List.mem_range.mp hi
  refine ⟨hi2, ?_, ?_⟩
  · split_ifs <;> omega
  · rw [h2]
    split_ifs <;> omega

theorem cross_corrs_checked_eq (s1 s2 : seq) (n : Nat) (h1 : s1.length = n)
    (h2 : s2.length = n) : cross_corrs_checked s1 s2 = some (cross_corrs s1 s2) := by
  unfold cross_corrs_checked cross_corrs
  apply all_some_map
  intro j hj
  exact cross_corr_checked_eq s1 s2 n j h1 h2 (by rw [← h1]; exact List.mem_range.mp hj)

theorem rotations_checked_eq (s : seq) : rotations_checked s = some (rotations s) := by
  have hS : all_some ((List.range s.length).map (fun i =>
      all_some ((List.range s.length).map (fun j =>
        let J := j + i
        let J := if J < s.length then J else J - s.length
        s[J]?)))) = some (rotations_S s) := by
    unfold rotations_S
    apply all_some_map
    intro i hi
    have hi2 := List.mem_range.mp hi
    apply all_some_map
    intro j hj
    have hj2 := List.mem_range.mp hj
    have hlt : (if j + i < s.length then j + i else j + i - s.length) < s.length := by
      split_ifs <;> omega
    simp only
    rw [List.getElem?_eq_getElem hlt, List.getD_eq_getElem s 0 hlt]
  unfold rotations_checked
  rw [hS]
  simp only
  unfold rotations
  apply all_some_map
  intro i hi
  have hi2 := List.mem_range.mp hi
  apply all_some_map
  intro j hj
  have hj2 := List.mem_range.mp hj
  split_ifs with h1
  · have hrows : (rotations_S s).length = s.length := by simp [rotations_S]
    have hrow : ((rotations_S s).getD i []).length = s.length := by
      unfold rotations_S
      rw [getD_map_range _ _ _ _ hi2]
      simp
    have hi3 : i < (rotations_S s).length := by rw [hrows]; exact hi2
    rw [List.getElem?_eq_getElem hi3]
    simp only
    have hget : (rotations_S s)[i] = (rotations_S s).getD i [] :=
      (List.getD_eq_getElem _ _ hi3).symm
    rw [hget]
    have hj3 : j < ((rotations_S s).getD i []).length := by rw [hrow]; omega
    have hj4 : s.length - j < ((rotations_S s).getD i []).length := by rw [hrow]; omega
    rw [List.getElem?_eq_getElem hj3, List.getElem?_eq_getElem hj4,
      List.getD_eq_getElem _ 0 hj3, List.getD_eq_getElem _ 0 hj4]
  · rfl

theorem lag_scan_checked_eq (c1 c2 : seq) (js : List Nat) (flag neg : Bool)
    (h : ∀ j ∈ js, j < c1.length ∧ j < c2.length) :
    lag_scan_checked c1 c2 js flag neg = some (lag_scan c1 c2 js flag neg) := by
  induction js generalizing flag neg with
  | nil => rfl
  | cons j js ih =>
    obtain ⟨h1, h2⟩ := h j (List.mem_cons_self _ _)
    simp only [lag_scan_checked, lag_scan]
    rw [List.getElem?_eq_getElem h1, List.getElem?_eq_getElem h2,
      List.getD_eq_getElem c1 0 h1, List.getD_eq_getElem c2 0 h2]
    simp only
    split_ifs <;>
      first
      | rfl
      | exact ih _ _ (fun k hk => h k (List.mem_cons_of_mem _ hk))

/-- Claim C25. For every state whose four forward and four reversed arrays all have length
`n`, the accesses of `set_t::amicable`, `_amicable`, `cross_corrs` and `rotations` are in
bounds: the wrapped index of `cross_corr` lies in `[0,n)` for all `i, j` in `[0,n)`; the
rotation index `j + i`, reduced by `n`, lies in `[0,n)`; the reflected index `n - j` lies
in `[1,n)` for `1 ≤ j < n/2`; every slot index `p[k]` of a representative permutation is
in `0..3`, below the counts of forward and reversed arrays; `cross_corrs` and `rotations`
with checked accesses return the values of the unchecked functions; for all rows `i1`,
`i2` the row loops reach, the lag loop with checked accesses returns the value of the
unchecked one and the rotate offsets `i1`, `i2` are at most `n`, the length of the slots
that are rotated; and the statements around the calls keep the shape of the state. -/
theorem index_safety (t : set_t) (hq : t.quadruple) :
    (∀ i j, i < t.n → j < t.n → wrap_index t.n i (j : Int) < t.n) ∧
    (∀ i j, i < t.n → j < t.n → (if j + i < t.n then j + i else j + i - t.n) < t.n) ∧
    (∀ j, 1 ≤ j → j < t.n / 2 → 1 ≤ t.n - j ∧ t.n - j < t.n) ∧
    (∀ p ∈ P, ∀ k, k < 4 →
      p.getD k 0 < 4 ∧ p.getD k 0 < t.s.length ∧ p.getD k 0 < t.r.length) ∧
    (∀ a ∈ t.s, ∀ b ∈ t.s, cross_corrs_checked a b = some (cross_corrs a b) ∧
      rotations_checked (cross_corrs a b) = some (rotations (cross_corrs a b))) ∧
    (∀ p ∈ P, ∀ i1 i2, i1 < (corrs1 t p).length → i2 < (corrs2 t p).length →
      lag_scan_checked (rowA t p i1) (rowB t p i2)
          (List.range ((corrs1 t p).getD 0 []).length) true true =
        some (lag_scan (rowA t p i1) (rowB t p i2)
          (List.range ((corrs1 t p).getD 0 []).length) true true) ∧
      i1 ≤ t.n ∧ i2 ≤ t.n ∧
      i1 ≤ ((t.apply_perm p).s.getD 1 []).length ∧
      i2 ≤ ((t.apply_perm p).s.getD 3 []).length) ∧
    (∀ p, (prepare2 t p).quadruple ∧ (restore2 t p).quadruple ∧
      (prepare3 t p).quadruple ∧ (restore3 t p).quadruple ∧
      (prepare4 t p).quadruple ∧ (restore4 t p).quadruple) := by
  obtain ⟨hs, hr, hl, hrl⟩ := hq
  have hq2 : t.quadruple := ⟨hs, hr, hl, hrl⟩
  refine ⟨fun i j hi hj => wrap_index_lt t.n i j hi hj, ?_, ?_, ?_, ?_, ?_, ?_⟩
  · intro i j hi hj
    split_ifs <;> omega
  · intro j h1 hj
    omega
  · intro p hp k hk
    have h := perm_getD_lt p (rep_perm p hp) k hk
    exact ⟨h, by omega, by omega⟩
  · intro a ha b hb
    exact ⟨cross_corrs_checked_eq a b t.n (hl a ha) (hl b hb), rotations_checked_eq _⟩
  · intro p hp i1 i2 hi1 hi2
    have hperm := rep_perm p hp
    have h0 := first_pair_lengths t p hs hl hperm 0 (by omega)
    have h1 := first_pair_lengths t p hs hl hperm 1 (by omega)
    have h2 := first_pair_lengths t p hs hl hperm 2 (by omega)
    have h3 := first_pair_lengths t p hs hl hperm 3 (by omega)
    rw [corrs1_length, h0] at hi1
    rw [corrs2_length, h2] at hi2
    refine ⟨?_, by omega, by omega, ?_, ?_⟩
    · apply lag_scan_checked_eq
      intro j hj
      have hj2 := List.mem_range.mp hj
      unfold rowA rowB corrs1 corrs2
      unfold corrs1 at hj2
      rw [rotations_row_length _ 0 (by rw [cross_corrs_length, h0]; omega)] at hj2
      rw [rotations_row_length _ i1 (by rw [cross_corrs_length, h0]; exact hi1),
        rotations_row_length _ i2 (by rw [cross_corrs_length, h2]; exact hi2),
        cross_corrs_length, cross_corrs_length, h0, h2]
      rw [cross_corrs_length, h0] at hj2
      exact ⟨hj2, hj2⟩
    · rw [apply_perm_slot t p hperm 1 (by omega), h1]
      omega
    · rw [apply_perm_slot t p hperm 3 (by omega), h3]
      omega
  · intro p
    exact ⟨(prepare2_quadruple t.n t p ⟨hq2, rfl⟩).1, (restore2_quadruple t.n t p ⟨hq2, rfl⟩).1,
      (prepare3_quadruple t.n t p ⟨hq2, rfl⟩).1, (restore3_quadruple t.n t p ⟨hq2, rfl⟩).1,
      (prepare4_quadruple t.n t p ⟨hq2, rfl⟩).1, (restore4_quadruple t.n t p ⟨hq2, rfl⟩).1⟩

/-- Claim C25, instance: the length-6 example, with the checked correlation of its first
two sequences. -/
theorem index_safety_witness :
    ex_neg6.quadruple ∧
    (∀ a ∈ ex_neg6.s, ∀ b ∈ ex_neg6.s, cross_corrs_checked a b = some (cross_corrs a b) ∧
      rotations_checked (cross_corrs a b) = some (rotations (cross_corrs a b))) ∧
    cross_corrs_checked [1, -1, 1, 1, 1, 1] [-1, 1, -1, -1, 1, 1] = some [-2, 2, -2, -2, 2, 2] :=
  ⟨by decide, (index_safety ex_neg6 (by decide)).2.2.2.2.1, by decide⟩

/-! ## Symmetries of the verdict -/

theorem reflect_index (n j : Nat) (hj : j < n) :
    (n - j) % n = if j = 0 then 0 else n - j := by
  split_ifs with h
  · subst h; simp
  · exact Nat.mod_eq_of_lt (by omega)

theorem reflect_index_lt (n j : Nat) (hj : j < n) : (n - j) % n < n :=
  Nat.mod_lt _ (by omega)

/-- Swapping the two sequences reflects the lag of the periodic cross-correlation. -/
theorem cross_corrs_swap (s1 s2 : seq) (n j : Nat) (h1 : s1.length = n) (h2 : s2.length = n)
    (hj : j < n) :
    (cross_corrs s2 s1).getD j 0 = (cross_corrs s1 s2).getD ((n - j) % n) 0 := by
  have hr := reflect_index_lt n j hj
  rw [cross_corrs_getD s2 s1 j (by omega), cross_corrs_getD s1 s2 _ (by omega),
    cross_corr_eq_sum, cross_corr_eq_sum, h1, h2]
  apply Finset.sum_nbij' (fun i => wrap_index n i (j : Int)) (fun k => (k + j) % n)
  · intro i hi
    exact Finset.mem_range.mpr (wrap_index_lt n i j (Finset.mem_range.mp hi) hj)
  · intro k _
    exact Finset.mem_range.mpr (Nat.mod_lt _ (by omega))
  · intro i hi
    have hi2 := Finset.mem_range.mp hi
    rw [wrap_index_nat n i j hj]
    split_ifs with h
    · rw [wrap_add n _ (by omega)]; split_ifs <;> omega
    · rw [wrap_add n _ (by omega)]; split_ifs <;> omega
  · intro k hk
    have hk2 := Finset.mem_range.mp hk
    rw [wrap_index_nat n _ j hj, wrap_add n (k + j) (by omega)]
    split_ifs <;> omega
  · intro i hi
    have hi2 := Finset.mem_range.mp hi
    have hw := wrap_index_lt n i j hi2 hj
    have hback : wrap_index n (wrap_index n i (j : Int)) (((n - j) % n : Nat) : Int) = i := by
      rw [wrap_index_nat n _ _ hr, wrap_index_nat n i j hj, reflect_index n j hj]
      split_ifs <;> omega
    rw [hback]
    ring

/-- Rows of the rotation differences of a reflected vector: row `i` is the negation of row
`(n - i) mod n` of the original, on the columns `1 ≤ j < n/2`. -/
theorem rotations_reflect (x y : seq) (n i j : Nat) (hx : x.length = n) (hy : y.length = n)
    (hxy : ∀ k, k < n → y.getD k 0 = x.getD ((n - k) % n) 0) (hi : i < n) (h1 : 1 ≤ j)
    (hj : j < n / 2) :
    ((rotations y).getD i []).getD j 0 = -(((rotations x).getD ((n - i) % n) []).getD j 0) := by
  have hr := reflect_index_lt n i hi
  rw [rotations_getD y n i j hy hi h1 hj, rotations_getD x n _ j hx hr h1 hj,
    hxy _ (Nat.mod_lt _ (by omega)), hxy _ (Nat.mod_lt _ (by omega))]
  have e1 : (n - (j + i) % n) % n = (n - j + (n - i) % n) % n := by
    rw [reflect_index n i hi, wrap_add n (j + i) (by omega)]
    split_ifs with ha hb hc
    · rw [reflect_index n _ (by omega), wrap_add n _ (by omega)]; split_ifs <;> omega
    · rw [reflect_index n _ (by omega), wrap_add n _ (by omega)]; split_ifs <;> omega
    · rw [reflect_index n _ (by omega), wrap_add n _ (by omega)]; split_ifs <;> omega
    · rw [reflect_index n _ (by omega), wrap_add n _ (by omega)]; split_ifs <;> omega
  have e2 : (n - (n - j + i) % n) % n = (j + (n - i) % n) % n := by
    rw [reflect_index n i hi, wrap_add n (n - j + i) (by omega)]
    split_ifs with ha hb hc
    · rw [reflect_index n _ (by omega), wrap_add n _ (by omega)]; split_ifs <;> omega
    · rw [reflect_index n _ (by omega), wrap_add n _ (by omega)]; split_ifs <;> omega
    · rw [reflect_index n _ (by omega), wrap_add n _ (by omega)]; split_ifs <;> omega
    · rw [reflect_index n _ (by omega), wrap_add n _ (by omega)]; split_ifs <;> omega
  rw [e1, e2]
  ring

theorem verdict_iff (t : set_t) (p : perm)
    (h0 : (t.s.getD (p.getD 0 0) []).length = t.n)
    (h2 : (t.s.getD (p.getD 2 0) []).length = t.n) :
    (_amicable t p).1 = true ↔
      some_pair_ok (cross_corrs (t.s.getD (p.getD 0 0) []) (t.s.getD (p.getD 1 0) []))
        (cross_corrs (t.s.getD (p.getD 2 0) []) (t.s.getD (p.getD 3 0) [])) t.n := by
  constructor
  · intro h
    obtain ⟨i1, i2, hi1, hi2, hok, _, _⟩ := amicable_true_first t p h0 h2 h
    exact ⟨i1, i2, hi1, hi2, hok⟩
  · rintro ⟨i1, i2, hi1, hi2, hok⟩
    exact amicable_true_of_pair t p h0 h2 i1 i2 hi1 hi2 hok

theorem reflect_twice (n k : Nat) (hk : k < n) : (n - (n - k) % n) % n = k := by
  rw [reflect_index n k hk]
  split_ifs with h
  · subst h; simp
  · rw [reflect_index n _ (by omega)]
    split_ifs <;> omega

theorem some_pair_ok_left_imp (x y z : seq) (n : Nat) (hx : x.length = n) (hy : y.length = n)
    (hxy : ∀ k, k < n → y.getD k 0 = x.getD ((n - k) % n) 0)
    (h : some_pair_ok y z n) : some_pair_ok x z n := by
  obtain ⟨i1, i2, hi1, hi2, hok⟩ := h
  refine ⟨(n - i1) % n, i2, reflect_index_lt n i1 hi1, hi2, ?_⟩
  rcases hok with hs | hd
  · right
    intro j h1 hj
    have := hs j h1 hj
    rw [rotations_reflect x y n i1 j hx hy hxy hi1 h1 hj] at this
    exact this
  · left
    intro j h1 hj
    have := hd j h1 hj
    rw [rotations_reflect x y n i1 j hx hy hxy hi1 h1 hj] at this
    linarith

theorem some_pair_ok_right_imp (x y z : seq) (n : Nat) (hx : x.length = n)
    (hy : y.length = n) (hxy : ∀ k, k < n → y.getD k 0 = x.getD ((n - k) % n) 0)
    (h : some_pair_ok z y n) : some_pair_ok z x n := by
  obtain ⟨i1, i2, hi1, hi2, hok⟩ := h
  refine ⟨i1, (n - i2) % n, hi1, reflect_index_lt n i2 hi2, ?_⟩
  rcases hok with hs | hd
  · right
    intro j h1 hj
    have := hs j h1 hj
    rw [rotations_reflect x y n i2 j hx hy hxy hi2 h1 hj] at this
    linarith
  · left
    intro j h1 hj
    have := hd j h1 hj
    rw [rotations_reflect x y n i2 j hx hy hxy hi2 h1 hj] at this
    linarith

theorem some_pair_ok_comm (x y : seq) (n : Nat) (h : some_pair_ok x y n) :
    some_pair_ok y x n := by
  obtain ⟨i1, i2, hi1, hi2, hok⟩ := h
  refine ⟨i2, i1, hi2, hi1, ?_⟩
  rcases hok with hs | hd
  · left
    intro j h1 hj
    have := hs j h1 hj
    linarith
  · right
    intro j h1 hj
    have := hd j h1 hj
    linarith

/-- The verdict of `_amicable` does not change when the two sequences of a pair are
swapped in the correlation. -/
theorem some_pair_ok_swap_left (a b y : seq) (n : Nat) (ha : a.length = n)
    (hb : b.length = n) :
    some_pair_ok (cross_corrs b a) y n ↔ some_pair_ok (cross_corrs a b) y n := by
  have hab : (cross_corrs a b).length = n := by rw [cross_corrs_length, ha]
  have hba : (cross_corrs b a).length = n := by rw [cross_corrs_length, hb]
  constructor
  · exact some_pair_ok_left_imp _ _ y n hab hba
      (fun k hk => cross_corrs_swap a b n k ha hb hk)
  · exact some_pair_ok_left_imp _ _ y n hba hab
      (fun k hk => cross_corrs_swap b a n k hb ha hk)

theorem some_pair_ok_swap_right (a b x : seq) (n : Nat) (ha : a.length = n)
    (hb : b.length = n) :
    some_pair_ok x (cross_corrs b a) n ↔ some_pair_ok x (cross_corrs a b) n := by
  have hab : (cross_corrs a b).length = n := by rw [cross_corrs_length, ha]
  have hba : (cross_corrs b a).length = n := by rw [cross_corrs_length, hb]
  constructor
  · exact some_pair_ok_right_imp _ _ x n hab hba
      (fun k hk => cross_corrs_swap a b n k ha hb hk)
  · exact some_pair_ok_right_imp _ _ x n hba hab
      (fun k hk => cross_corrs_swap b a n k hb ha hk)

/-- Claim C23. For every state with four forward sequences of length `n` and every
permutation `p` of `{0,1,2,3}`, the verdict of `_amicable` on `p` equals its verdict on
`(p[1],p[0],p[2],p[3])`, on `(p[0],p[1],p[3],p[2])` and on `(p[2],p[3],p[0],p[1])`; and
`cross_corrs(s2,s1)[j] = cross_corrs(s1,s2)[(n - j) mod n]` for all sequences `s1`, `s2` of
length `n` and all `j < n`. -/
theorem three_representatives (t : set_t) (p : perm) (hq : t.s.length = 4)
    (hl : ∀ x ∈ t.s, x.length = t.n) (hp : p.Perm [0, 1, 2, 3]) :
    (_amicable t [p.getD 1 0, p.getD 0 0, p.getD 2 0, p.getD 3 0]).1 = (_amicable t p).1 ∧
    (_amicable t [p.getD 0 0, p.getD 1 0, p.getD 3 0, p.getD 2 0]).1 = (_amicable t p).1 ∧
    (_amicable t [p.getD 2 0, p.getD 3 0, p.getD 0 0, p.getD 1 0]).1 = (_amicable t p).1 ∧
    (∀ s1 s2 : seq, s1.length = t.n → s2.length = t.n → ∀ j, j < t.n →
      (cross_corrs s2 s1).getD j 0 = (cross_corrs s1 s2).getD ((t.n - j) % t.n) 0) := by
  have h0 := first_pair_lengths t p hq hl hp 0 (by omega)
  have h1 := first_pair_lengths t p hq hl hp 1 (by omega)
  have h2 := first_pair_lengths t p hq hl hp 2 (by omega)
  have h3 := first_pair_lengths t p hq hl hp 3 (by omega)
  have hv := verdict_iff t p h0 h2
  refine ⟨?_, ?_, ?_, fun s1 s2 e1 e2 j hj => cross_corrs_swap s1 s2 t.n j e1 e2 hj⟩
  · rw [Bool.eq_iff_iff]
    have hv1 := verdict_iff t [p.getD 1 0, p.getD 0 0, p.getD 2 0, p.getD 3 0] h1 h2
    exact hv1.trans ((some_pair_ok_swap_left _ _ _ t.n h0 h1).trans hv.symm)
  · rw [Bool.eq_iff_iff]
    have hv2 := verdict_iff t [p.getD 0 0, p.getD 1 0, p.getD 3 0, p.getD 2 0] h0 h3
    exact hv2.trans ((some_pair_ok_swap_right _ _ _ t.n h2 h3).trans hv.symm)
  · rw [Bool.eq_iff_iff]
    have hv3 := verdict_iff t [p.getD 2 0, p.getD 3 0, p.getD 0 0, p.getD 1 0] h2 h0
    exact hv3.trans ((Iff.intro (some_pair_ok_comm _ _ t.n) (some_pair_ok_comm _ _ t.n)).trans
      hv.symm)

set_option maxRecDepth 100000 in
/-- Claim C23, instance: the length-6 example and the permutation `(0,2,1,3)`, on which
`_amicable` returns `true`, with the two entries of the first pair swapped. -/
theorem three_representatives_witness :
    ex_second6.s.length = 4 ∧ (∀ x ∈ ex_second6.s, x.length = ex_second6.n) ∧
    List.Perm [0, 2, 1, 3] [0, 1, 2, 3] ∧ (_amicable ex_second6 [0, 2, 1, 3]).1 = true ∧
    (_amicable ex_second6 [2, 0, 1, 3]).1 = true ∧
    (_amicable ex_second6 [([0, 2, 1, 3] : perm).getD 1 0, ([0, 2, 1, 3] : perm).getD 0 0,
      ([0, 2, 1, 3] : perm).getD 2 0, ([0, 2, 1, 3] : perm).getD 3 0]).1 =
      (_amicable ex_second6 [0, 2, 1, 3]).1 :=
  ⟨by decide, by decide, by decide, by decide, by decide,
    (three_representatives ex_second6 [0, 2, 1, 3] (by decide) (by decide) (by decide)).1⟩

/-! ## The two variants of `set_t::amicable` -/

/-- The verdict of `_amicable` in terms of the lag loop alone. -/
theorem amicable_true_iff_scan (t : set_t) (p : perm) :
    (_amicable t p).1 = true ↔
      ∃ i1, i1 < (corrs1 t p).length ∧ ∃ i2, i2 < (corrs2 t p).length ∧
        ((lag_scan ((corrs1 t p).getD i1 []) ((corrs2 t p).getD i2 [])
            (List.range ((corrs1 t p).getD 0 []).length) true true).1 = true ∨
         (lag_scan ((corrs1 t p).getD i1 []) ((corrs2 t p).getD i2 [])
            (List.range ((corrs1 t p).getD 0 []).length) true true).2 = true) := by
  constructor
  · intro h
    have heq : _amicable t p = (true, (_amicable t p).2) := by rw [← h]
    obtain ⟨i1, hi1, i2, hi2, hb, _, _⟩ := (amicable_eq_iff t p _).mp heq
    refine ⟨i1, hi1, i2, hi2, ?_⟩
    simp only [amicable_body] at hb
    split_ifs at hb with ha hc
    · exact Or.inl ha
    · exact Or.inr hc
  · rintro ⟨i1, hi1, i2, hi2, hor⟩
    cases hs : (List.range (corrs1 t p).length).findSome? (fun i1 =>
        (List.range (corrs2 t p).length).findSome? (fun i2 =>
          amicable_body t p (corrs1 t p) (corrs2 t p) i1 i2)) with
    | some t1 => rw [amicable_some t p t1 hs]
    | none =>
      exfalso
      have hnone := (findSome_range_none _ _).mp
        ((findSome_range_none _ _).mp hs i1 hi1) i2 hi2
      simp only [amicable_body] at hnone
      split_ifs at hnone with ha hc
      rcases hor with h | h
      · exact ha h
      · exact hc h

/-- The verdict of `_amicable` depends on the forward sequences only. -/
theorem verdict_congr (t u : set_t) (p : perm) (hs : t.s = u.s) :
    (_amicable t p).1 = (_amicable u p).1 := by
  have h1 : corrs1 t p = corrs1 u p := by unfold corrs1; rw [hs]
  have h2 : corrs2 t p = corrs2 u p := by unfold corrs2; rw [hs]
  rw [Bool.eq_iff_iff, amicable_true_iff_scan, amicable_true_iff_scan, h1, h2]

theorem verdict_false_of_s (t u : set_t) (p : perm) (hs : t.s = u.s)
    (hu : (_amicable u p).1 = false) : (_amicable t p).1 = false := by
  rw [verdict_congr t u p hs]; exact hu

theorem copy_loop_cons_true (pre : set_t → perm → set_t)
    (post : set_t → set_t → perm → set_t) (p : perm) (ps : List perm) (t : set_t)
    (h : (_amicable (pre t p) p).1 = true) :
    copy_loop pre post (p :: ps) t = (true, (_amicable (pre t p) p).2) := by
  rw [copy_loop]
  rcases hr : _amicable (pre t p) p with ⟨b, t1⟩
  rw [hr] at h
  cases h
  rfl

theorem copy_loop_cons_false (pre : set_t → perm → set_t)
    (post : set_t → set_t → perm → set_t) (p : perm) (ps : List perm) (t : set_t)
    (h : (_amicable (pre t p) p).1 = false) :
    copy_loop pre post (p :: ps) t = copy_loop pre post ps (post t (pre t p) p) := by
  have hst := amicable_fail_state (pre t p) p h
  rw [copy_loop]
  rcases hr : _amicable (pre t p) p with ⟨b, t1⟩
  rw [hr] at h hst
  cases h
  cases hst
  rfl

/-- A loop of the copy-and-reverse variant in which no call succeeds leaves the state as
it was, when its copies restore what its reversals changed. -/
theorem copy_loop_false (pre : set_t → perm → set_t)
    (post : set_t → set_t → perm → set_t) (ps : List perm) (t : set_t)
    (hpp : ∀ p ∈ ps, post t (pre t p) p = t)
    (h : (copy_loop pre post ps t).1 = false) :
    (copy_loop pre post ps t).2 = t ∧ ∀ p ∈ ps, (_amicable (pre t p) p).1 = false := by
  induction ps with
  | nil => exact ⟨rfl, fun p hp => (by cases hp)⟩
  | cons q qs ih =>
    cases hb : (_amicable (pre t q) q).1 with
    | true =>
      rw [copy_loop_cons_true pre post q qs t hb] at h
      cases h
    | false =>
      rw [copy_loop_cons_false pre post q qs t hb, hpp q (List.mem_cons_self _ _)] at h ⊢
      obtain ⟨h1, h2⟩ := ih (fun p hp => hpp p (List.mem_cons_of_mem _ hp)) h
      refine ⟨h1, ?_⟩
      intro p hp
      rcases List.mem_cons.mp hp with rfl | hp2
      · exact hb
      · exact h2 p hp2

theorem copy_restore_all (n : Nat) (a b c d : seq) (r : seqs) :
    ∀ p ∈ P,
      copy_restore2 ⟨n, [a, b, c, d], r⟩ (copy_prepare2 ⟨n, [a, b, c, d], r⟩ p) p =
        ⟨n, [a, b, c, d], r⟩ ∧
      copy_restore3 ⟨n, [a, b, c, d], r⟩ (copy_prepare3 ⟨n, [a, b, c, d], r⟩ p) p =
        ⟨n, [a, b, c, d], r⟩ ∧
      copy_restore4 ⟨n, [a, b, c, d], r⟩ (copy_prepare4 ⟨n, [a, b, c, d], r⟩ p) p =
        ⟨n, [a, b, c, d], r⟩ := by
  intro p hp
  simp only [P, List.mem_cons, List.mem_singleton, List.not_mem_nil, or_false] at hp
  rcases hp with rfl | rfl | rfl <;> exact ⟨rfl, rfl, rfl⟩

/-- A failing run of the copy-and-reverse variant leaves the state as it was, and each of
its nine `_amicable` calls returned `false`. -/
theorem amicable_copy_false (n : Nat) (a b c d : seq) (r : seqs)
    (h : (set_t.amicable_copy ⟨n, [a, b, c, d], r⟩).1 = false) :
    (set_t.amicable_copy ⟨n, [a, b, c, d], r⟩).2 = ⟨n, [a, b, c, d], r⟩ ∧
    ∀ p ∈ P,
      (_amicable (copy_prepare2 ⟨n, [a, b, c, d], r⟩ p) p).1 = false ∧
      (_amicable (copy_prepare3 ⟨n, [a, b, c, d], r⟩ p) p).1 = false ∧
      (_amicable (copy_prepare4 ⟨n, [a, b, c, d], r⟩ p) p).1 = false := by
  have hall := copy_restore_all n a b c d r
  unfold set_t.amicable_copy at h ⊢
  rcases h2 : copy_loop copy_prepare2 copy_restore2 P ⟨n, [a, b, c, d], r⟩ with ⟨b2, u2⟩
  rw [h2] at h
  cases b2
  · have e2 := copy_loop_false copy_prepare2 copy_restore2 P ⟨n, [a, b, c, d], r⟩
      (fun p hp => (hall p hp).1) (by rw [h2])
    rw [h2] at e2
    simp only at e2 h ⊢
    obtain ⟨e2a, e2b⟩ := e2
    subst e2a
    rcases h3 : copy_loop copy_prepare3 copy_restore3 P ⟨n, [a, b, c, d], r⟩ with ⟨b3, u3⟩
    rw [h3] at h
    cases b3
    · have e3 := copy_loop_false copy_prepare3 copy_restore3 P ⟨n, [a, b, c, d], r⟩
        (fun p hp => (hall p hp).2.1) (by rw [h3])
      rw [h3] at e3
      simp only at e3 h ⊢
      obtain ⟨e3a, e3b⟩ := e3
      subst e3a
      have e4 := copy_loop_false copy_prepare4 copy_restore4 P ⟨n, [a, b, c, d], r⟩
        (fun p hp => (hall p hp).2.2) h
      exact ⟨e4.1, fun p hp => ⟨e2b p hp, e3b p hp, e4.2 p hp⟩⟩
    · simp at h
  · simp at h

/-- A loop of the cache-swapping variant over three permutations whose calls all fail. -/
theorem amicable_loop_three (pre post : set_t → perm → set_t) (p0 p1 p2 : perm)
    (t u1 u2 u3 : set_t)
    (h0 : (_amicable (pre t p0) p0).1 = false) (e1 : post (pre t p0) p0 = u1)
    (h1 : (_amicable (pre u1 p1) p1).1 = false) (e2 : post (pre u1 p1) p1 = u2)
    (h2 : (_amicable (pre u2 p2) p2).1 = false) (e3 : post (pre u2 p2) p2 = u3) :
    amicable_loop pre post [p0, p1, p2] t = (false, u3) := by
  rw [amicable_loop_cons_false pre post p0 _ t h0, e1,
    amicable_loop_cons_false pre post p1 _ u1 h1, e2,
    amicable_loop_cons_false pre post p2 _ u2 h2, e3]
  rfl

/-- The cache-swapping variant fails on an as-read state as soon as the three calls
without reversal fail and the four calls that it makes on a reversed state fail. -/
theorem amicable_false_of_calls (n : Nat) (a b c d : seq)
    (h1 : ∀ p ∈ P, ∀ u : set_t, u.s = [a, b, c, d] → (_amicable u p).1 = false)
    (h23 : ∀ u : set_t, u.s = [a, b, c, d.reverse] → (_amicable u [0, 2, 1, 3]).1 = false)
    (h32 : ∀ u : set_t, u.s = [a, b, c.reverse, d] → (_amicable u [0, 2, 1, 3]).1 = false)
    (h41 : ∀ u : set_t, u.s = [a, b.reverse, c, d.reverse] →
      (_amicable u [0, 1, 2, 3]).1 = false)
    (h43 : ∀ u : set_t, u.s = [a, b, c.reverse, d.reverse] →
      (_amicable u [0, 3, 1, 2]).1 = false) :
    set_t.amicable ⟨n, [a, b, c, d], [a.reverse, b.reverse, c.reverse, d.reverse]⟩ =
      (false, ⟨n, [a, b, c, d], [a.reverse, b.reverse, c.reverse, d.reverse]⟩) := by
  have m0 : ([0, 1, 2, 3] : perm) ∈ P := by simp [P]
  have m1 : ([0, 2, 1, 3] : perm) ∈ P := by simp [P]
  have m2 : ([0, 3, 1, 2] : perm) ∈ P := by simp [P]
  have l1 : amicable_loop prepare1 restore1 P
      ⟨n, [a, b, c, d], [a.reverse, b.reverse, c.reverse, d.reverse]⟩ =
      (false, ⟨n, [a, b, c, d], [a.reverse, b.reverse, c.reverse, d.reverse]⟩) :=
    amicable_loop_three prepare1 restore1 _ _ _ _ _ _ _
      (h1 _ m0 _ rfl) rfl (h1 _ m1 _ rfl) rfl (h1 _ m2 _ rfl) rfl
  have l2 : amicable_loop prepare2 restore2 P
      ⟨n, [a, b, c, d], [a.reverse, b.reverse, c.reverse, d.reverse]⟩ =
      (false, ⟨n, [a, b, c, d], [a.reverse, b.reverse, c, d.reverse]⟩) :=
    amicable_loop_three prepare2 restore2 _ _ _ _
      ⟨n, [a, b, c, d], [a.reverse, b.reverse, c.reverse, d]⟩
      ⟨n, [a, b, c, d], [a.reverse, b.reverse, c.reverse, d.reverse]⟩ _
      (h1 _ m0 _ (by simp [prepare2, set_t.swap_slot, set_t.reverse_slot, set_t.set_s]))
      (by simp [prepare2, restore2, set_t.swap_slot, set_t.reverse_slot, set_t.set_s])
      (h23 _ (by simp [prepare2, set_t.swap_slot, set_t.reverse_slot, set_t.set_s]))
      (by simp [prepare2, restore2, set_t.swap_slot, set_t.reverse_slot, set_t.set_s])
      (h1 _ m2 _ (by simp [prepare2, set_t.swap_slot, set_t.reverse_slot, set_t.set_s]))
      (by simp [prepare2, restore2, set_t.swap_slot, set_t.reverse_slot, set_t.set_s])
  have l3 : amicable_loop prepare3 restore3 P
      ⟨n, [a, b, c, d], [a.reverse, b.reverse, c, d.reverse]⟩ =
      (false, ⟨n, [a, b, c, d], [a.reverse, b, c.reverse, d]⟩) :=
    amicable_loop_three prepare3 restore3 _ _ _ _
      ⟨n, [a, b, c, d], [a.reverse, b, c, d.reverse]⟩
      ⟨n, [a, b, c, d], [a.reverse, b, c.reverse, d.reverse]⟩ _
      (h1 _ m0 _ (by simp [prepare3, set_t.swap_slot, set_t.reverse_slot, set_t.set_s]))
      (by simp [prepare3, restore3, set_t.swap_slot, set_t.reverse_slot, set_t.set_s])
      (h32 _ (by simp [prepare3, set_t.swap_slot, set_t.reverse_slot, set_t.set_s]))
      (by simp [prepare3, restore3, set_t.swap_slot, set_t.reverse_slot, set_t.set_s])
      (h1 _ m2 _ (by simp [prepare3, set_t.swap_slot, set_t.reverse_slot, set_t.set_s]))
      (by simp [prepare3, restore3, set_t.swap_slot, set_t.reverse_slot, set_t.set_s])
  have l4 : amicable_loop prepare4 restore4 P
      ⟨n, [a, b, c, d], [a.reverse, b, c.reverse, d]⟩ =
      (false, ⟨n, [a, b, c, d], [a.reverse, b.reverse, c.reverse, d.reverse]⟩) :=
    amicable_loop_three prepare4 restore4 _ _ _ _
      ⟨n, [a, b, c, d], [a.reverse, b.reverse, c.reverse, d.reverse]⟩
      ⟨n, [a, b, c, d], [a.reverse, b.reverse, c, d]⟩ _
      (h41 _ (by simp [prepare4, set_t.swap_slot, set_t.reverse_slot, set_t.set_s]))
      (by simp [prepare4, restore4, set_t.swap_slot, set_t.reverse_slot, set_t.set_s])
      (h1 _ m1 _ (by simp [prepare4, set_t.swap_slot, set_t.reverse_slot, set_t.set_s]))
      (by simp [prepare4, restore4, set_t.swap_slot, set_t.reverse_slot, set_t.set_s])
      (h43 _ (by simp [prepare4, set_t.swap_slot, set_t.reverse_slot, set_t.set_s]))
      (by simp [prepare4, restore4, set_t.swap_slot, set_t.reverse_slot, set_t.set_s])
  rw [amicable_cases, l1]
  simp only [l2, l3, l4]
  simp

theorem first_loop_calls_false (ps : List perm) (t : set_t)
    (h : (amicable_loop prepare1 restore1 ps t).1 = false) :
    ∀ p ∈ ps, (_amicable t p).1 = false := by
  induction ps with
  | nil => intro p hp; cases hp
  | cons q qs ih =>
    cases hb : (_amicable t q).1 with
    | true =>
      rw [amicable_loop_cons_true prepare1 restore1 q qs t hb] at h
      cases h
    | false =>
      rw [amicable_loop_cons_false prepare1 restore1 q qs t hb] at h
      intro p hp
      rcases List.mem_cons.mp hp with rfl | hp2
      · exact hb
      · exact ih h p hp2

/-- A failing run of the cache-swapping variant made three failing calls on the state as
it was given. -/
theorem amicable_false_calls (t : set_t) (h : (t.amicable).1 = false) :
    ∀ p ∈ P, (_amicable t p).1 = false := by
  apply first_loop_calls_false
  by_contra hne
  have h1 : (amicable_loop prepare1 restore1 P t).1 = true := by simpa using hne
  rw [amicable_cases, if_pos h1] at h
  simp at h

set_option maxRecDepth 100000 in
/-- Claim C24, as stated, fails. On the length-4 as-read quadruple `ex_last4` both
variants succeed, but the cache-swapping variant leaves the four forward sequences as
read while the copy-and-reverse variant leaves slot 3 reversed; and on the length-10
as-read quadruple `ex_ten_plain` the cache-swapping variant succeeds (in its loop
without reversal) while the copy-and-reverse variant fails. -/
theorem variants_not_equivalent :
    (ex_last4.as_read ∧ (ex_last4.amicable).1 = true ∧ (ex_last4.amicable_copy).1 = true ∧
      (ex_last4.amicable).2.s = ex_last4.s ∧
      (ex_last4.amicable_copy).2.s = [[1, 1, 1, 1], [1, 1, 1, 1], [1, 1, 1, 1], [-1, 1, 1, 1]] ∧
      (ex_last4.amicable).2.s ≠ (ex_last4.amicable_copy).2.s) ∧
    (ex_ten_plain.as_read ∧ (ex_ten_plain.amicable).1 = true ∧
      (ex_ten_plain.amicable_copy).1 = false) := by
  decide

/-- Claim C24, amended. For every `n` and every as-read quadruple (reversed cache in
sync) on which the copy-and-reverse `set_t::amicable` of `src/set.c++` fails: that
variant leaves the state as it was; the cache-swapping `set_t::amicable` of
`src/src/set.c++` fails exactly when the three calls of its loop without reversal, a loop
the copy-and-reverse variant does not run, fail; and when both fail they leave the same
state, so the same four forward sequences. -/
theorem variants_on_failure (t : set_t) (hr : t.as_read)
    (hA : (t.amicable_copy).1 = false) :
    (t.amicable_copy).2 = t ∧
    ((t.amicable).1 = false ↔ ∀ p ∈ P, (_amicable t p).1 = false) ∧
    ((t.amicable).1 = false → (t.amicable).2 = (t.amicable_copy).2) := by
  obtain ⟨⟨hs, _, _, _⟩, hrev⟩ := hr
  rcases t with ⟨n, s, r⟩
  simp only at hs hrev
  match s, hs with
  | [a, b, c, d], _ =>
    subst hrev
    obtain ⟨hst, hcalls⟩ := amicable_copy_false n a b c d _ hA
    have m0 : ([0, 1, 2, 3] : perm) ∈ P := by simp [P]
    have m1 : ([0, 2, 1, 3] : perm) ∈ P := by simp [P]
    have m2 : ([0, 3, 1, 2] : perm) ∈ P := by simp [P]
    have key : (∀ p ∈ P, (_amicable
        ⟨n, [a, b, c, d], [a, b, c, d].map List.reverse⟩ p).1 = false) →
        set_t.amicable ⟨n, [a, b, c, d], [a, b, c, d].map List.reverse⟩ =
          (false, ⟨n, [a, b, c, d], [a, b, c, d].map List.reverse⟩) := by
      intro h1
      exact amicable_false_of_calls n a b c d
        (fun p hp u hu => verdict_false_of_s u _ p hu (h1 p hp))
        (fun u hu => verdict_false_of_s u _ _ hu (hcalls _ m1).1)
        (fun u hu => verdict_false_of_s u _ _ hu (hcalls _ m1).2.1)
        (fun u hu => verdict_false_of_s u _ _ hu (hcalls _ m0).2.2)
        (fun u hu => verdict_false_of_s u _ _ hu (hcalls _ m2).2.2)
    refine ⟨hst, ⟨amicable_false_calls _, fun h1 => by rw [key h1]⟩, ?_⟩
    intro hB
    rw [key (amicable_false_calls _ hB), hst]

set_option maxRecDepth 100000 in
/-- Claim C24, amended, instance: on the length-4 example `ex_fail4` both variants fail
and leave the state as it was. -/
theorem variants_on_failure_witness :
    ex_fail4.as_read ∧ (ex_fail4.amicable_copy).1 = false ∧
    (ex_fail4.amicable_copy).2 = ex_fail4 ∧
    ((ex_fail4.amicable).1 = false ↔ ∀ p ∈ P, (_amicable ex_fail4 p).1 = false) ∧
    ((ex_fail4.amicable).1 = false → (ex_fail4.amicable).2 = (ex_fail4.amicable_copy).2) :=
  ⟨by decide, by decide, variants_on_failure ex_fail4 (by decide) (by decide)⟩

/-! ## The correlation in `int` arithmetic -/

theorem int_wrap_of_in (v : Int) (h : in_int32 v) : int_wrap v = v := by
  unfold in_int32 at h
  unfold int_wrap
  omega

theorem int_wrap_in (v : Int) : in_int32 (int_wrap v) := by
  unfold in_int32 int_wrap
  omega

theorem cross_corr_upto_succ (k : Nat) (j : Int) (s1 s2 : seq) :
    cross_corr_upto (k + 1) j s1 s2 =
      cross_corr_upto k j s1 s2 + s1.getD k 0 * s2.getD (wrap_index s1.length k j) 0 := by
  unfold cross_corr_upto
  rw [List.range_succ, List.foldl_append]
  rfl

theorem cross_corr_int_upto_succ (k : Nat) (j : Int) (s1 s2 : seq) :
    cross_corr_int_upto (k + 1) j s1 s2 =
      int_wrap (cross_corr_int_upto k j s1 s2 +
        int_wrap (s1.getD k 0 * s2.getD (wrap_index s1.length k j) 0)) := by
  unfold cross_corr_int_upto
  rw [List.range_succ, List.foldl_append]
  rfl

/-- While every product and every partial sum fits an `int`, the accumulator of
`cross_corr` in `int` arithmetic is the exact partial sum. -/
theorem cross_corr_int_upto_eq (j : Int) (s1 s2 : seq) (k : Nat) (hk : k ≤ s1.length)
    (hprod : ∀ i, i < s1.length →
      in_int32 (s1.getD i 0 * s2.getD (wrap_index s1.length i j) 0))
    (hsum : ∀ m, m ≤ s1.length → in_int32 (cross_corr_upto m j s1 s2)) :
    cross_corr_int_upto k j s1 s2 = cross_corr_upto k j s1 s2 := by
  induction k with
  | zero => rfl
  | succ m ih =>
    rw [cross_corr_int_upto_succ, ih (by omega), int_wrap_of_in _ (hprod m (by omega)),
      ← cross_corr_upto_succ, int_wrap_of_in _ (hsum (m + 1) hk)]

theorem cross_corr_int_eq (j : Int) (s1 s2 : seq)
    (hprod : ∀ i, i < s1.length →
      in_int32 (s1.getD i 0 * s2.getD (wrap_index s1.length i j) 0))
    (hsum : ∀ m, m ≤ s1.length → in_int32 (cross_corr_upto m j s1 s2)) :
    cross_corr_int j s1 s2 = cross_corr j s1 s2 :=
  cross_corr_int_upto_eq j s1 s2 s1.length (le_refl _) hprod hsum

theorem cross_corrs_int_length (s1 s2 : seq) :
    (cross_corrs_int s1 s2).length = s1.length := by
  simp [cross_corrs_int]

theorem cross_corrs_int_getD (s1 s2 : seq) (j : Nat) (hj : j < s1.length) :
    (cross_corrs_int s1 s2).getD j 0 = cross_corr_int (j : Int) s1 s2 := by
  unfold cross_corrs_int
  exact getD_map_range _ _ _ _ hj

/-- Claim C5, as stated, fails. For the length-2 sequences `s1 = s2 = (100000, 0)` the
sum of the products at lag `0` is `10000000000`, which no `int` holds; `cross_corrs` in
`int` arithmetic has `1410065408` at lag `0`. -/
theorem cross_corrs_int_not_exact :
    ([100000, 0] : seq).length = 2 ∧
    cross_corrs_int [100000, 0] [100000, 0] = [1410065408, 0] ∧
    (∑ i ∈ Finset.range 2, ([100000, 0] : seq).getD i 0 *
      ([100000, 0] : seq).getD ((((i : Int) - ((0 : Nat) : Int)) % ((2 : Nat) : Int)).toNat) 0)
      = 10000000000 ∧
    (cross_corrs_int [100000, 0] [100000, 0]).getD 0 0 ≠
      ∑ i ∈ Finset.range 2, ([100000, 0] : seq).getD i 0 *
        ([100000, 0] : seq).getD ((((i : Int) - ((0 : Nat) : Int)) % ((2 : Nat) : Int)).toNat) 0 := by
  have hsum : (∑ i ∈ Finset.range 2, ([100000, 0] : seq).getD i 0 *
      ([100000, 0] : seq).getD ((((i : Int) - ((0 : Nat) : Int)) % ((2 : Nat) : Int)).toNat) 0)
      = 10000000000 := by
    simp [Finset.sum_range_succ]
  have hval : cross_corrs_int [100000, 0] [100000, 0] = [1410065408, 0] := by decide
  refine ⟨rfl, hval, hsum, ?_⟩
  rw [hsum, hval]
  decide

/-- Claim C5, amended. For integer sequences `s1`, `s2` of equal length `n` such that, at
every lag `j < n`, every product `s1[i] * s2[(i - j) mod n]` and every partial sum of
these products over `i < k` (`k ≤ n`) lies in the 32-bit signed range: `cross_corrs` in
`int` arithmetic has length `n`, its entry at every lag `j < n` is the sum over `i < n`
of `s1[i] * s2[(i - j) mod n]` (the index wrapped into `[0, n)`), its entry at lag `0` is
the dot product of `s1` and `s2`, and it is the list that `cross_corrs` computes over
the unbounded integers. -/
theorem cross_corrs_periodic (s1 s2 : seq) (n : Nat) (h1 : s1.length = n)
    (h2 : s2.length = n)
    (hprod : ∀ j, j < n → ∀ i, i < n →
      in_int32 (s1.getD i 0 * s2.getD ((((i : Int) - (j : Int)) % (n : Int)).toNat) 0))
    (hsum : ∀ j, j < n → ∀ k, k ≤ n →
      in_int32 (∑ i ∈ Finset.range k,
        s1.getD i 0 * s2.getD ((((i : Int) - (j : Int)) % (n : Int)).toNat) 0)) :
    (cross_corrs_int s1 s2).length = n ∧
    (∀ j, j < n → (cross_corrs_int s1 s2).getD j 0 =
      ∑ i ∈ Finset.range n,
        s1.getD i 0 * s2.getD ((((i : Int) - (j : Int)) % (n : Int)).toNat) 0) ∧
    (cross_corrs_int s1 s2).getD 0 0 = ∑ i ∈ Finset.range n, s1.getD i 0 * s2.getD i 0 ∧
    cross_corrs_int s1 s2 = cross_corrs s1 s2 := by
  have e : cross_corrs_int s1 s2 = cross_corrs s1 s2 := by
    unfold cross_corrs_int cross_corrs
    apply List.map_congr_left
    intro j hj
    have hjn : j < n := by rw [← h1]; exact List.mem_range.mp hj
    apply cross_corr_int_eq
    · intro i hi
      rw [h1] at hi ⊢
      rw [wrap_index_eq_emod n i j hi hjn]
      exact hprod j hjn i hi
    · intro m hm
      rw [h1] at hm
      rw [cross_corr_upto_eq_sum, h1]
      have hs := hsum j hjn m hm
      have hc : ∑ i ∈ Finset.range m, s1.getD i 0 * s2.getD (wrap_index n i (j : Int)) 0 =
          ∑ i ∈ Finset.range m,
            s1.getD i 0 * s2.getD ((((i : Int) - (j : Int)) % (n : Int)).toNat) 0 := by
        apply Finset.sum_congr rfl
        intro i hi
        rw [wrap_index_eq_emod n i j (by have := Finset.mem_range.mp hi; omega) hjn]
      rw [hc]
      exact hs
  have hold := cross_corrs_sum s1 s2 n h1 h2
  rw [e]
  exact ⟨hold.1, hold.2.1, hold.2.2, rfl⟩

/-- Claim C5, amended, instance: two sequences of length 4 with small entries. -/
theorem cross_corrs_periodic_witness :
    ([1, 2, 3, 4] : seq).length = 4 ∧ ([5, 6, 7, 8] : seq).length = 4 ∧
    cross_corrs_int [1, 2, 3, 4] [5, 6, 7, 8] = [70, 64, 62, 64] ∧
    ((cross_corrs_int [1, 2, 3, 4] [5, 6, 7, 8]).length = 4 ∧
    (∀ j, j < 4 → (cross_corrs_int [1, 2, 3, 4] [5, 6, 7, 8]).getD j 0 =
      ∑ i ∈ Finset.range 4,
        ([1, 2, 3, 4] : seq).getD i 0 *
          ([5, 6, 7, 8] : seq).getD ((((i : Int) - (j : Int)) % ((4 : Nat) : Int)).toNat) 0) ∧
    (cross_corrs_int [1, 2, 3, 4] [5, 6, 7, 8]).getD 0 0 =
      ∑ i ∈ Finset.range 4, ([1, 2, 3, 4] : seq).getD i 0 * ([5, 6, 7, 8] : seq).getD i 0 ∧
    cross_corrs_int [1, 2, 3, 4] [5, 6, 7, 8] = cross_corrs [1, 2, 3, 4] [5, 6, 7, 8]) :=
  ⟨rfl, rfl, by decide,
    cross_corrs_periodic [1, 2, 3, 4] [5, 6, 7, 8] 4 rfl rfl (by decide) (by decide)⟩

end LegendrePairs
